import Mathlib

/-!
# Verification of the `futures-concurrency` core combinators

Shallow embedding of the two source files of the repository:

* `src/stream/merge/vec.rs` — the `Merge` stream combinator, with its shared
  `Readiness` table and the per-source `StreamWaker` wake relay,
* `src/future/race_ok/tuple/mod.rs` — the `RaceOk` combinator (the
  `RaceOk1` .. `RaceOk12` family produced by `impl_race_ok_tuple!`).

Conventions of the embedding:

* `Poll<T>` becomes `MPoll T`; `Poll::Pending` is `MPoll.pending`.
* A stream (`AsyncSequence`) is a *script*: the list of responses its
  `poll_next` produces, in order (`SEv.item a` for `Ready(Some(a))`,
  `SEv.pend` for `Pending`); an exhausted script means `Ready(None)`.
* Rust `usize` arithmetic is `Nat` (no overflow is reachable: all counters
  are bounded by collection lengths).
* Helpers of the repository that live in `src/utils` (not part of the two
  files above) are modelled from the spec; each has a doc comment saying so.
* A Rust panic (failed `assert!`, poll-after-done) is modelled by an
  `Option`-valued operation returning `none`.
-/

/-- `core::task::Poll`. -/
inductive MPoll (α : Type u) where
  | ready (a : α)
  | pending
deriving DecidableEq, Repr

/-- One response of a stream's `poll_next`: an item, or `Pending`.
`Ready(None)` is represented by the script running out. -/
inductive SEv (α : Type u) where
  | item (a : α)
  | pend
deriving DecidableEq, Repr

/-- Modelled from the spec: an `AsyncSequence<T>` is "a suspension-based
computation producing a lazy, finite-or-infinite sequence of `T`, terminated
by an explicit no-more-items signal".  We embed the finite ones as the list
of responses successive `poll_next` calls produce. -/
abbrev Script (α : Type u) : Type u := List (SEv α)

/-- An item-only finite sequence (no `Pending` responses). -/
def Script.ofItems (l : List α) : Script α := l.map SEv.item

/-- `Readiness` from `src/stream/merge/vec.rs`:
`struct Readiness { count: usize, ready: Vec<bool> }`. -/
structure Readiness where
  count : Nat
  ready : List Bool
deriving DecidableEq, Repr

namespace Readiness

/-- `Readiness::set_ready` — returns the *old* ready state for this id,
together with the updated table.  Source:
`if !self.ready[id] { self.count += 1; self.ready[id] = true; false } else { true }`. -/
def set_ready (r : Readiness) (id : Nat) : Readiness × Bool :=
  if !(r.ready.getD id false) then
    ({ count := r.count + 1, ready := r.ready.set id true }, false)
  else
    (r, true)

/-- `Readiness::clear_ready` — returns whether the id was previously ready.
Source: `if self.ready[id] { self.count -= 1; self.ready[id] = false; true }
else { false }`. -/
def clear_ready (r : Readiness) (id : Nat) : Readiness × Bool :=
  if r.ready.getD id false then
    ({ count := r.count - 1, ready := r.ready.set id false }, true)
  else
    (r, false)

/-- `Readiness::any_ready`: `self.count > 0`. -/
def any_ready (r : Readiness) : Bool := r.count > 0

/-- The invariant stated by the spec for the Readiness Table:
"count equals the number of `true` flags at all times". -/
def Inv (r : Readiness) : Prop := r.count = r.ready.count true

instance (r : Readiness) : Decidable r.Inv := by
  unfold Inv; infer_instance

end Readiness

/-- `StreamWaker` from `src/stream/merge/vec.rs`: the Wake Relay.  It holds
the source index and (a handle to) the parent waker; the shared `Readiness`
table it also holds is the single `Readiness` value threaded through the
model, so it is not duplicated as a field value beyond the call sites.
The parent waker is abstracted as an opaque token `parent : Nat`. -/
structure StreamWaker where
  id : Nat
  parent : Nat
deriving DecidableEq, Repr

/-- `StreamWaker::wake`: `if !self.readiness.lock().unwrap().set_ready(self.id)
{ self.parent.wake_by_ref() }`.  Returns the updated table and whether the
parent waker was invoked. -/
def StreamWaker.wake (w : StreamWaker) (r : Readiness) : Readiness × Bool :=
  let p := r.set_ready w.id
  (p.1, !p.2)

/-- Modelled from the spec: `utils::Fuse` (not under `src/`): "a fused
sequence, once it signals termination, is never driven again and reports
termination on all subsequent drives without error". -/
structure Fuse (α : Type u) where
  script : Script α
  done : Bool
deriving DecidableEq, Repr

/-- `Fuse::new`. -/
def Fuse.new (s : Script α) : Fuse α := { script := s, done := false }

/-- Polling a fused stream: once `done`, report termination without driving
the underlying script; otherwise consume the next scripted response, and
record `done` when the script signals termination by running out. -/
def Fuse.poll : Fuse α → MPoll (Option α) × Fuse α
  | ⟨[], _⟩ => (.ready none, ⟨[], true⟩)
  | ⟨e :: t, d⟩ =>
    if d then (.ready none, ⟨e :: t, true⟩)
    else match e with
      | .item a => (.ready (some a), ⟨t, false⟩)
      | .pend => (.pending, ⟨t, false⟩)

/-- `Merge<S>` from `src/stream/merge/vec.rs`.  The `rng: RandomGenerator`
field lives in `src/utils` (not under `src/`); the spec describes it as a
fresh pseudo-random draw in `[0, length)` per call, so each `poll_next`
takes its draw as an explicit argument instead of carrying generator state. -/
structure Merge (α : Type u) where
  streams : List (Fuse α)
  readiness : Readiness
  complete : Nat
deriving DecidableEq, Repr

/-- `Merge::new`: wrap every stream in `Fuse`, readiness starts with
`count = streams.len()` and `ready = vec![true; count]`, `complete = 0`. -/
def Merge.new (srcs : List (Script α)) : Merge α :=
  { streams := srcs.map Fuse.new
    readiness := { count := srcs.length, ready := List.replicate srcs.length true }
    complete := 0 }

/-- Events recorded while `Merge::poll_next` runs, used to state the lock
discipline and waker-binding claims.  `lock`/`unlock` are
acquisition/release of the `Mutex<Readiness>` guard; `pollStream i w` is
`stream.poll_next` on source `i` with waker `w`. -/
inductive MEvent where
  | lock
  | unlock
  | clearReady (i : Nat)
  | setReady (i : Nat)
  | pollStream (i : Nat) (w : StreamWaker)
deriving DecidableEq, Repr

/-- The scan of `Merge::poll_next`'s loop for the next ready index:
repeatedly `index = (index + 1).wrapping_rem(len)` and try
`readiness.clear_ready(index)`, skipping indices whose flag is unset.
The skip iterations do not mutate any state (`clear_ready` on an unset flag
is the identity and `any_ready` only reads `count`), so they are folded
into one bounded search; `steps = len` suffices to visit every residue. -/
def scanReady (ready : List Bool) (len : Nat) : Nat → Nat → Option Nat
  | _, 0 => none
  | idx, steps + 1 =>
    let j := (idx + 1) % len
    if ready.getD j false then some j else scanReady ready len j steps

/-- The `loop { .. }` body of `Merge::poll_next` (source lines 130–171).
Entered holding the readiness guard.  `fuel` bounds the number of
iterations that select a source; `poll_next` passes `readiness.count`,
which is exact because every selecting iteration first succeeds in
`clear_ready` (count decreases by one) and iterations that return consume
no fuel.  Returns the poll result, the new state, and the event trace
(entered at guard depth 1). -/
def Merge.pollLoop (parent : Nat) : Nat → Merge α → Nat → MPoll (Option α) × Merge α × List MEvent
  | 0, s, _ =>
    -- Unreachable with `count > 0`: the loop is entered with `fuel = count`,
    -- and that equality is re-established before every recursive entry.
    -- With `count = 0` this coincides with the `any_ready` early return.
    (.pending, s, [.unlock])
  | fuel + 1, s, idx =>
    if s.readiness.count = 0 then
      -- `if !readiness.any_ready() { return Poll::Pending; }` (guard dropped on return)
      (.pending, s, [.unlock])
    else
      match scanReady s.readiness.ready s.streams.length idx s.streams.length with
      | none =>
        -- Unreachable under the Readiness invariant (`count > 0` guarantees a
        -- set flag within `len` steps); the code would keep scanning here.
        (.pending, s, [.unlock])
      | some j =>
        let r1 := (s.readiness.clear_ready j).1
        -- `drop(readiness)`; build the fresh `StreamWaker` for this index and
        -- poll the stream with it.
        let w : StreamWaker := ⟨j, parent⟩
        let f := s.streams.getD j ⟨[], true⟩
        let p := f.poll
        let streams' := s.streams.set j p.2
        match p.1 with
        | .ready (some a) =>
          -- "Mark ourselves as ready again because we need to poll for the
          -- next item", then return the item.
          (.ready (some a),
            { streams := streams', readiness := (r1.set_ready j).1, complete := s.complete },
            [.clearReady j, .unlock, .pollStream j w, .lock, .setReady j, .unlock])
        | .ready none =>
          if s.complete + 1 = s.streams.length then
            (.ready none,
              { streams := streams', readiness := r1, complete := s.complete + 1 },
              [.clearReady j, .unlock, .pollStream j w])
          else
            let t := Merge.pollLoop parent fuel
              { streams := streams', readiness := r1, complete := s.complete + 1 } j
            (t.1, t.2.1, [.clearReady j, .unlock, .pollStream j w, .lock] ++ t.2.2)
        | .pending =>
          let t := Merge.pollLoop parent fuel
            { streams := streams', readiness := r1, complete := s.complete } j
          (t.1, t.2.1, [.clearReady j, .unlock, .pollStream j w, .lock] ++ t.2.2)

/-- `Merge::poll_next` (`impl Stream for Merge<S>`): draw a starting index,
acquire the readiness guard, and run the loop.  `parent` is the opaque
token for `cx.waker()`, `draw` the pseudo-random draw of this call.
Returns the poll result, the new state, and the full event trace. -/
def Merge.poll_next (parent draw : Nat) (s : Merge α) : MPoll (Option α) × Merge α × List MEvent :=
  let idx := draw % s.streams.length
  let t := Merge.pollLoop parent s.readiness.count s idx
  (t.1, t.2.1, .lock :: t.2.2)

/-- Progress measure of a merge state: script events still to be consumed
plus sources still to terminate.  Every source selection inside
`poll_next` consumes one script event (an item or a suspension) or marks
one source done, so the measure strictly decreases whenever at least one
source is flagged ready. -/
def Merge.measure (s : Merge α) : Nat :=
  (s.streams.map (fun f => f.script.length)).sum
    + s.streams.countP (fun f => !f.done)

/-- Modelled from the spec: delivery of the outstanding wake notifications.
A source that answered `Pending` stored its `StreamWaker`; a finite
asynchronous sequence with responses left makes progress and invokes it,
which is `StreamWaker::wake`: `set_ready(id)` and a parent wake.  A source
is awaiting its wake exactly when it is not done and its flag is unset
(flags are cleared only when a source is selected for a poll, and re-set
immediately when it yields an item), so one pass visits every index and
fires the wake of each such source. -/
def wakePass (parent : Nat) (streams : List (Fuse α)) : Nat → Readiness → Readiness
  | 0, r => r
  | i + 1, r =>
    let r' := wakePass parent streams i r
    if !(streams.getD i ⟨[], true⟩).done && !(r'.ready.getD i false) then
      (StreamWaker.wake ⟨i, parent⟩ r').1
    else r'

/-- Modelled from the spec: the state of the merge after every suspended
source's pending wake has been delivered (see `wakePass`). -/
def Merge.deliverWakes (parent : Nat) (s : Merge α) : Merge α :=
  { s with readiness := wakePass parent s.streams s.streams.length s.readiness }

/-- Repeatedly drive a `Merge` stream, one pseudo-random draw per call,
collecting the items it yields.  Stops at `Ready(None)` (third component
`true`) or when the draws run out (third component `false`).  Between two
drives, every suspended source makes progress and its `StreamWaker` fires
(`Merge.deliverWakes`); the executor then re-polls, which is the next
recursive call. -/
def runMergeWake : List Nat → Merge α → List α × Merge α × Bool
  | [], s => ([], s, false)
  | d :: rest, s =>
    match Merge.poll_next 0 d s with
    | (.ready (some a), s', _) =>
      let t := runMergeWake rest (Merge.deliverWakes 0 s')
      (a :: t.1, t.2.1, t.2.2)
    | (.ready none, s', _) => ([], s', true)
    | (.pending, s', _) =>
      let t := runMergeWake rest (Merge.deliverWakes 0 s')
      (t.1, t.2.1, t.2.2)

/-! ## Small list helpers -/

theorem getD_set_self (l : List α) (i : Nat) (a d : α) (h : i < l.length) :
    (l.set i a).getD i d = a := by
  simp [List.getD_eq_getElem?_getD, List.getElem?_set_eq_of_lt _ h]

theorem getD_set_ne (l : List α) {i j : Nat} (a d : α) (h : i ≠ j) :
    (l.set i a).getD j d = l.getD j d := by
  simp [List.getD_eq_getElem?_getD, List.getElem?_set_ne h]

theorem getD_replicate_true (n i : Nat) (h : i < n) :
    (List.replicate n true).getD i false = true := by
  simp [List.getD_eq_getElem?_getD, List.getElem?_replicate, h]

theorem count_true_set_true : ∀ (l : List Bool) (i : Nat), i < l.length →
    l.getD i false = false → (l.set i true).count true = l.count true + 1
  | [], i, h, _ => absurd h (by simp)
  | b :: t, 0, _, hf => by
    have hb : b = false := by simpa using hf
    subst hb
    simp [List.count_cons]
  | b :: t, i + 1, h, hf => by
    have ht : i < t.length := by simpa using h
    have hf' : t.getD i false = false := by simpa using hf
    simp only [List.set_cons_succ, List.count_cons]
    rw [count_true_set_true t i ht hf']
    omega

theorem count_true_set_false : ∀ (l : List Bool) (i : Nat), i < l.length →
    l.getD i false = true → l.count true = (l.set i false).count true + 1
  | [], i, h, _ => absurd h (by simp)
  | b :: t, 0, _, hf => by
    have hb : b = true := by simpa using hf
    subst hb
    simp [List.count_cons]
  | b :: t, i + 1, h, hf => by
    have ht : i < t.length := by simpa using h
    have hf' : t.getD i false = true := by simpa using hf
    simp only [List.set_cons_succ, List.count_cons]
    rw [count_true_set_false t i ht hf']
    omega

/-! ## C6, C7, C10: Readiness table and wake relay -/

/-- C6: when the Wake Relay (`StreamWaker`) for source index `i` is invoked,
a `false` ready flag is set to `true` and the parent wake callback is
invoked; an already-`true` flag stays as it is and the parent wake callback
is not invoked. -/
theorem c6_streamWaker_wake (w : StreamWaker) (r : Readiness)
    (hw : w.id < r.ready.length) :
    (r.ready.getD w.id false = false →
      (w.wake r).1.ready.getD w.id false = true ∧ (w.wake r).2 = true) ∧
    (r.ready.getD w.id false = true →
      (w.wake r).1 = r ∧ (w.wake r).2 = false) := by
  constructor
  · intro hf
    unfold StreamWaker.wake Readiness.set_ready
    simp only [hf]
    exact ⟨getD_set_self _ _ _ _ hw, rfl⟩
  · intro ht
    unfold StreamWaker.wake Readiness.set_ready
    rw [ht]
    exact ⟨rfl, rfl⟩

theorem c6_streamWaker_wake_witness :
    let r : Readiness := ⟨1, [false, true]⟩
    ((0 : Nat) < r.ready.length) ∧
    ((r.ready.getD (0 : Nat) false = false →
      ((StreamWaker.mk 0 5).wake r).1.ready.getD 0 false = true ∧
      ((StreamWaker.mk 0 5).wake r).2 = true) ∧
    (r.ready.getD (0 : Nat) false = true →
      ((StreamWaker.mk 0 5).wake r).1 = r ∧ ((StreamWaker.mk 0 5).wake r).2 = false)) :=
  ⟨by decide, c6_streamWaker_wake ⟨0, 5⟩ ⟨1, [false, true]⟩ (by decide)⟩

/-- C7: the Readiness Table invariant "`count` equals the number of `true`
flags" holds for the table built by `Merge::new`, and is preserved by
`set_ready` and `clear_ready` at every in-range index, from every state
satisfying it. -/
theorem c7_readiness_inv (srcs : List (Script α)) (r : Readiness) (id : Nat)
    (hid : id < r.ready.length) (hr : r.Inv) :
    (Merge.new srcs).readiness.Inv ∧ (r.set_ready id).1.Inv ∧ (r.clear_ready id).1.Inv := by
  refine ⟨?_, ?_, ?_⟩
  · simp [Merge.new, Readiness.Inv, List.count_replicate]
  · unfold Readiness.set_ready
    rcases hflag : r.ready.getD id false with _ | _
    · simp only [hflag, Bool.not_false, if_pos]
      unfold Readiness.Inv at *
      simp only
      rw [count_true_set_true r.ready id hid hflag, hr]
    · simp [hflag, hr]
  · unfold Readiness.clear_ready
    rcases hflag : r.ready.getD id false with _ | _
    · simp [hflag, hr]
    · simp only [hflag, if_pos]
      unfold Readiness.Inv at *
      simp only
      have := count_true_set_false r.ready id hid hflag
      omega

theorem c7_readiness_inv_witness :
    ((1 : Nat) < (Readiness.mk 2 [true, true, false]).ready.length) ∧
    (Readiness.mk 2 [true, true, false]).Inv ∧
    ((Merge.new [Script.ofItems [1, 2]]).readiness.Inv ∧
      ((Readiness.mk 2 [true, true, false]).set_ready 1).1.Inv ∧
      ((Readiness.mk 2 [true, true, false]).clear_ready 1).1.Inv) :=
  ⟨by decide, by decide,
    c7_readiness_inv [Script.ofItems [1, 2]] ⟨2, [true, true, false]⟩ 1 (by decide) (by decide)⟩

/-- C10: immediately after `Merge::new` on `M` sources, every source's ready
flag is `true`, the ready-count equals `M`, and the flag vector has length
`M` — so the very first drive considers every source. -/
theorem c10_merge_new_ready (srcs : List (Script α)) (i : Nat) (hi : i < srcs.length) :
    (Merge.new srcs).readiness.ready.getD i false = true ∧
    (Merge.new srcs).readiness.count = srcs.length ∧
    (Merge.new srcs).readiness.ready.length = srcs.length ∧
    (Merge.new srcs).streams.length = srcs.length := by
  refine ⟨getD_replicate_true _ _ hi, rfl, by simp [Merge.new], by simp [Merge.new]⟩

theorem c10_merge_new_ready_witness :
    ((1 : Nat) < [Script.ofItems [3], Script.ofItems [4, 5]].length) ∧
    ((Merge.new [Script.ofItems [3], Script.ofItems [4, 5]]).readiness.ready.getD 1 false = true ∧
      (Merge.new [Script.ofItems [3], Script.ofItems [4, 5]]).readiness.count = 2 ∧
      (Merge.new [Script.ofItems [3], Script.ofItems [4, 5]]).readiness.ready.length = 2 ∧
      (Merge.new [Script.ofItems [3], Script.ofItems [4, 5]]).streams.length = 2) :=
  ⟨by decide, c10_merge_new_ready [Script.ofItems [3], Script.ofItems [4, 5]] 1 (by decide)⟩

/-! ## RaceOk (`src/future/race_ok/tuple/mod.rs`)

The `impl_race_ok_tuple!` macro generates `RaceOk1` .. `RaceOk12`, one per
arity, over heterogeneously-typed futures.  The embedding is uniform over
the arity: a length-`N` list of operations with a common `(T, ERR)`
(heterogeneity is a static-typing workaround per the spec's design notes
and does not affect the scheduling logic being verified). -/

instance {ε τ : Type u} [DecidableEq ε] [DecidableEq τ] : DecidableEq (Except ε τ) := fun a b =>
  match a, b with
  | .ok x, .ok y =>
    if h : x = y then isTrue (by rw [h]) else isFalse (by intro he; cases he; exact h rfl)
  | .ok _, .error _ => isFalse (by intro h; cases h)
  | .error _, .ok _ => isFalse (by intro h; cases h)
  | .error x, .error y =>
    if h : x = y then isTrue (by rw [h]) else isFalse (by intro he; cases he; exact h rfl)

/-- An `AsyncOperation<T,E>`: a suspension-based computation that reports
`Pending` for `delay` polls and then resolves to `result` exactly once. -/
structure RFut (ε τ : Type u) where
  delay : Nat
  result : Except ε τ
deriving DecidableEq, Repr

/-- One poll of an operation. -/
def RFut.poll : RFut ε τ → MPoll (Except ε τ) × RFut ε τ
  | ⟨0, r⟩ => (.ready r, ⟨0, r⟩)
  | ⟨d + 1, r⟩ => (.pending, ⟨d, r⟩)

/-- The `RaceOkN` combinator state: `completed`, `done`, the rotation
cursor of the `utils::Indexer`, the error slots, the operations, and —
modelled from the spec — the active index set ("an operation's index is
removed from the active set exactly once, immediately when that operation
completes, and never driven again"; `utils::Indexer` and
`utils::gen_conditions!` are not under `src/`). -/
structure RaceOkState (ε τ : Type u) where
  completed : Nat
  done : Bool
  cursor : Nat
  active : List Bool
  errors : List (Option ε)
  futs : List (RFut ε τ)
deriving DecidableEq, Repr

/-- `race_ok` construction: `completed: 0, done: false`, a fresh indexer,
uninitialized error slots, every index active.  The cursor starts so that
the first call scans from index 0 (the spec fixes only "resume where the
previous call left off"; the initial position is implementation freedom). -/
def RaceOkState.new (fs : List (RFut ε τ)) : RaceOkState ε τ :=
  { completed := 0
    done := false
    cursor := fs.length - 1
    active := List.replicate fs.length true
    errors := List.replicate fs.length none
    futs := fs }

/-- Modelled from the spec: the order in which one `drive()` call visits
indices — "starting from the position following where the previous
`drive()` call left off (round-robin continuation), visiting each active
index exactly once this call".  This enumerates all `n` positions once,
rotated to start just past the cursor; inactive positions are skipped by
the scan itself. -/
def visitOrder (n cursor : Nat) : List Nat :=
  (List.range n).map (fun k => (cursor + 1 + k) % n)

/-- The scan of one `drive()` (`poll`) call over the visit order.  For each
visited active index: poll the operation; `Ok` ends the race (mark terminal,
count the completion, remove the index, return the value immediately —
positions after it are not driven); `Err` records the error into the slot
at that index, counts the completion, removes the index permanently, and
the scan continues; `Pending` leaves the index active and continues.
The cursor follows the last index actually driven.  Returns the state, the
winning value if any, and the list of driven indices in order. -/
def raceScan : List Nat → RaceOkState ε τ → RaceOkState ε τ × Option τ × List Nat
  | [], s => (s, none, [])
  | i :: rest, s =>
    if s.active.getD i false = false then raceScan rest s
    else
      match s.futs[i]? with
      | none => raceScan rest s  -- unreachable: visit orders stay below `futs.length`
      | some f =>
        let p := f.poll
        match p.1 with
        | .ready (.ok v) =>
          ({ s with futs := s.futs.set i p.2, cursor := i, done := true,
                    completed := s.completed + 1, active := s.active.set i false },
            some v, [i])
        | .ready (.error e) =>
          let t := raceScan rest
            { s with futs := s.futs.set i p.2, cursor := i,
                     errors := s.errors.set i (some e),
                     completed := s.completed + 1, active := s.active.set i false }
          (t.1, t.2.1, i :: t.2.2)
        | .pending =>
          let t := raceScan rest { s with futs := s.futs.set i p.2, cursor := i }
          (t.1, t.2.1, i :: t.2.2)

/-- `RaceOkN::poll`.  `assert!(can_poll)`: polling after a terminal result
is a fatal usage error, modelled as `none`.  Otherwise scan the active
indices in rotation order; afterwards, if `completed == LEN`, move the
error slots into the `AggregateError` (positional order preserved) and
return it as terminal; otherwise report `Pending`. -/
def RaceOkState.poll (s : RaceOkState ε τ) :
    Option (MPoll (Except (List ε) τ) × RaceOkState ε τ × List Nat) :=
  if s.done then none
  else
    let t := raceScan (visitOrder s.futs.length s.cursor) s
    match t.2.1 with
    | some v => some (.ready (.ok v), t.1, t.2.2)
    | none =>
      if t.1.completed = t.1.futs.length then
        some (.ready (.error t.1.errors.reduceOption), { t.1 with done := true }, t.2.2)
      else
        some (.pending, t.1, t.2.2)

/-- Drive a `RaceOk` combinator to its terminal result: poll repeatedly
while `Pending`, stopping at a `Ready` result (or when `fuel` runs out or
a poll-after-done usage error occurs, both reported as `none`). -/
def raceRun : Nat → RaceOkState ε τ → Option (Except (List ε) τ) × RaceOkState ε τ
  | 0, s => (none, s)
  | fuel + 1, s =>
    match s.poll with
    | none => (none, s)
    | some (.ready r, s', _) => (some r, s')
    | some (.pending, s', _) => raceRun fuel s'

/-- The sequence of `drive()` calls with their polled-index traces:
`raceDrives k s` performs up to `k` polls, recording for each one the state
it was entered in and the indices it drove, stopping after a terminal
result (or a usage error). -/
def raceDrives : Nat → RaceOkState ε τ → List (RaceOkState ε τ × List Nat) × RaceOkState ε τ
  | 0, s => ([], s)
  | k + 1, s =>
    match s.poll with
    | none => ([], s)
    | some (.ready _, s', tr) => ([(s, tr)], s')
    | some (.pending, s', tr) =>
      let t := raceDrives k s'
      ((s, tr) :: t.1, t.2)

/-- C5: driving the `RaceOk` combinator after it has produced a terminal
result trips `assert!(can_poll, "Futures must not be polled after
completing")`: the poll panics (modelled by `none`) instead of returning
a value. -/
theorem c5_poll_after_done (s : RaceOkState ε τ) (h : s.done = true) :
    s.poll = none := by
  unfold RaceOkState.poll
  rw [h]
  rfl

theorem c5_poll_after_done_witness :
    (RaceOkState.mk 1 true 0 [false] [some "hello"] [⟨0, Except.error "hello"⟩]
      : RaceOkState String Nat).done = true ∧
    (RaceOkState.mk 1 true 0 [false] [some "hello"] [⟨0, Except.error "hello"⟩]
      : RaceOkState String Nat).poll = none :=
  ⟨rfl, c5_poll_after_done _ rfl⟩

/-! ## Rotation arithmetic

The round-robin scans (`(index + 1) % len` in `Merge::poll_next`, the
rotated visit order of the race) cover every index exactly once. -/

theorem mod_two_cases (t n : Nat) (h : t < 2 * n) :
    t % n = if t < n then t else t - n := by
  split
  · exact Nat.mod_eq_of_lt (by assumption)
  · have hn : 0 < n := by omega
    have h1 : n ≤ t := by omega
    rw [Nat.mod_eq_sub_mod h1, Nat.mod_eq_of_lt (by omega)]

theorem rotation_surj (n c i : Nat) (hi : i < n) :
    ∃ k, k < n ∧ (c + 1 + k) % n = i := by
  have hn : 0 < n := by omega
  have ha : (c + 1) % n < n := Nat.mod_lt _ hn
  by_cases hcase : (c + 1) % n ≤ i
  · refine ⟨i - (c + 1) % n, by omega, ?_⟩
    have h1 : (c + 1 + (i - (c + 1) % n)) % n = ((c + 1) % n + (i - (c + 1) % n)) % n :=
      (Nat.mod_add_mod _ _ _).symm
    have h2 : (c + 1) % n + (i - (c + 1) % n) = i := by omega
    rw [h1, h2, Nat.mod_eq_of_lt hi]
  · refine ⟨n + i - (c + 1) % n, by omega, ?_⟩
    have h1 : (c + 1 + (n + i - (c + 1) % n)) % n
        = ((c + 1) % n + (n + i - (c + 1) % n)) % n :=
      (Nat.mod_add_mod _ _ _).symm
    have h2 : (c + 1) % n + (n + i - (c + 1) % n) = n + i := by omega
    rw [h1, h2, Nat.add_mod_left, Nat.mod_eq_of_lt hi]

theorem rotation_inj (n c : Nat) {a b : Nat} (ha : a < n) (hb : b < n)
    (h : (c + 1 + a) % n = (c + 1 + b) % n) : a = b := by
  have hn : 0 < n := by omega
  have hm : (c + 1) % n < n := Nat.mod_lt _ hn
  have h1 : ((c + 1) % n + a) % n = ((c + 1) % n + b) % n := by
    rw [Nat.mod_add_mod, Nat.mod_add_mod]; exact h
  have h2 : ((c + 1) % n + a) % n
      = if (c + 1) % n + a < n then (c + 1) % n + a else (c + 1) % n + a - n :=
    mod_two_cases _ _ (by omega)
  have h3 : ((c + 1) % n + b) % n
      = if (c + 1) % n + b < n then (c + 1) % n + b else (c + 1) % n + b - n :=
    mod_two_cases _ _ (by omega)
  rw [h2, h3] at h1
  split at h1 <;> split at h1 <;> omega

theorem visitOrder_length (n c : Nat) : (visitOrder n c).length = n := by
  simp [visitOrder]

theorem visitOrder_mem {n c i : Nat} : i ∈ visitOrder n c ↔ i < n := by
  constructor
  · intro hi
    simp only [visitOrder, List.mem_map, List.mem_range] at hi
    obtain ⟨k, hk, he⟩ := hi
    subst he
    exact Nat.mod_lt _ (by omega)
  · intro hi
    obtain ⟨k, hk, he⟩ := rotation_surj n c i hi
    simp only [visitOrder, List.mem_map, List.mem_range]
    exact ⟨k, hk, he⟩

theorem visitOrder_nodup (n c : Nat) : (visitOrder n c).Nodup :=
  List.Nodup.map_on
    (fun _ ha _ hb h =>
      rotation_inj n c (List.mem_range.mp ha) (List.mem_range.mp hb) h)
    (List.nodup_range n)

theorem visitOrder_perm (n c : Nat) : (visitOrder n c).Perm (List.range n) := by
  rw [List.perm_ext_iff_of_nodup (visitOrder_nodup n c) (List.nodup_range n)]
  intro i
  rw [visitOrder_mem, List.mem_range]

/-! ## More list helpers -/

theorem set_self_of_getElem? : ∀ (l : List α) (i : Nat) (a : α),
    l[i]? = some a → l.set i a = l
  | [], i, a, h => by simp at h
  | b :: t, 0, a, h => by
    simp only [List.getElem?_cons_zero, Option.some.injEq] at h
    simp [h]
  | b :: t, i + 1, a, h => by
    simp only [List.getElem?_cons_succ] at h
    simp [set_self_of_getElem? t i a h]

theorem countP_set (p : α → Bool) : ∀ (l : List α) (i : Nat) (x : α), i < l.length →
    (l.set i x).countP p + (if p (l.getD i x) then 1 else 0) =
      l.countP p + (if p x then 1 else 0)
  | [], i, x, h => absurd h (by simp)
  | b :: t, 0, x, _ => by
    simp only [List.set_cons_zero, List.getD_cons_zero, List.countP_cons]
    omega
  | b :: t, i + 1, x, h => by
    simp only [List.set_cons_succ, List.getD_cons_succ, List.countP_cons]
    have := countP_set p t i x (by simpa using h)
    omega

/-! ## Merge: remaining items, invariant -/

/-- The items a script will still produce. -/
def Script.items (sc : Script α) : List α :=
  sc.filterMap (fun e => match e with | .item a => some a | .pend => none)

/-- The items a fused source will still produce (its script's items; a
`done` source's script is empty in every reachable state). -/
def Fuse.items (f : Fuse α) : List α := Script.items f.script

/-- The per-source lists of remaining items of a merge state. -/
def Merge.rem (s : Merge α) : List (List α) := s.streams.map Fuse.items

/-- Total number of items still to be produced. -/
def Merge.totalItems (s : Merge α) : Nat := (Merge.rem s).flatten.length

/-- Invariant holding whenever a drive of the merge begins — established
by `Merge::new` and re-established by the wake delivery between drives:
flag lengths match, a source is flagged exactly while it is not done,
`count`/`complete` count the not-done/done sources, and terminated sources
have exhausted scripts. -/
structure MInv (s : Merge α) : Prop where
  len_ready : s.readiness.ready.length = s.streams.length
  flags : ∀ i, i < s.streams.length →
    s.readiness.ready.getD i false = !(s.streams.getD i ⟨[], true⟩).done
  count_eq : s.readiness.count = s.streams.countP (fun f => !f.done)
  complete_eq : s.complete = s.streams.countP (fun f => f.done)
  done_empty : ∀ f ∈ s.streams, f.done = true → f.script = []

/-- Invariant holding at every point of the scan inside one
`Merge::poll_next` call (wakes are not delivered while the call runs, so a
source polled `Pending` keeps its flag unset although it is not done):
a flagged source is not done, `count` counts the set flags, `complete`
counts the done sources, and terminated sources have exhausted scripts. -/
structure GInv (s : Merge α) : Prop where
  len_ready : s.readiness.ready.length = s.streams.length
  flags_not_done : ∀ i, i < s.streams.length →
    s.readiness.ready.getD i false = true →
    (s.streams.getD i ⟨[], true⟩).done = false
  count_inv : s.readiness.count = s.readiness.ready.count true
  complete_eq : s.complete = s.streams.countP (fun f => f.done)
  done_empty : ∀ f ∈ s.streams, f.done = true → f.script = []

/-- Every source has signaled termination and nothing is flagged ready. -/
def Merge.allDone (s : Merge α) : Prop :=
  (∀ f ∈ s.streams, f.done = true) ∧ s.readiness.count = 0

theorem getD_eq_getElem (l : List α) (d : α) {i : Nat} (h : i < l.length) :
    l.getD i d = l[i] := by
  simp [List.getD_eq_getElem?_getD, List.getElem?_eq_getElem h]

theorem rem_getD (s : Merge α) {j : Nat} (h : j < s.streams.length) :
    (Merge.rem s).getD j [] = Fuse.items (s.streams.getD j ⟨[], true⟩) := by
  have hj : j < (Merge.rem s).length := by simp [Merge.rem, h]
  rw [getD_eq_getElem _ _ hj, getD_eq_getElem _ _ h]
  simp [Merge.rem]

theorem countP_done_add_not_done (l : List (Fuse α)) :
    l.countP (fun f => f.done) + l.countP (fun f => !f.done) = l.length := by
  induction l with
  | nil => rfl
  | cons f t ih =>
    cases hd : f.done <;> simp [List.countP_cons, hd] <;> omega

theorem countP_eq_one_unique_idx (p : α → Bool) (d : α) :
    ∀ (l : List α), l.countP p = 1 →
      ∀ i1 i2, i1 < l.length → i2 < l.length →
        p (l.getD i1 d) = true → p (l.getD i2 d) = true → i1 = i2 := by
  intro l
  induction l with
  | nil => intro _ i1 i2 h1 _ _ _; exact absurd h1 (by simp)
  | cons x t ih =>
    intro hcnt i1 i2 h1 h2 hp1 hp2
    rw [List.countP_cons] at hcnt
    by_cases hx : p x = true
    · have ht : t.countP p = 0 := by rw [if_pos hx] at hcnt; omega
      have hnone : ∀ a ∈ t, ¬p a = true := List.countP_eq_zero.mp ht
      match i1, i2 with
      | 0, 0 => rfl
      | 0, k + 1 =>
        have hk : k < t.length := by simpa using h2
        rw [List.getD_cons_succ, getD_eq_getElem _ _ hk] at hp2
        exact absurd hp2 (hnone _ (List.getElem_mem hk))
      | k + 1, 0 =>
        have hk : k < t.length := by simpa using h1
        rw [List.getD_cons_succ, getD_eq_getElem _ _ hk] at hp1
        exact absurd hp1 (hnone _ (List.getElem_mem hk))
      | k + 1, m + 1 =>
        have hk : k < t.length := by simpa using h1
        have hm : m < t.length := by simpa using h2
        rw [List.getD_cons_succ, getD_eq_getElem _ _ hk] at hp1
        exact absurd hp1 (hnone _ (List.getElem_mem hk))
    · have ht : t.countP p = 1 := by rw [if_neg hx] at hcnt; omega
      match i1, i2 with
      | 0, _ => rw [List.getD_cons_zero] at hp1; exact absurd hp1 hx
      | _ + 1, 0 => rw [List.getD_cons_zero] at hp2; exact absurd hp2 hx
      | k + 1, m + 1 =>
        have hk : k < t.length := by simpa using h1
        have hm : m < t.length := by simpa using h2
        rw [List.getD_cons_succ] at hp1 hp2
        exact congrArg (· + 1) (ih ht k m hk hm hp1 hp2)

/-- `Merge::new` establishes the drive-entry invariant for every
collection of sources. -/
theorem MInv_new (srcs : List (Script α)) : MInv (Merge.new srcs) := by
  constructor
  · simp [Merge.new]
  · intro i hi
    simp only [Merge.new, List.length_map] at hi ⊢
    rw [getD_replicate_true _ _ (by simpa using hi)]
    have : i < (srcs.map Fuse.new).length := by simpa using hi
    rw [getD_eq_getElem _ _ this]
    simp [Fuse.new]
  · simp only [Merge.new]
    rw [List.countP_eq_length.mpr]
    · simp
    · intro f hf
      simp only [List.mem_map] at hf
      obtain ⟨sc, _, rfl⟩ := hf
      simp [Fuse.new]
  · simp only [Merge.new]
    rw [Eq.comm, List.countP_eq_zero]
    intro f hf
    simp only [List.mem_map] at hf
    obtain ⟨sc, _, rfl⟩ := hf
    simp [Fuse.new]
  · intro f hf hd
    simp only [Merge.new, List.mem_map] at hf
    obtain ⟨sc, _, rfl⟩ := hf
    simp [Fuse.new] at hd

/-! ## The ready scan finds a flagged index -/

theorem scanReady_finds (ready : List Bool) (len : Nat) (hlen : 0 < len) :
    ∀ (steps : Nat) (idx : Nat),
      (∃ k, k < steps ∧ ready.getD ((idx + 1 + k) % len) false = true) →
      ∃ j, scanReady ready len idx steps = some j ∧
        ready.getD j false = true ∧ j < len := by
  intro steps
  induction steps with
  | zero =>
    intro idx h
    obtain ⟨k, hk, _⟩ := h
    omega
  | succ m ih =>
    intro idx h
    obtain ⟨k, hk, hflag⟩ := h
    by_cases hhead : ready.getD ((idx + 1) % len) false = true
    · refine ⟨(idx + 1) % len, ?_, hhead, Nat.mod_lt _ hlen⟩
      have hh : ready[(idx + 1) % len]?.getD false = true := by
        simpa [List.getD_eq_getElem?_getD] using hhead
      simp [scanReady, hh]
    · have hk0 : k ≠ 0 := by
        intro h0
        subst h0
        exact hhead hflag
      obtain ⟨k', rfl⟩ : ∃ k', k = k' + 1 := ⟨k - 1, by omega⟩
      have hheadf : ready.getD ((idx + 1) % len) false = false := by
        revert hhead; cases ready.getD ((idx + 1) % len) false <;> simp
      have hrec : scanReady ready len idx (m + 1)
          = scanReady ready len ((idx + 1) % len) m := by
        have hh : ready[(idx + 1) % len]?.getD false = false := by
          simpa [List.getD_eq_getElem?_getD] using hheadf
        simp [scanReady, hh]
      have hshift : ((idx + 1) % len + 1 + k') % len = (idx + 1 + (k' + 1)) % len := by
        have e1 : (idx + 1) % len + 1 + k' = (idx + 1) % len + (1 + k') := by omega
        have e2 : idx + 1 + (k' + 1) = idx + 1 + (1 + k') := by omega
        rw [e1, e2, Nat.mod_add_mod]
      rw [hrec]
      exact ih ((idx + 1) % len) ⟨k', by omega, by rw [hshift]; exact hflag⟩

/-! ## Invariant preservation for one loop iteration -/

theorem stream_mem_of_getD (s : Merge α) {j : Nat} (hj : j < s.streams.length) :
    s.streams.getD j ⟨[], true⟩ ∈ s.streams := by
  rw [getD_eq_getElem _ _ hj]
  exact List.getElem_mem hj

/-- Pointwise-matching flags count exactly the not-done sources. -/
theorem count_true_eq : ∀ (l1 : List Bool) (l2 : List (Fuse α)),
    l1.length = l2.length →
    (∀ i, i < l2.length → l1.getD i false = !(l2.getD i ⟨[], true⟩).done) →
    l1.count true = l2.countP (fun f => !f.done)
  | [], [], _, _ => rfl
  | [], _ :: _, h, _ => by simp at h
  | _ :: _, [], h, _ => by simp at h
  | b :: t1, f :: t2, h, hiff => by
    have h0 := hiff 0 (by simp)
    simp only [List.getD_cons_zero] at h0
    have ih := count_true_eq t1 t2 (by simpa using h) (fun i hi => by
      have h2 := hiff (i + 1) (by simpa using hi)
      simpa using h2)
    rw [List.count_cons, List.countP_cons, ih]
    cases hfd : f.done
    · rw [hfd] at h0
      simp only [Bool.not_false] at h0
      rw [h0]
      simp
    · rw [hfd] at h0
      simp only [Bool.not_true] at h0
      rw [h0]
      simp

/-- Flags set only on not-done sources are at most as many as the
not-done sources. -/
theorem count_true_le : ∀ (l1 : List Bool) (l2 : List (Fuse α)),
    l1.length = l2.length →
    (∀ i, i < l2.length → l1.getD i false = true → (l2.getD i ⟨[], true⟩).done = false) →
    l1.count true ≤ l2.countP (fun f => !f.done)
  | [], [], _, _ => le_refl _
  | [], _ :: _, h, _ => by simp at h
  | _ :: _, [], h, _ => by simp at h
  | b :: t1, f :: t2, h, himp => by
    have ih := count_true_le t1 t2 (by simpa using h) (fun i hi hbi => by
      have h2 := himp (i + 1) (by simpa using hi)
      simp only [List.getD_cons_succ] at h2
      exact h2 hbi)
    rw [List.count_cons, List.countP_cons]
    cases hb : b
    · cases hfd : f.done <;> simp <;> omega
    · have h0 := himp 0 (by simp)
      simp only [List.getD_cons_zero] at h0
      rw [h0 hb]
      simp
      omega

theorem exists_true_getD (l : List Bool) (h : 0 < l.count true) :
    ∃ i, i < l.length ∧ l.getD i false = true := by
  have hmem : true ∈ l := List.count_pos_iff.mp h
  obtain ⟨i, hi, hv⟩ := List.mem_iff_getElem.mp hmem
  exact ⟨i, hi, by rw [getD_eq_getElem _ _ hi, hv]⟩

theorem count_pos_of_getD_true (l : List Bool) (j : Nat) (hj : j < l.length)
    (h : l.getD j false = true) : 0 < l.count true := by
  apply List.count_pos_iff.mpr
  rw [getD_eq_getElem _ _ hj] at h
  rw [← h]
  exact List.getElem_mem hj

/-- The drive-entry invariant implies the scan invariant. -/
theorem MInv.toGInv {s : Merge α} (inv : MInv s) : GInv s := by
  constructor
  · exact inv.len_ready
  · intro i hi hflag
    have h := inv.flags i hi
    rw [hflag] at h
    revert h
    cases (s.streams.getD i ⟨[], true⟩).done <;> simp
  · rw [inv.count_eq]
    exact (count_true_eq s.readiness.ready s.streams
      (by rw [inv.len_ready]) inv.flags).symm
  · exact inv.complete_eq
  · exact inv.done_empty

/-- The index the ready scan returns has its flag set. -/
theorem scanReady_some_flag (ready : List Bool) (len : Nat) :
    ∀ (steps idx j : Nat),
      scanReady ready len idx steps = some j → ready.getD j false = true := by
  intro steps
  induction steps with
  | zero => intro idx j h; simp [scanReady] at h
  | succ m ih =>
    intro idx j h
    by_cases hf : ready.getD ((idx + 1) % len) false = true
    · have hh : ready[(idx + 1) % len]?.getD false = true := by
        simpa [List.getD_eq_getElem?_getD] using hf
      rw [show scanReady ready len idx (m + 1) = some ((idx + 1) % len) from by
        simp [scanReady, hh]] at h
      simp only [Option.some.injEq] at h
      rw [← h]
      exact hf
    · have hf' : ready.getD ((idx + 1) % len) false = false := by
        revert hf
        cases ready.getD ((idx + 1) % len) false <;> simp
      have hh : ready[(idx + 1) % len]?.getD false = false := by
        simpa [List.getD_eq_getElem?_getD] using hf'
      rw [show scanReady ready len idx (m + 1)
          = scanReady ready len ((idx + 1) % len) m from by
        simp [scanReady, hh]] at h
      exact ih _ _ h

theorem scanReady_from_GInv (s : Merge α) (g : GInv s)
    (hc : s.readiness.count ≠ 0) (idx : Nat) :
    ∃ j, scanReady s.readiness.ready s.streams.length idx s.streams.length = some j ∧
      s.readiness.ready.getD j false = true ∧ j < s.streams.length := by
  have hpos : 0 < s.readiness.ready.count true := by
    rw [← g.count_inv]
    omega
  obtain ⟨i, hi, hflag⟩ := exists_true_getD s.readiness.ready hpos
  have hi' : i < s.streams.length := by
    rw [← g.len_ready]
    exact hi
  have hlen : 0 < s.streams.length := by omega
  obtain ⟨k, hk, hke⟩ := rotation_surj s.streams.length idx i hi'
  exact scanReady_finds s.readiness.ready s.streams.length hlen s.streams.length idx
    ⟨k, hk, by rw [hke]; exact hflag⟩

theorem lt_length_of_getD_done_false (l : List (Fuse α)) (j : Nat)
    (h : (l.getD j ⟨[], true⟩).done = false) : j < l.length := by
  by_contra hge
  rw [List.getD_eq_getElem?_getD, List.getElem?_eq_none (by omega)] at h
  simp at h

/-- After clearing and re-setting the selected flag (the item branch of the
loop), the readiness table is exactly what it was. -/
theorem readiness_clear_set (r : Readiness) (j : Nat) (hjr : j < r.ready.length)
    (hflag : r.ready.getD j false = true) (hcne : r.count ≠ 0) :
    (((r.clear_ready j).1).set_ready j).1 = r := by
  unfold Readiness.clear_ready Readiness.set_ready
  rw [hflag]
  simp only [if_pos]
  rw [getD_set_self _ _ _ _ hjr]
  simp only [Bool.not_false, if_pos, List.set_set]
  have h1 : r.count - 1 + 1 = r.count := by omega
  have h2 : r.ready.set j true = r.ready :=
    set_self_of_getElem? _ _ _ (by
      rw [List.getD_eq_getElem?_getD] at hflag
      cases hg : r.ready[j]? with
      | none => rw [hg] at hflag; simp at hflag
      | some b => rw [hg] at hflag; simp at hflag; rw [hflag])
  rw [h1, h2]

theorem clear_ready_getD_ne (r : Readiness) (j i : Nat) (hij : j ≠ i) :
    (r.clear_ready j).1.ready.getD i false = r.ready.getD i false := by
  unfold Readiness.clear_ready
  split
  · simp only
    exact getD_set_ne _ _ _ hij
  · rfl

theorem set_ready_getD_ne (r : Readiness) (j i : Nat) (hij : j ≠ i) :
    (r.set_ready j).1.ready.getD i false = r.ready.getD i false := by
  unfold Readiness.set_ready
  split
  · simp only
    exact getD_set_ne _ _ _ hij
  · rfl

/-! ## Scan-invariant preservation for one loop iteration -/

theorem GInv_item_step (s : Merge α) (g : GInv s) {j : Nat} (hj : j < s.streams.length)
    {a : α} {tail : Script α}
    (hE : s.streams.getD j ⟨[], true⟩ = ⟨SEv.item a :: tail, false⟩) :
    GInv { streams := s.streams.set j ⟨tail, false⟩
           readiness := s.readiness
           complete := s.complete } := by
  constructor
  · simpa using g.len_ready
  · intro i hi hflag
    simp only [List.length_set] at hi
    by_cases hij : i = j
    · subst hij
      simp only
      rw [getD_set_self _ _ _ _ hi]
    · simp only
      rw [getD_set_ne _ _ _ (fun h => hij h.symm)]
      exact g.flags_not_done i hi hflag
  · exact g.count_inv
  · simp only
    rw [g.complete_eq]
    have h := countP_set (fun f => f.done) s.streams j ⟨tail, false⟩ hj
    rw [getD_eq_getElem _ _ hj, ← getD_eq_getElem _ (⟨[], true⟩ : Fuse α) hj, hE] at h
    simp only at h
    omega
  · intro f hf hd
    rcases List.mem_or_eq_of_mem_set hf with hold | rfl
    · exact g.done_empty f hold hd
    · simp at hd

theorem GInv_pend_step (s : Merge α) (g : GInv s) {j : Nat} (hj : j < s.streams.length)
    (hflag : s.readiness.ready.getD j false = true)
    {tail : Script α}
    (hE : s.streams.getD j ⟨[], true⟩ = ⟨SEv.pend :: tail, false⟩) :
    GInv { streams := s.streams.set j ⟨tail, false⟩
           readiness := (s.readiness.clear_ready j).1
           complete := s.complete } := by
  have hjr : j < s.readiness.ready.length := by
    rw [g.len_ready]
    exact hj
  have hclear : (s.readiness.clear_ready j).1
      = ⟨s.readiness.count - 1, s.readiness.ready.set j false⟩ := by
    unfold Readiness.clear_ready
    rw [hflag]
    rfl
  constructor
  · rw [hclear]
    simpa using g.len_ready
  · intro i hi hfl
    simp only [List.length_set] at hi
    rw [hclear] at hfl
    by_cases hij : i = j
    · subst hij
      simp only at hfl
      rw [getD_set_self _ _ _ _ hjr] at hfl
      exact absurd hfl (by simp)
    · simp only at hfl
      rw [getD_set_ne _ _ _ (fun h => hij h.symm)] at hfl
      simp only
      rw [getD_set_ne _ _ _ (fun h => hij h.symm)]
      exact g.flags_not_done i hi hfl
  · rw [hclear]
    simp only
    have hset := count_true_set_false s.readiness.ready j hjr hflag
    have hc := g.count_inv
    omega
  · simp only
    rw [g.complete_eq]
    have h := countP_set (fun f => f.done) s.streams j ⟨tail, false⟩ hj
    rw [getD_eq_getElem _ _ hj, ← getD_eq_getElem _ (⟨[], true⟩ : Fuse α) hj, hE] at h
    simp only at h
    omega
  · intro f hf hd
    rcases List.mem_or_eq_of_mem_set hf with hold | rfl
    · exact g.done_empty f hold hd
    · simp at hd

theorem GInv_done_step (s : Merge α) (g : GInv s) {j : Nat} (hj : j < s.streams.length)
    (hflag : s.readiness.ready.getD j false = true)
    (hE : s.streams.getD j ⟨[], true⟩ = ⟨[], false⟩) :
    GInv { streams := s.streams.set j ⟨[], true⟩
           readiness := (s.readiness.clear_ready j).1
           complete := s.complete + 1 } := by
  have hjr : j < s.readiness.ready.length := by
    rw [g.len_ready]
    exact hj
  have hclear : (s.readiness.clear_ready j).1
      = ⟨s.readiness.count - 1, s.readiness.ready.set j false⟩ := by
    unfold Readiness.clear_ready
    rw [hflag]
    rfl
  constructor
  · rw [hclear]
    simpa using g.len_ready
  · intro i hi hfl
    simp only [List.length_set] at hi
    rw [hclear] at hfl
    by_cases hij : i = j
    · subst hij
      simp only at hfl
      rw [getD_set_self _ _ _ _ hjr] at hfl
      exact absurd hfl (by simp)
    · simp only at hfl
      rw [getD_set_ne _ _ _ (fun h => hij h.symm)] at hfl
      simp only
      rw [getD_set_ne _ _ _ (fun h => hij h.symm)]
      exact g.flags_not_done i hi hfl
  · rw [hclear]
    simp only
    have hset := count_true_set_false s.readiness.ready j hjr hflag
    have hc := g.count_inv
    omega
  · simp only
    rw [g.complete_eq]
    have h := countP_set (fun f => f.done) s.streams j ⟨[], true⟩ hj
    rw [getD_eq_getElem _ _ hj, ← getD_eq_getElem _ (⟨[], true⟩ : Fuse α) hj, hE] at h
    simp at h
    omega
  · intro f hf hd
    rcases List.mem_or_eq_of_mem_set hf with hold | rfl
    · exact g.done_empty f hold hd
    · rfl

/-! ## The progress measure of one loop selection -/

theorem sum_map_set (g : β → Nat) : ∀ (l : List β) (j : Nat) (x : β), j < l.length →
    ((l.set j x).map g).sum + g (l.getD j x) = (l.map g).sum + g x
  | [], j, x, h => absurd h (by simp)
  | b :: t, 0, x, _ => by
    simp only [List.set_cons_zero, List.getD_cons_zero, List.map_cons, List.sum_cons]
    omega
  | b :: t, j + 1, x, h => by
    simp only [List.set_cons_succ, List.getD_cons_succ, List.map_cons, List.sum_cons]
    have := sum_map_set g t j x (by simpa using h)
    omega

/-- Consuming one script response of a not-done source (an item or a
suspension) lowers the measure by one. -/
theorem measure_consume (s : Merge α) {j : Nat} (hj : j < s.streams.length)
    (e : SEv α) (tail : Script α)
    (hE : s.streams.getD j ⟨[], true⟩ = ⟨e :: tail, false⟩)
    (r' : Readiness) (c' : Nat) :
    Merge.measure { streams := s.streams.set j ⟨tail, false⟩
                    readiness := r'
                    complete := c' } + 1 = Merge.measure s := by
  unfold Merge.measure
  simp only
  have hsum := sum_map_set (fun f => f.script.length) s.streams j ⟨tail, false⟩ hj
  have hcnt := countP_set (fun f => !f.done) s.streams j ⟨tail, false⟩ hj
  rw [getD_eq_getElem _ _ hj, ← getD_eq_getElem _ (⟨[], true⟩ : Fuse α) hj, hE]
    at hsum hcnt
  simp at hsum hcnt ⊢
  omega

/-- Marking an exhausted source done lowers the measure by one. -/
theorem measure_done (s : Merge α) {j : Nat} (hj : j < s.streams.length)
    (hE : s.streams.getD j ⟨[], true⟩ = ⟨[], false⟩)
    (r' : Readiness) (c' : Nat) :
    Merge.measure { streams := s.streams.set j ⟨[], true⟩
                    readiness := r'
                    complete := c' } + 1 = Merge.measure s := by
  unfold Merge.measure
  simp only
  have hsum := sum_map_set (fun f => f.script.length) s.streams j ⟨[], true⟩ hj
  have hcnt := countP_set (fun f => !f.done) s.streams j ⟨[], true⟩ hj
  rw [getD_eq_getElem _ _ hj, ← getD_eq_getElem _ (⟨[], true⟩ : Fuse α) hj, hE]
    at hsum hcnt
  simp at hsum hcnt ⊢
  omega

/-- Consuming a suspension response leaves the remaining items unchanged. -/
theorem rem_set_pend (s : Merge α) {j : Nat} (hj : j < s.streams.length)
    {tail : Script α}
    (hE : s.streams.getD j ⟨[], true⟩ = ⟨SEv.pend :: tail, false⟩)
    (r' : Readiness) (c' : Nat) :
    Merge.rem { streams := s.streams.set j ⟨tail, false⟩
                readiness := r'
                complete := c' } = Merge.rem s := by
  simp only [Merge.rem, List.map_set]
  apply set_self_of_getElem?
  have hj' : j < (s.streams.map Fuse.items).length := by simpa using hj
  rw [List.getElem?_eq_getElem hj']
  congr 1
  rw [List.getElem_map]
  rw [← getD_eq_getElem _ (⟨[], true⟩ : Fuse α) hj, hE]
  rfl


theorem rem_set_done (s : Merge α) {j : Nat} (hj : j < s.streams.length)
    (hE : s.streams.getD j ⟨[], true⟩ = ⟨[], false⟩) :
    Merge.rem { streams := s.streams.set j ⟨[], true⟩
                readiness := (s.readiness.clear_ready j).1
                complete := s.complete + 1 } = Merge.rem s := by
  simp only [Merge.rem, List.map_set]
  apply set_self_of_getElem?
  have hj' : j < (s.streams.map Fuse.items).length := by simpa using hj
  rw [List.getElem?_eq_getElem hj']
  congr 1
  rw [List.getElem_map]
  rw [← getD_eq_getElem _ (⟨[], true⟩ : Fuse α) hj, hE]
  rfl

/-- No selection of the scan touches an unflagged source: its stream and
its (unset) flag are exactly as they were when the loop was entered. -/
theorem pollLoop_untouched {α : Type u} (p : Nat) :
    ∀ (fuel : Nat) (s : Merge α) (idx i : Nat),
      s.readiness.ready.getD i false = false →
      (Merge.pollLoop p fuel s idx).2.1.streams.getD i ⟨[], true⟩
          = s.streams.getD i ⟨[], true⟩ ∧
      (Merge.pollLoop p fuel s idx).2.1.readiness.ready.getD i false = false := by
  intro fuel
  induction fuel with
  | zero => intro s idx i hf; exact ⟨rfl, hf⟩
  | succ fuel ih =>
    intro s idx i hf
    by_cases hcz : s.readiness.count = 0
    · rw [show Merge.pollLoop p (fuel + 1) s idx = (.pending, s, [.unlock]) from by
        simp [Merge.pollLoop, hcz]]
      exact ⟨rfl, hf⟩
    · rcases hscan : scanReady s.readiness.ready s.streams.length idx s.streams.length
        with _ | j
      · rw [show Merge.pollLoop p (fuel + 1) s idx = (.pending, s, [.unlock]) from by
          simp [Merge.pollLoop, hcz, hscan]]
        exact ⟨rfl, hf⟩
      · have hflagj := scanReady_some_flag s.readiness.ready s.streams.length
          s.streams.length idx j hscan
        have hij : j ≠ i := by
          intro he
          rw [he, hf] at hflagj
          exact absurd hflagj (by simp)
        rcases hp : (s.streams.getD j ⟨[], true⟩).poll with ⟨res, f'⟩
        rcases res with a | _
        · rcases a with _ | a
          · by_cases hcompl : s.complete + 1 = s.streams.length
            · rw [show Merge.pollLoop p (fuel + 1) s idx
                  = (.ready none,
                     { streams := s.streams.set j f'
                       readiness := (s.readiness.clear_ready j).1
                       complete := s.complete + 1 },
                     [.clearReady j, .unlock, .pollStream j ⟨j, p⟩]) from by
                simp only [Merge.pollLoop, if_neg hcz, hscan, hp]
                simp [hcompl]]
              refine ⟨?_, ?_⟩
              · simp only
                rw [getD_set_ne _ _ _ hij]
              · simp only
                rw [clear_ready_getD_ne _ _ _ hij]
                exact hf
            · rw [show Merge.pollLoop p (fuel + 1) s idx
                  = ((Merge.pollLoop p fuel
                        { streams := s.streams.set j f'
                          readiness := (s.readiness.clear_ready j).1
                          complete := s.complete + 1 } j).1,
                     (Merge.pollLoop p fuel
                        { streams := s.streams.set j f'
                          readiness := (s.readiness.clear_ready j).1
                          complete := s.complete + 1 } j).2.1,
                     [.clearReady j, .unlock, .pollStream j ⟨j, p⟩, .lock] ++
                       (Merge.pollLoop p fuel
                          { streams := s.streams.set j f'
                            readiness := (s.readiness.clear_ready j).1
                            complete := s.complete + 1 } j).2.2) from by
                simp only [Merge.pollLoop, if_neg hcz, hscan, hp]
                simp [hcompl]]
              have hf2 : ({ streams := s.streams.set j f'
                            readiness := (s.readiness.clear_ready j).1
                            complete := s.complete + 1 } : Merge α).readiness.ready.getD i false = false := by
                simp only
                rw [clear_ready_getD_ne _ _ _ hij]
                exact hf
              obtain ⟨h1, h2⟩ := ih _ j i hf2
              refine ⟨?_, h2⟩
              rw [h1]
              simp only
              rw [getD_set_ne _ _ _ hij]
          · rw [show Merge.pollLoop p (fuel + 1) s idx
                = (.ready (some a),
                   { streams := s.streams.set j f'
                     readiness := (((s.readiness.clear_ready j).1).set_ready j).1
                     complete := s.complete },
                   [.clearReady j, .unlock, .pollStream j ⟨j, p⟩, .lock,
                     .setReady j, .unlock]) from by
              simp only [Merge.pollLoop, if_neg hcz, hscan, hp]]
            refine ⟨?_, ?_⟩
            · simp only
              rw [getD_set_ne _ _ _ hij]
            · simp only
              rw [set_ready_getD_ne _ _ _ hij, clear_ready_getD_ne _ _ _ hij]
              exact hf
        · rw [show Merge.pollLoop p (fuel + 1) s idx
              = ((Merge.pollLoop p fuel
                    { streams := s.streams.set j f'
                      readiness := (s.readiness.clear_ready j).1
                      complete := s.complete } j).1,
                 (Merge.pollLoop p fuel
                    { streams := s.streams.set j f'
                      readiness := (s.readiness.clear_ready j).1
                      complete := s.complete } j).2.1,
                 [.clearReady j, .unlock, .pollStream j ⟨j, p⟩, .lock] ++
                   (Merge.pollLoop p fuel
                      { streams := s.streams.set j f'
                        readiness := (s.readiness.clear_ready j).1
                        complete := s.complete } j).2.2) from by
            simp only [Merge.pollLoop, if_neg hcz, hscan, hp]]
          have hf2 : ({ streams := s.streams.set j f'
                        readiness := (s.readiness.clear_ready j).1
                        complete := s.complete } : Merge α).readiness.ready.getD i false = false := by
            simp only
            rw [clear_ready_getD_ne _ _ _ hij]
            exact hf
          obtain ⟨h1, h2⟩ := ih _ j i hf2
          refine ⟨?_, h2⟩
          rw [h1]
          simp only
          rw [getD_set_ne _ _ _ hij]

/-- Master lemma for one `Merge::poll_next` loop under the scan invariant,
for arbitrary sources (item and suspension responses).  Entered with
`fuel = count`, the loop either (A) yields the head item of a flagged,
not-done source `j` — removing exactly that item from the remaining items
and leaving the Readiness Table exactly as it started — or (B) reports
overall termination, leaving every source done with nothing flagged and
the remaining items untouched (all empty), or (C) reports `Pending` with
every flag consumed and the remaining items untouched.  The invariant is
preserved in every outcome, and the progress measure strictly drops
whenever anything was flagged. -/
theorem pollLoop_spec {α : Type u} (p : Nat) :
    ∀ (fuel : Nat) (s : Merge α) (idx : Nat), GInv s →
      s.readiness.count = fuel →
      (∃ j a tail, j < s.streams.length ∧
        s.readiness.ready.getD j false = true ∧
        s.streams.getD j ⟨[], true⟩ = ⟨SEv.item a :: tail, false⟩ ∧
        (Merge.pollLoop p fuel s idx).1 = .ready (some a) ∧
        Merge.rem (Merge.pollLoop p fuel s idx).2.1
          = (Merge.rem s).set j (Script.items tail) ∧
        (Merge.pollLoop p fuel s idx).2.1.streams.getD j ⟨[], true⟩
          = ⟨tail, false⟩ ∧
        GInv (Merge.pollLoop p fuel s idx).2.1 ∧
        Merge.measure (Merge.pollLoop p fuel s idx).2.1 < Merge.measure s) ∨
      ((Merge.pollLoop p fuel s idx).1 = .ready none ∧
        Merge.allDone (Merge.pollLoop p fuel s idx).2.1 ∧
        GInv (Merge.pollLoop p fuel s idx).2.1 ∧
        Merge.rem (Merge.pollLoop p fuel s idx).2.1 = Merge.rem s) ∨
      ((Merge.pollLoop p fuel s idx).1 = .pending ∧
        (Merge.pollLoop p fuel s idx).2.1.readiness.count = 0 ∧
        GInv (Merge.pollLoop p fuel s idx).2.1 ∧
        Merge.rem (Merge.pollLoop p fuel s idx).2.1 = Merge.rem s ∧
        Merge.measure (Merge.pollLoop p fuel s idx).2.1 ≤ Merge.measure s ∧
        (s.readiness.count ≠ 0 →
          Merge.measure (Merge.pollLoop p fuel s idx).2.1 < Merge.measure s) ∧
        (s.complete < s.streams.length →
          (Merge.pollLoop p fuel s idx).2.1.complete
            < (Merge.pollLoop p fuel s idx).2.1.streams.length)) := by
  intro fuel
  induction fuel with
  | zero =>
    intro s idx g hcount
    exact Or.inr (Or.inr ⟨rfl, hcount, g, rfl, le_refl _,
      fun h => absurd hcount h, fun h => h⟩)
  | succ fuel ih =>
    intro s idx g hcount
    have hcne : s.readiness.count ≠ 0 := by omega
    obtain ⟨j, hscan, hflag, hj⟩ := scanReady_from_GInv s g hcne idx
    have hjr : j < s.readiness.ready.length := by
      rw [g.len_ready]
      exact hj
    have hnotdone : (s.streams.getD j ⟨[], true⟩).done = false :=
      g.flags_not_done j hj hflag
    have hclear : (s.readiness.clear_ready j).1
        = ⟨s.readiness.count - 1, s.readiness.ready.set j false⟩ := by
      unfold Readiness.clear_ready
      rw [hflag]
      rfl
    rcases hE0 : s.streams.getD j ⟨[], true⟩ with ⟨sc, d⟩
    rw [hE0] at hnotdone
    simp only at hnotdone
    subst hnotdone
    rcases sc with _ | ⟨e, tail⟩
    · -- the selected source reports termination
      by_cases hcompl : s.complete + 1 = s.streams.length
      · -- B: overall termination
        have heq : Merge.pollLoop p (fuel + 1) s idx =
            (.ready none,
              { streams := s.streams.set j ⟨[], true⟩
                readiness := (s.readiness.clear_ready j).1
                complete := s.complete + 1 },
              [.clearReady j, .unlock, .pollStream j ⟨j, p⟩]) := by
          simp only [Merge.pollLoop, if_neg hcne, hscan, hE0, Fuse.poll]
          simp [hcompl]
        have hsum := countP_done_add_not_done s.streams
        have hone : s.streams.countP (fun f => !f.done) = 1 := by
          have hc := g.complete_eq
          omega
        have hcount1 : s.readiness.count = 1 := by
          have hle := count_true_le s.readiness.ready s.streams
            (by rw [g.len_ready]) g.flags_not_done
          have hge := count_pos_of_getD_true s.readiness.ready j hjr hflag
          have hc := g.count_inv
          omega
        have halldone : ∀ f ∈ s.streams.set j ⟨[], true⟩, f.done = true := by
          intro f hf
          obtain ⟨i, hi, rfl⟩ := List.mem_iff_getElem.mp hf
          simp only [List.length_set] at hi
          rw [List.getElem_set]
          by_cases hij : j = i
          · simp [hij]
          · rw [if_neg hij]
            by_cases hfd : s.streams[i].done = true
            · exact hfd
            · exfalso
              apply hij
              refine countP_eq_one_unique_idx (fun f => !f.done) (⟨[], true⟩ : Fuse α)
                s.streams hone j i hj hi ?_ ?_
              · rw [hE0]
                rfl
              · have hd0 : s.streams[i].done = false := by
                  revert hfd
                  cases s.streams[i].done <;> simp
                rw [getD_eq_getElem _ _ hi]
                simp [hd0]
        refine Or.inr (Or.inl ⟨by rw [heq], ?_, ?_, ?_⟩)
        · rw [heq]
          refine ⟨halldone, ?_⟩
          show ((s.readiness.clear_ready j).1).count = 0
          rw [hclear]
          simp only
          omega
        · rw [heq]
          exact GInv_done_step s g hj hflag hE0
        · rw [heq]
          exact rem_set_done s hj hE0
      · -- the source is done but others remain: keep scanning
        have heq : Merge.pollLoop p (fuel + 1) s idx =
            ((Merge.pollLoop p fuel
                { streams := s.streams.set j ⟨[], true⟩
                  readiness := (s.readiness.clear_ready j).1
                  complete := s.complete + 1 } j).1,
              (Merge.pollLoop p fuel
                { streams := s.streams.set j ⟨[], true⟩
                  readiness := (s.readiness.clear_ready j).1
                  complete := s.complete + 1 } j).2.1,
              [.clearReady j, .unlock, .pollStream j ⟨j, p⟩, .lock] ++
                (Merge.pollLoop p fuel
                  { streams := s.streams.set j ⟨[], true⟩
                    readiness := (s.readiness.clear_ready j).1
                    complete := s.complete + 1 } j).2.2) := by
          simp only [Merge.pollLoop, if_neg hcne, hscan, hE0, Fuse.poll]
          simp [hcompl]
        have hg2 : GInv { streams := s.streams.set j ⟨[], true⟩
                          readiness := (s.readiness.clear_ready j).1
                          complete := s.complete + 1 } :=
          GInv_done_step s g hj hflag hE0
        have hcount2 : ({ streams := s.streams.set j ⟨[], true⟩
                          readiness := (s.readiness.clear_ready j).1
                          complete := s.complete + 1 } : Merge α).readiness.count
            = fuel := by
          show ((s.readiness.clear_ready j).1).count = fuel
          rw [hclear]
          simp only
          omega
        have hrem2 : Merge.rem { streams := s.streams.set j ⟨[], true⟩
                                 readiness := (s.readiness.clear_ready j).1
                                 complete := s.complete + 1 } = Merge.rem s :=
          rem_set_done s hj hE0
        have hmeas2 := measure_done s hj hE0 (s.readiness.clear_ready j).1
          (s.complete + 1)
        have hflagj2 : ({ streams := s.streams.set j ⟨[], true⟩
                          readiness := (s.readiness.clear_ready j).1
                          complete := s.complete + 1 } : Merge α).readiness.ready.getD j false = false := by
          show ((s.readiness.clear_ready j).1).ready.getD j false = false
          rw [hclear]
          simp only
          rw [getD_set_self _ _ _ _ hjr]
        rcases ih { streams := s.streams.set j ⟨[], true⟩
                    readiness := (s.readiness.clear_ready j).1
                    complete := s.complete + 1 } j hg2 hcount2 with
          ⟨j2, a2, tail2, hj2, hflag2, hE2, hres2, hrem', hgetj2, hg', hmeas'⟩ |
          ⟨hres2, hdone2, hg', hrem'⟩ |
          ⟨hres2, hcnt2, hg', hrem', hle2, _, hcompl2⟩
        · have hjj2 : j2 ≠ j := by
            intro hh
            rw [hh, hflagj2] at hflag2
            exact absurd hflag2 (by simp)
          refine Or.inl ⟨j2, a2, tail2, ?_, ?_, ?_, ?_, ?_, ?_, ?_, ?_⟩
          · simpa using hj2
          · have h2 := hflag2
            simp only at h2
            rw [clear_ready_getD_ne _ _ _ (fun hh => hjj2 hh.symm)] at h2
            exact h2
          · have h2 := hE2
            simp only at h2
            rw [getD_set_ne _ _ _ (fun hh => hjj2 hh.symm)] at h2
            exact h2
          · rw [heq]
            exact hres2
          · rw [heq]
            rw [hrem', hrem2]
          · rw [heq]
            exact hgetj2
          · rw [heq]
            exact hg'
          · rw [heq]
            dsimp only
            omega
        · refine Or.inr (Or.inl ⟨by rw [heq]; exact hres2, by rw [heq]; exact hdone2,
            by rw [heq]; exact hg', ?_⟩)
          rw [heq]
          rw [hrem', hrem2]
        · refine Or.inr (Or.inr ⟨by rw [heq]; exact hres2, by rw [heq]; exact hcnt2,
            by rw [heq]; exact hg', ?_, ?_, ?_, ?_⟩)
          · rw [heq]
            rw [hrem', hrem2]
          · rw [heq]
            dsimp only
            omega
          · intro _
            rw [heq]
            dsimp only
            omega
          · intro hlt
            rw [heq]
            dsimp only
            apply hcompl2
            show s.complete + 1 < (s.streams.set j (⟨[], true⟩ : Fuse α)).length
            rw [List.length_set]
            omega
    · -- the selected source answers: an item or a suspension
      cases e with
      | item a =>
        have heq : Merge.pollLoop p (fuel + 1) s idx =
            (.ready (some a),
              { streams := s.streams.set j ⟨tail, false⟩
                readiness := (((s.readiness.clear_ready j).1).set_ready j).1
                complete := s.complete },
              [.clearReady j, .unlock, .pollStream j ⟨j, p⟩, .lock, .setReady j,
                .unlock]) := by
          simp only [Merge.pollLoop, if_neg hcne, hscan, hE0, Fuse.poll]
          simp
        have hrd : (((s.readiness.clear_ready j).1).set_ready j).1 = s.readiness :=
          readiness_clear_set s.readiness j hjr hflag hcne
        refine Or.inl ⟨j, a, tail, hj, hflag, hE0, ?_, ?_, ?_, ?_, ?_⟩
        · rw [heq]
        · rw [heq]
          simp only [hrd]
          simp only [Merge.rem, List.map_set]
          rfl
        · rw [heq]
          simp only
          rw [getD_set_self _ _ _ _ hj]
        · rw [heq]
          simp only [hrd]
          exact GInv_item_step s g hj hE0
        · rw [heq]
          dsimp only
          have hm := measure_consume s hj (SEv.item a) tail hE0
            (((s.readiness.clear_ready j).1).set_ready j).1 s.complete
          omega
      | pend =>
        have heq : Merge.pollLoop p (fuel + 1) s idx =
            ((Merge.pollLoop p fuel
                { streams := s.streams.set j ⟨tail, false⟩
                  readiness := (s.readiness.clear_ready j).1
                  complete := s.complete } j).1,
              (Merge.pollLoop p fuel
                { streams := s.streams.set j ⟨tail, false⟩
                  readiness := (s.readiness.clear_ready j).1
                  complete := s.complete } j).2.1,
              [.clearReady j, .unlock, .pollStream j ⟨j, p⟩, .lock] ++
                (Merge.pollLoop p fuel
                  { streams := s.streams.set j ⟨tail, false⟩
                    readiness := (s.readiness.clear_ready j).1
                    complete := s.complete } j).2.2) := by
          simp only [Merge.pollLoop, if_neg hcne, hscan, hE0, Fuse.poll]
          simp
        have hg2 : GInv { streams := s.streams.set j ⟨tail, false⟩
                          readiness := (s.readiness.clear_ready j).1
                          complete := s.complete } :=
          GInv_pend_step s g hj hflag hE0
        have hcount2 : ({ streams := s.streams.set j ⟨tail, false⟩
                          readiness := (s.readiness.clear_ready j).1
                          complete := s.complete } : Merge α).readiness.count
            = fuel := by
          show ((s.readiness.clear_ready j).1).count = fuel
          rw [hclear]
          simp only
          omega
        have hrem2 : Merge.rem { streams := s.streams.set j ⟨tail, false⟩
                                 readiness := (s.readiness.clear_ready j).1
                                 complete := s.complete } = Merge.rem s :=
          rem_set_pend s hj hE0 (s.readiness.clear_ready j).1 s.complete
        have hmeas2 := measure_consume s hj SEv.pend tail hE0
          (s.readiness.clear_ready j).1 s.complete
        have hflagj2 : ({ streams := s.streams.set j ⟨tail, false⟩
                          readiness := (s.readiness.clear_ready j).1
                          complete := s.complete } : Merge α).readiness.ready.getD j false = false := by
          show ((s.readiness.clear_ready j).1).ready.getD j false = false
          rw [hclear]
          simp only
          rw [getD_set_self _ _ _ _ hjr]
        rcases ih { streams := s.streams.set j ⟨tail, false⟩
                    readiness := (s.readiness.clear_ready j).1
                    complete := s.complete } j hg2 hcount2 with
          ⟨j2, a2, tail2, hj2, hflag2, hE2, hres2, hrem', hgetj2, hg', hmeas'⟩ |
          ⟨hres2, hdone2, hg', hrem'⟩ |
          ⟨hres2, hcnt2, hg', hrem', hle2, _, hcompl2⟩
        · have hjj2 : j2 ≠ j := by
            intro hh
            rw [hh, hflagj2] at hflag2
            exact absurd hflag2 (by simp)
          refine Or.inl ⟨j2, a2, tail2, ?_, ?_, ?_, ?_, ?_, ?_, ?_, ?_⟩
          · simpa using hj2
          · have h2 := hflag2
            simp only at h2
            rw [clear_ready_getD_ne _ _ _ (fun hh => hjj2 hh.symm)] at h2
            exact h2
          · have h2 := hE2
            simp only at h2
            rw [getD_set_ne _ _ _ (fun hh => hjj2 hh.symm)] at h2
            exact h2
          · rw [heq]
            exact hres2
          · rw [heq]
            rw [hrem', hrem2]
          · rw [heq]
            exact hgetj2
          · rw [heq]
            exact hg'
          · rw [heq]
            dsimp only
            omega
        · -- impossible: the suspended source is never driven again in this
          -- call, so it cannot be done at the end of the scan
          exfalso
          have hgetj2 : ({ streams := s.streams.set j ⟨tail, false⟩
                           readiness := (s.readiness.clear_ready j).1
                           complete := s.complete } : Merge α).streams.getD j ⟨[], true⟩ = ⟨tail, false⟩ := by
            simp only
            rw [getD_set_self _ _ _ _ hj]
          obtain ⟨hstream, _⟩ := pollLoop_untouched p fuel
            { streams := s.streams.set j ⟨tail, false⟩
              readiness := (s.readiness.clear_ready j).1
              complete := s.complete } j j hflagj2
          rw [hgetj2] at hstream
          have hjlt : j < (Merge.pollLoop p fuel
              { streams := s.streams.set j ⟨tail, false⟩
                readiness := (s.readiness.clear_ready j).1
                complete := s.complete } j).2.1.streams.length :=
            lt_length_of_getD_done_false _ _ (by rw [hstream])
          have hmem2 : (⟨tail, false⟩ : Fuse α) ∈ (Merge.pollLoop p fuel
              { streams := s.streams.set j ⟨tail, false⟩
                readiness := (s.readiness.clear_ready j).1
                complete := s.complete } j).2.1.streams := by
            have hmm := stream_mem_of_getD _ hjlt
            rw [hstream] at hmm
            exact hmm
          have hcontra := hdone2.1 _ hmem2
          simp at hcontra
        · refine Or.inr (Or.inr ⟨by rw [heq]; exact hres2, by rw [heq]; exact hcnt2,
            by rw [heq]; exact hg', ?_, ?_, ?_, ?_⟩)
          · rw [heq]
            rw [hrem', hrem2]
          · rw [heq]
            dsimp only
            omega
          · intro _
            rw [heq]
            dsimp only
            omega
          · intro hlt
            rw [heq]
            dsimp only
            apply hcompl2
            show s.complete < (s.streams.set j (⟨tail, false⟩ : Fuse α)).length
            rw [List.length_set]
            omega

/-! ## Interleavings

The output of the merge is an interleaving of the sources: it is built by
repeatedly removing the head of one of the per-source lists, so the
multiset of outputs is the union of the sources and each source's items
keep their relative order. -/

inductive Interleaving : List (List α) → List α → Prop where
  | nil (ls : List (List α)) (h : ∀ l ∈ ls, l = []) : Interleaving ls []
  | step (ls : List (List α)) (j : Nat) (a : α) (x : List α) (out : List α)
      (hj : j < ls.length) (hget : ls.getD j [] = a :: x)
      (ht : Interleaving (ls.set j x) out) : Interleaving ls (a :: out)

theorem flatten_set_perm : ∀ (ls : List (List α)) (j : Nat) (a : α) (x : List α),
    j < ls.length → ls.getD j [] = a :: x →
    ls.flatten.Perm (a :: (ls.set j x).flatten)
  | [], j, _, _, hj, _ => absurd hj (by simp)
  | l :: t, 0, a, x, _, hget => by
    rw [List.getD_cons_zero] at hget
    subst hget
    simp only [List.set_cons_zero, List.flatten_cons, List.cons_append]
    exact List.Perm.refl _
  | l :: t, j + 1, a, x, hj, hget => by
    rw [List.getD_cons_succ] at hget
    have ih := flatten_set_perm t j a x (by simpa using hj) hget
    simp only [List.set_cons_succ, List.flatten_cons]
    have h1 : (l ++ t.flatten).Perm (l ++ (a :: (t.set j x).flatten)) := ih.append_left l
    have h2 : (l ++ (a :: (t.set j x).flatten)).Perm (a :: (l ++ (t.set j x).flatten)) :=
      List.perm_middle
    exact h1.trans h2

theorem interleaving_perm {ls : List (List α)} {out : List α}
    (h : Interleaving ls out) : out.Perm ls.flatten := by
  induction h with
  | nil ls h => rw [List.flatten_eq_nil_iff.mpr h]
  | step ls j a x out hj hget _ ih =>
    exact (ih.cons a).trans (flatten_set_perm ls j a x hj hget).symm

/-! ## Wake delivery between drives -/

theorem wakePass_length (p : Nat) (streams : List (Fuse α)) :
    ∀ (k : Nat) (r : Readiness), (wakePass p streams k r).ready.length = r.ready.length
  | 0, _ => rfl
  | k + 1, r => by
    show (if !(streams.getD k ⟨[], true⟩).done
            && !((wakePass p streams k r).ready.getD k false)
        then ((wakePass p streams k r).set_ready k).1
        else wakePass p streams k r).ready.length = r.ready.length
    split
    · show ((wakePass p streams k r).set_ready k).1.ready.length = r.ready.length
      unfold Readiness.set_ready
      split
      · simp only [List.length_set]
        exact wakePass_length p streams k r
      · exact wakePass_length p streams k r
    · exact wakePass_length p streams k r

theorem wakePass_getD (p : Nat) (streams : List (Fuse α)) :
    ∀ (k : Nat) (r : Readiness), k ≤ r.ready.length →
      ∀ (i : Nat), i < r.ready.length →
      (wakePass p streams k r).ready.getD i false
        = if i < k ∧ (streams.getD i ⟨[], true⟩).done = false then true
          else r.ready.getD i false
  | 0, r, _, i, _ => by
    rw [if_neg (fun h => absurd h.1 (by omega))]
    rfl
  | k + 1, r, hk, i, hi => by
    have hk' : k ≤ r.ready.length := by omega
    have ihg := wakePass_getD p streams k r hk' i hi
    show (if !(streams.getD k ⟨[], true⟩).done
            && !((wakePass p streams k r).ready.getD k false)
        then ((wakePass p streams k r).set_ready k).1
        else wakePass p streams k r).ready.getD i false
      = if i < k + 1 ∧ (streams.getD i ⟨[], true⟩).done = false then true
        else r.ready.getD i false
    by_cases hdk : (streams.getD k ⟨[], true⟩).done = false
    · by_cases hfk : (wakePass p streams k r).ready.getD k false = true
      · have hguard : (!(streams.getD k ⟨[], true⟩).done
            && !((wakePass p streams k r).ready.getD k false)) = false := by
          rw [hfk]
          simp
        rw [hguard, if_neg (by simp)]
        by_cases hik : i = k
        · subst hik
          rw [if_pos ⟨Nat.lt_succ_self i, hdk⟩]
          exact hfk
        · rw [ihg]
          by_cases hc : i < k ∧ (streams.getD i ⟨[], true⟩).done = false
          · rw [if_pos hc, if_pos ⟨by omega, hc.2⟩]
          · rw [if_neg hc, if_neg (fun h => hc ⟨by omega, h.2⟩)]
      · have hfk' : (wakePass p streams k r).ready.getD k false = false := by
          revert hfk
          cases (wakePass p streams k r).ready.getD k false <;> simp
        have hguard : (!(streams.getD k ⟨[], true⟩).done
            && !((wakePass p streams k r).ready.getD k false)) = true := by
          rw [hdk, hfk']
          rfl
        rw [hguard, if_pos rfl]
        have hset : ((wakePass p streams k r).set_ready k).1
            = ⟨(wakePass p streams k r).count + 1,
               (wakePass p streams k r).ready.set k true⟩ := by
          unfold Readiness.set_ready
          rw [hfk']
          rfl
        rw [hset]
        simp only
        have hklen : k < (wakePass p streams k r).ready.length := by
          rw [wakePass_length]
          omega
        by_cases hik : i = k
        · subst hik
          rw [getD_set_self _ _ _ _ hklen]
          rw [if_pos ⟨Nat.lt_succ_self i, hdk⟩]
        · rw [getD_set_ne _ _ _ (fun h => hik h.symm)]
          rw [ihg]
          by_cases hc : i < k ∧ (streams.getD i ⟨[], true⟩).done = false
          · rw [if_pos hc, if_pos ⟨by omega, hc.2⟩]
          · rw [if_neg hc, if_neg (fun h => hc ⟨by omega, h.2⟩)]
    · have hdk' : (streams.getD k ⟨[], true⟩).done = true := by
        revert hdk
        cases (streams.getD k ⟨[], true⟩).done <;> simp
      have hguard : (!(streams.getD k ⟨[], true⟩).done
          && !((wakePass p streams k r).ready.getD k false)) = false := by
        rw [hdk']
        rfl
      rw [hguard, if_neg (by simp)]
      rw [ihg]
      by_cases hik : i = k
      · subst hik
        rw [if_neg (fun h => by have hh := h.2; rw [hdk'] at hh; simp at hh),
          if_neg (fun h => by have hh := h.2; rw [hdk'] at hh; simp at hh)]
      · by_cases hc : i < k ∧ (streams.getD i ⟨[], true⟩).done = false
        · rw [if_pos hc, if_pos ⟨by omega, hc.2⟩]
        · rw [if_neg hc, if_neg (fun h => hc ⟨by omega, h.2⟩)]

theorem wakePass_count (p : Nat) (streams : List (Fuse α)) :
    ∀ (k : Nat) (r : Readiness), k ≤ r.ready.length →
      r.count = r.ready.count true →
      (wakePass p streams k r).count = (wakePass p streams k r).ready.count true
  | 0, _, _, h => h
  | k + 1, r, hk, h => by
    have hk' : k ≤ r.ready.length := by omega
    have ihg := wakePass_count p streams k r hk' h
    show (if !(streams.getD k ⟨[], true⟩).done
            && !((wakePass p streams k r).ready.getD k false)
        then ((wakePass p streams k r).set_ready k).1
        else wakePass p streams k r).count
      = (if !(streams.getD k ⟨[], true⟩).done
            && !((wakePass p streams k r).ready.getD k false)
        then ((wakePass p streams k r).set_ready k).1
        else wakePass p streams k r).ready.count true
    split
    · rename_i hguard
      have hfk' : (wakePass p streams k r).ready.getD k false = false := by
        have hnf := (Bool.and_eq_true _ _ |>.mp hguard).2
        revert hnf
        cases (wakePass p streams k r).ready.getD k false <;> simp
      have hklen : k < (wakePass p streams k r).ready.length := by
        rw [wakePass_length]
        omega
      have hset : ((wakePass p streams k r).set_ready k).1
          = ⟨(wakePass p streams k r).count + 1,
             (wakePass p streams k r).ready.set k true⟩ := by
        unfold Readiness.set_ready
        rw [hfk']
        rfl
      rw [hset]
      simp only
      rw [count_true_set_true _ _ hklen hfk', ihg]
    · exact ihg

theorem deliverWakes_streams (p : Nat) (s : Merge α) :
    (Merge.deliverWakes p s).streams = s.streams := rfl

theorem deliverWakes_rem (p : Nat) (s : Merge α) :
    Merge.rem (Merge.deliverWakes p s) = Merge.rem s := rfl

theorem deliverWakes_measure (p : Nat) (s : Merge α) :
    Merge.measure (Merge.deliverWakes p s) = Merge.measure s := rfl

/-- Wake delivery re-establishes the drive-entry invariant from any state
the scan can leave behind: afterwards a source is flagged exactly while it
is not done. -/
theorem deliverWakes_MInv (p : Nat) (s : Merge α) (g : GInv s) :
    MInv (Merge.deliverWakes p s) := by
  have hlen : s.readiness.ready.length = s.streams.length := g.len_ready
  have hflags : ∀ i, i < s.streams.length →
      (wakePass p s.streams s.streams.length s.readiness).ready.getD i false
        = !(s.streams.getD i ⟨[], true⟩).done := by
    intro i hi
    rw [wakePass_getD p s.streams s.streams.length s.readiness (by omega) i (by omega)]
    cases hdi : (s.streams.getD i ⟨[], true⟩).done
    · rw [if_pos ⟨hi, rfl⟩]
      rfl
    · rw [if_neg (fun h => by have hh := h.2; simp at hh)]
      have hcontra : s.readiness.ready.getD i false = false := by
        cases hfi : s.readiness.ready.getD i false
        · rfl
        · exact absurd (g.flags_not_done i hi hfi) (by rw [hdi]; simp)
      rw [hcontra]
      rfl
  constructor
  · show (wakePass p s.streams s.streams.length s.readiness).ready.length
        = s.streams.length
    rw [wakePass_length]
    exact hlen
  · exact fun i hi => hflags i hi
  · show (wakePass p s.streams s.streams.length s.readiness).count
        = s.streams.countP (fun f => !f.done)
    rw [wakePass_count p s.streams s.streams.length s.readiness (by omega) g.count_inv]
    exact count_true_eq _ _ (by rw [wakePass_length]; exact hlen) hflags
  · exact g.complete_eq
  · exact g.done_empty

theorem wakePass_id_of_done (p : Nat) (streams : List (Fuse α))
    (h : ∀ f ∈ streams, f.done = true) :
    ∀ (k : Nat) (r : Readiness), k ≤ streams.length → wakePass p streams k r = r
  | 0, _, _ => rfl
  | k + 1, r, hk => by
    have ihg := wakePass_id_of_done p streams h k r (by omega)
    show (if !(streams.getD k ⟨[], true⟩).done
            && !((wakePass p streams k r).ready.getD k false)
        then ((wakePass p streams k r).set_ready k).1
        else wakePass p streams k r) = r
    have hklt : k < streams.length := by omega
    have hdk : (streams.getD k ⟨[], true⟩).done = true := by
      rw [getD_eq_getElem _ _ hklt]
      exact h _ (List.getElem_mem hklt)
    have hguard : (!(streams.getD k ⟨[], true⟩).done
        && !((wakePass p streams k r).ready.getD k false)) = false := by
      rw [hdk]
      rfl
    rw [hguard, if_neg (by simp)]
    exact ihg

/-- Once every source is done there is no wake left to deliver. -/
theorem deliverWakes_id_of_done (p : Nat) (s : Merge α)
    (h : ∀ f ∈ s.streams, f.done = true) : Merge.deliverWakes p s = s := by
  show { s with readiness := wakePass p s.streams s.streams.length s.readiness } = s
  rw [wakePass_id_of_done p s.streams h s.streams.length s.readiness (le_refl _)]

/-! ## Driving the merge to completion -/

/-- A terminated merge (every source done, nothing flagged) never produces
anything again: each further drive returns `Pending` at the `any_ready`
check, delivers no wake, and leaves the state untouched. -/
theorem runMergeWake_stuck {α : Type u} : ∀ (draws : List Nat) (s : Merge α),
    (∀ f ∈ s.streams, f.done = true) → s.readiness.count = 0 →
    runMergeWake draws s = ([], s, false)
  | [], _, _, _ => rfl
  | d :: rest, s, hdone, hc => by
    have hpoll : Merge.poll_next 0 d s = (.pending, s, [.lock, .unlock]) := by
      simp only [Merge.poll_next]
      rw [hc]
      rfl
    have hid : Merge.deliverWakes 0 s = s := deliverWakes_id_of_done 0 s hdone
    simp only [runMergeWake, hpoll, hid]
    rw [runMergeWake_stuck rest s hdone hc]

/-- Master lemma for driving a merge of arbitrary finite sources (items
and suspensions) to completion: from a drive-entry state with something
flagged, given measure-plus-one draws, the run reports termination, its
output interleaves the remaining per-source items, and it ends with every
source done and nothing flagged. -/
theorem runMergeWake_spec {α : Type u} :
    ∀ (draws : List Nat) (s : Merge α), MInv s → s.readiness.count ≠ 0 →
      Merge.measure s + 1 ≤ draws.length →
      (runMergeWake draws s).2.2 = true ∧
      Interleaving (Merge.rem s) (runMergeWake draws s).1 ∧
      Merge.allDone (runMergeWake draws s).2.1 := by
  intro draws
  induction draws with
  | nil =>
    intro s _ _ hlen
    exact absurd hlen (by simp)
  | cons d rest ih =>
    intro s inv hcne hlen
    rcases pollLoop_spec 0 s.readiness.count s (d % s.streams.length) inv.toGInv rfl with
      ⟨j, a, tail, hj, hflag, hE, hres, hrem, hgetj, hg', hmeas'⟩ |
      ⟨hres, hdone, hg', hrem⟩ |
      ⟨hres, hcnt, hg', hrem, _, hlt', hcompl'⟩
    · have hpoll : Merge.poll_next 0 d s
          = (.ready (some a),
             (Merge.pollLoop 0 s.readiness.count s (d % s.streams.length)).2.1,
             .lock :: (Merge.pollLoop 0 s.readiness.count s (d % s.streams.length)).2.2) := by
        simp only [Merge.poll_next]
        rw [hres]
      have hrun : runMergeWake (d :: rest) s
          = (a :: (runMergeWake rest (Merge.deliverWakes 0
                (Merge.pollLoop 0 s.readiness.count s (d % s.streams.length)).2.1)).1,
             (runMergeWake rest (Merge.deliverWakes 0
                (Merge.pollLoop 0 s.readiness.count s (d % s.streams.length)).2.1)).2.1,
             (runMergeWake rest (Merge.deliverWakes 0
                (Merge.pollLoop 0 s.readiness.count s (d % s.streams.length)).2.1)).2.2) := by
        simp only [runMergeWake, hpoll]
      have hinv2 : MInv (Merge.deliverWakes 0
          (Merge.pollLoop 0 s.readiness.count s (d % s.streams.length)).2.1) :=
        deliverWakes_MInv 0 _ hg'
      have hjlt : j < (Merge.pollLoop 0 s.readiness.count s
          (d % s.streams.length)).2.1.streams.length :=
        lt_length_of_getD_done_false _ _ (by rw [hgetj])
      have hmemj : (⟨tail, false⟩ : Fuse α) ∈ (Merge.pollLoop 0 s.readiness.count s
          (d % s.streams.length)).2.1.streams := by
        have hmm := stream_mem_of_getD _ hjlt
        rw [hgetj] at hmm
        exact hmm
      have hcne2 : (Merge.deliverWakes 0
          (Merge.pollLoop 0 s.readiness.count s (d % s.streams.length)).2.1).readiness.count ≠ 0 := by
        have hc := hinv2.count_eq
        rw [deliverWakes_streams] at hc
        have hpos : 0 < (Merge.pollLoop 0 s.readiness.count s
            (d % s.streams.length)).2.1.streams.countP (fun f => !f.done) :=
          List.countP_pos_iff.mpr ⟨_, hmemj, by simp⟩
        omega
      have hmeaseq := deliverWakes_measure 0
        (Merge.pollLoop 0 s.readiness.count s (d % s.streams.length)).2.1
      have hlen2 : Merge.measure (Merge.deliverWakes 0
          (Merge.pollLoop 0 s.readiness.count s (d % s.streams.length)).2.1) + 1
          ≤ rest.length := by
        have hdl : (d :: rest).length = rest.length + 1 := by simp
        omega
      obtain ⟨ht1, ht2, ht3⟩ := ih _ hinv2 hcne2 hlen2
      refine ⟨by rw [hrun]; exact ht1, ?_, by rw [hrun]; exact ht3⟩
      rw [hrun]
      have hgd : (Merge.rem s).getD j [] = a :: Script.items tail := by
        rw [rem_getD s hj, hE]
        rfl
      have hjrem : j < (Merge.rem s).length := by
        simp only [Merge.rem, List.length_map]
        exact hj
      refine Interleaving.step _ j a (Script.items tail) _ hjrem hgd ?_
      have hremdW : Merge.rem (Merge.deliverWakes 0
          (Merge.pollLoop 0 s.readiness.count s (d % s.streams.length)).2.1)
          = (Merge.rem s).set j (Script.items tail) := by
        rw [deliverWakes_rem, hrem]
      rw [← hremdW]
      exact ht2
    · have hpoll : Merge.poll_next 0 d s
          = (.ready none,
             (Merge.pollLoop 0 s.readiness.count s (d % s.streams.length)).2.1,
             .lock :: (Merge.pollLoop 0 s.readiness.count s (d % s.streams.length)).2.2) := by
        simp only [Merge.poll_next]
        rw [hres]
      have hrun : runMergeWake (d :: rest) s
          = ([], (Merge.pollLoop 0 s.readiness.count s (d % s.streams.length)).2.1,
             true) := by
        simp only [runMergeWake, hpoll]
      refine ⟨by rw [hrun], ?_, by rw [hrun]; exact hdone⟩
      rw [hrun]
      refine Interleaving.nil _ ?_
      intro l hl
      rw [← hrem] at hl
      simp only [Merge.rem, List.mem_map] at hl
      obtain ⟨f, hf, rfl⟩ := hl
      rw [Fuse.items, hg'.done_empty f hf (hdone.1 f hf)]
      rfl
    · have hpoll : Merge.poll_next 0 d s
          = (.pending,
             (Merge.pollLoop 0 s.readiness.count s (d % s.streams.length)).2.1,
             .lock :: (Merge.pollLoop 0 s.readiness.count s (d % s.streams.length)).2.2) := by
        simp only [Merge.poll_next]
        rw [hres]
      have hrun : runMergeWake (d :: rest) s
          = ((runMergeWake rest (Merge.deliverWakes 0
                (Merge.pollLoop 0 s.readiness.count s (d % s.streams.length)).2.1)).1,
             (runMergeWake rest (Merge.deliverWakes 0
                (Merge.pollLoop 0 s.readiness.count s (d % s.streams.length)).2.1)).2.1,
             (runMergeWake rest (Merge.deliverWakes 0
                (Merge.pollLoop 0 s.readiness.count s (d % s.streams.length)).2.1)).2.2) := by
        simp only [runMergeWake, hpoll]
      have hcfs : s.complete < s.streams.length := by
        have hc := inv.count_eq
        have hcm := inv.complete_eq
        have hsum := countP_done_add_not_done s.streams
        omega
      have hclt := hcompl' hcfs
      have hinv2 : MInv (Merge.deliverWakes 0
          (Merge.pollLoop 0 s.readiness.count s (d % s.streams.length)).2.1) :=
        deliverWakes_MInv 0 _ hg'
      have hcne2 : (Merge.deliverWakes 0
          (Merge.pollLoop 0 s.readiness.count s (d % s.streams.length)).2.1).readiness.count ≠ 0 := by
        have hc := hinv2.count_eq
        rw [deliverWakes_streams] at hc
        have hsum := countP_done_add_not_done
          (Merge.pollLoop 0 s.readiness.count s (d % s.streams.length)).2.1.streams
        have hcm := hg'.complete_eq
        omega
      have hmeaseq := deliverWakes_measure 0
        (Merge.pollLoop 0 s.readiness.count s (d % s.streams.length)).2.1
      have hstep := hlt' hcne
      have hlen2 : Merge.measure (Merge.deliverWakes 0
          (Merge.pollLoop 0 s.readiness.count s (d % s.streams.length)).2.1) + 1
          ≤ rest.length := by
        have hdl : (d :: rest).length = rest.length + 1 := by simp
        omega
      obtain ⟨ht1, ht2, ht3⟩ := ih _ hinv2 hcne2 hlen2
      refine ⟨by rw [hrun]; exact ht1, ?_, by rw [hrun]; exact ht3⟩
      rw [hrun]
      have hremdW : Merge.rem (Merge.deliverWakes 0
          (Merge.pollLoop 0 s.readiness.count s (d % s.streams.length)).2.1)
          = Merge.rem s := by
        rw [deliverWakes_rem, hrem]
      rw [← hremdW]
      exact ht2

/-- Whenever a run reports termination, it does so with every source done
and nothing flagged (so, only when every source has terminated). -/
theorem runMergeWake_none_done {α : Type u} :
    ∀ (draws : List Nat) (s : Merge α), MInv s →
      (runMergeWake draws s).2.2 = true → Merge.allDone (runMergeWake draws s).2.1 := by
  intro draws
  induction draws with
  | nil =>
    intro s _ h
    simp [runMergeWake] at h
  | cons d rest ih =>
    intro s inv h
    by_cases hcz : s.readiness.count = 0
    · have hpoll : Merge.poll_next 0 d s = (.pending, s, [.lock, .unlock]) := by
        simp only [Merge.poll_next]
        rw [hcz]
        rfl
      have hrun : runMergeWake (d :: rest) s
          = ((runMergeWake rest (Merge.deliverWakes 0 s)).1,
             (runMergeWake rest (Merge.deliverWakes 0 s)).2.1,
             (runMergeWake rest (Merge.deliverWakes 0 s)).2.2) := by
        simp only [runMergeWake, hpoll]
      rw [hrun] at h ⊢
      exact ih _ (deliverWakes_MInv 0 s inv.toGInv) h
    · rcases pollLoop_spec 0 s.readiness.count s (d % s.streams.length) inv.toGInv rfl with
        ⟨j, a, tail, hj, hflag, hE, hres, hrem, hgetj, hg', hmeas'⟩ |
        ⟨hres, hdone, hg', hrem⟩ |
        ⟨hres, hcnt, hg', hrem, _, _, _⟩
      · have hpoll : Merge.poll_next 0 d s
            = (.ready (some a),
               (Merge.pollLoop 0 s.readiness.count s (d % s.streams.length)).2.1,
               .lock :: (Merge.pollLoop 0 s.readiness.count s
                 (d % s.streams.length)).2.2) := by
          simp only [Merge.poll_next]
          rw [hres]
        have hrun : runMergeWake (d :: rest) s
            = (a :: (runMergeWake rest (Merge.deliverWakes 0
                  (Merge.pollLoop 0 s.readiness.count s (d % s.streams.length)).2.1)).1,
               (runMergeWake rest (Merge.deliverWakes 0
                  (Merge.pollLoop 0 s.readiness.count s (d % s.streams.length)).2.1)).2.1,
               (runMergeWake rest (Merge.deliverWakes 0
                  (Merge.pollLoop 0 s.readiness.count s
                    (d % s.streams.length)).2.1)).2.2) := by
          simp only [runMergeWake, hpoll]
        rw [hrun] at h ⊢
        exact ih _ (deliverWakes_MInv 0 _ hg') h
      · have hpoll : Merge.poll_next 0 d s
            = (.ready none,
               (Merge.pollLoop 0 s.readiness.count s (d % s.streams.length)).2.1,
               .lock :: (Merge.pollLoop 0 s.readiness.count s
                 (d % s.streams.length)).2.2) := by
          simp only [Merge.poll_next]
          rw [hres]
        have hrun : runMergeWake (d :: rest) s
            = ([], (Merge.pollLoop 0 s.readiness.count s (d % s.streams.length)).2.1,
               true) := by
          simp only [runMergeWake, hpoll]
        rw [hrun]
        exact hdone
      · have hpoll : Merge.poll_next 0 d s
            = (.pending,
               (Merge.pollLoop 0 s.readiness.count s (d % s.streams.length)).2.1,
               .lock :: (Merge.pollLoop 0 s.readiness.count s
                 (d % s.streams.length)).2.2) := by
          simp only [Merge.poll_next]
          rw [hres]
        have hrun : runMergeWake (d :: rest) s
            = ((runMergeWake rest (Merge.deliverWakes 0
                  (Merge.pollLoop 0 s.readiness.count s (d % s.streams.length)).2.1)).1,
               (runMergeWake rest (Merge.deliverWakes 0
                  (Merge.pollLoop 0 s.readiness.count s (d % s.streams.length)).2.1)).2.1,
               (runMergeWake rest (Merge.deliverWakes 0
                  (Merge.pollLoop 0 s.readiness.count s
                    (d % s.streams.length)).2.1)).2.2) := by
          simp only [runMergeWake, hpoll]
        rw [hrun] at h ⊢
        exact ih _ (deliverWakes_MInv 0 _ hg') h

/-! ## C1, C8: end-to-end merge behavior -/

theorem rem_new (srcs : List (Script α)) :
    Merge.rem (Merge.new srcs) = srcs.map Script.items := by
  simp only [Merge.rem, Merge.new, List.map_map]
  rfl

theorem measure_new (srcs : List (Script α)) :
    Merge.measure (Merge.new srcs) = (srcs.map List.length).sum + srcs.length := by
  unfold Merge.measure Merge.new
  simp only [List.map_map]
  congr 1
  rw [List.countP_eq_length.mpr]
  · simp
  · intro f hf
    simp only [List.mem_map] at hf
    obtain ⟨sc, _, rfl⟩ := hf
    rfl

theorem count_new (srcs : List (Script α)) :
    (Merge.new srcs : Merge α).readiness.count = srcs.length := by
  simp [Merge.new]

/-- C1, amended to nonempty collections: driving the `Merge` stream built
from a nonempty finite collection of finite asynchronous sequences —
scripts of item and suspension (`Pending`) responses — with any draws and
enough of them, every suspended source's wake being delivered between
drives, yields exactly an interleaving of the sources' items (hence the
multiset union — the output is a permutation of the concatenation of the
per-source item lists — with each source's items in their original
relative order), and signals `Poll::Ready(None)`; and whenever a run
signals `Ready(None)`, every source has terminated.  (For the empty
collection the claim fails: see the counterexample.) -/
theorem c1_merge_interleaving (srcs : List (Script α)) (hne : srcs ≠ [])
    (draws : List Nat)
    (hd : (srcs.map List.length).sum + srcs.length + 1 ≤ draws.length) :
    (runMergeWake draws (Merge.new srcs)).2.2 = true ∧
    Interleaving (srcs.map Script.items) (runMergeWake draws (Merge.new srcs)).1 ∧
    (runMergeWake draws (Merge.new srcs)).1.Perm (srcs.map Script.items).flatten ∧
    Merge.allDone (runMergeWake draws (Merge.new srcs)).2.1 ∧
    (∀ draws2, (runMergeWake draws2 (Merge.new srcs)).2.2 = true →
      Merge.allDone (runMergeWake draws2 (Merge.new srcs)).2.1) := by
  have hcne : (Merge.new srcs : Merge α).readiness.count ≠ 0 := by
    rw [count_new]
    have := List.length_pos.mpr hne
    omega
  have hlen : Merge.measure (Merge.new srcs) + 1 ≤ draws.length := by
    rw [measure_new]
    exact hd
  obtain ⟨h1, h2, h3⟩ := runMergeWake_spec draws (Merge.new srcs)
    (MInv_new srcs) hcne hlen
  rw [rem_new] at h2
  exact ⟨h1, h2, interleaving_perm h2, h3,
    fun draws2 h => runMergeWake_none_done draws2 _ (MInv_new srcs) h⟩

/-- C1 counterexample (empty collection): with zero sources the
`complete == streams.len()` check sits inside the `Ready(None)` arm of a
source poll and is never reached, so the merge never signals `Ready(None)`:
every `poll_next` returns `Pending` with the state unchanged, and driving
forever terminates nothing. -/
theorem c1_merge_empty_counterexample :
    (Merge.poll_next 0 0 (Merge.new ([] : List (Script Nat)))).1 = .pending ∧
    (Merge.poll_next 0 0 (Merge.new ([] : List (Script Nat)))).2.1
      = Merge.new ([] : List (Script Nat)) ∧
    runMergeWake [0, 0, 0] (Merge.new ([] : List (Script Nat)))
      = ([], Merge.new ([] : List (Script Nat)), false) := by
  refine ⟨rfl, rfl, ?_⟩
  rfl

theorem c1_merge_interleaving_witness :
    (runMergeWake [0, 1, 2, 0, 1, 0, 1, 0] (Merge.new
        ([[SEv.pend, SEv.item 1, SEv.item 2], [SEv.item 3, SEv.pend]]
          : List (Script Nat)))).2.2 = true ∧
    Interleaving (([[SEv.pend, SEv.item 1, SEv.item 2], [SEv.item 3, SEv.pend]]
        : List (Script Nat)).map Script.items)
      (runMergeWake [0, 1, 2, 0, 1, 0, 1, 0] (Merge.new
        ([[SEv.pend, SEv.item 1, SEv.item 2], [SEv.item 3, SEv.pend]]
          : List (Script Nat)))).1 ∧
    (runMergeWake [0, 1, 2, 0, 1, 0, 1, 0] (Merge.new
        ([[SEv.pend, SEv.item 1, SEv.item 2], [SEv.item 3, SEv.pend]]
          : List (Script Nat)))).1.Perm
      ((([[SEv.pend, SEv.item 1, SEv.item 2], [SEv.item 3, SEv.pend]]
          : List (Script Nat)).map Script.items).flatten) ∧
    Merge.allDone (runMergeWake [0, 1, 2, 0, 1, 0, 1, 0] (Merge.new
        ([[SEv.pend, SEv.item 1, SEv.item 2], [SEv.item 3, SEv.pend]]
          : List (Script Nat)))).2.1 := by
  obtain ⟨h1, h2, h3, h4, _⟩ := c1_merge_interleaving
    ([[SEv.pend, SEv.item 1, SEv.item 2], [SEv.item 3, SEv.pend]] : List (Script Nat))
    (by decide) [0, 1, 2, 0, 1, 0, 1, 0] (by decide)
  exact ⟨h1, h2, h3, h4⟩

/-- C8: drive a merge of a nonempty finite collection of arbitrary finite
sources (items and suspensions, wakes delivered between drives) until it
signals `Ready(None)`.  At that point every source is done and no flag is
set, so every subsequent drive — any number of further `poll_next` calls,
at any drawn indices — produces no item, leaves the state unchanged, and
never reports `Ready(None)` again: the overall termination signal occurs
exactly once across the stream's lifetime. -/
theorem c8_merge_after_termination (srcs : List (Script α)) (hne : srcs ≠ [])
    (draws : List Nat)
    (hd : (srcs.map List.length).sum + srcs.length + 1 ≤ draws.length)
    (draws2 : List Nat) :
    (runMergeWake draws (Merge.new srcs)).2.2 = true ∧
    runMergeWake draws2 (runMergeWake draws (Merge.new srcs)).2.1
      = ([], (runMergeWake draws (Merge.new srcs)).2.1, false) := by
  have hcne : (Merge.new srcs : Merge α).readiness.count ≠ 0 := by
    rw [count_new]
    have := List.length_pos.mpr hne
    omega
  have hlen : Merge.measure (Merge.new srcs) + 1 ≤ draws.length := by
    rw [measure_new]
    exact hd
  obtain ⟨h1, _, h3⟩ := runMergeWake_spec draws (Merge.new srcs)
    (MInv_new srcs) hcne hlen
  exact ⟨h1, runMergeWake_stuck draws2 _ h3.1 h3.2⟩

theorem c8_merge_after_termination_witness :
    (runMergeWake [0, 0, 0, 0] (Merge.new ([[SEv.item 1, SEv.pend]]
      : List (Script Nat)))).2.2 = true ∧
    runMergeWake [5, 7] (runMergeWake [0, 0, 0, 0] (Merge.new
        ([[SEv.item 1, SEv.pend]] : List (Script Nat)))).2.1
      = ([], (runMergeWake [0, 0, 0, 0] (Merge.new
          ([[SEv.item 1, SEv.pend]] : List (Script Nat)))).2.1, false) :=
  c8_merge_after_termination [[SEv.item 1, SEv.pend]] (by decide) [0, 0, 0, 0]
    (by decide) [5, 7]

/-! ## C9: lock discipline and waker binding in `Merge::poll_next` -/

/-- Number of guard acquisitions in a trace. -/
def locksIn : List MEvent → Nat
  | [] => 0
  | .lock :: t => locksIn t + 1
  | _ :: t => locksIn t

/-- Number of guard releases in a trace. -/
def unlocksIn : List MEvent → Nat
  | [] => 0
  | .unlock :: t => unlocksIn t + 1
  | _ :: t => unlocksIn t

/-- Trace shape of the loop (which is entered holding the guard, hence the
`+ 1` on the lock side): every `pollStream` event is immediately preceded
by clearing that source's ready flag and releasing the guard, carries a
waker bound to exactly that index and the parent callback of this call,
and sits at guard depth zero. -/
theorem pollLoop_trace {α : Type u} (p : Nat) :
    ∀ (fuel : Nat) (s : Merge α) (idx k i : Nat) (w : StreamWaker),
      (Merge.pollLoop p fuel s idx).2.2[k]? = some (.pollStream i w) →
      w = ⟨i, p⟩ ∧ 2 ≤ k ∧
      (Merge.pollLoop p fuel s idx).2.2[k - 1]? = some .unlock ∧
      (Merge.pollLoop p fuel s idx).2.2[k - 2]? = some (.clearReady i) ∧
      locksIn ((Merge.pollLoop p fuel s idx).2.2.take k) + 1
        = unlocksIn ((Merge.pollLoop p fuel s idx).2.2.take k) := by
  intro fuel
  induction fuel with
  | zero =>
    intro s idx k i w h
    rcases k with _ | k <;> simp [Merge.pollLoop] at h
  | succ fuel ih =>
    intro s idx k i w h
    by_cases hcne : s.readiness.count = 0
    · rw [show Merge.pollLoop p (fuel + 1) s idx = (.pending, s, [.unlock]) from by
        simp [Merge.pollLoop, hcne]] at h ⊢
      rcases k with _ | k <;> simp at h
    · rcases hscan : scanReady s.readiness.ready s.streams.length idx s.streams.length with
        _ | j
      · rw [show Merge.pollLoop p (fuel + 1) s idx = (.pending, s, [.unlock]) from by
          simp [Merge.pollLoop, hcne, hscan]] at h ⊢
        rcases k with _ | k <;> simp at h
      · rcases hp : (s.streams.getD j ⟨[], true⟩).poll with ⟨res, f'⟩
        rcases res with a | _
        · rcases a with _ | a
          · -- source signaled termination
            by_cases hcompl : s.complete + 1 = s.streams.length
            · rw [show Merge.pollLoop p (fuel + 1) s idx =
                  (.ready none,
                    { streams := s.streams.set j f'
                      readiness := (s.readiness.clear_ready j).1
                      complete := s.complete + 1 },
                    [.clearReady j, .unlock, .pollStream j ⟨j, p⟩]) from by
                simp only [Merge.pollLoop, if_neg hcne, hscan, hp]
                simp [hcompl]] at h ⊢
              rcases k with _ | _ | _ | k <;> simp at h
              obtain ⟨rfl, rfl⟩ := h
              exact ⟨rfl, by omega, rfl, rfl, rfl⟩
            · rw [show Merge.pollLoop p (fuel + 1) s idx =
                  ((Merge.pollLoop p fuel
                      { streams := s.streams.set j f'
                        readiness := (s.readiness.clear_ready j).1
                        complete := s.complete + 1 } j).1,
                    (Merge.pollLoop p fuel
                      { streams := s.streams.set j f'
                        readiness := (s.readiness.clear_ready j).1
                        complete := s.complete + 1 } j).2.1,
                    [.clearReady j, .unlock, .pollStream j ⟨j, p⟩, .lock] ++
                      (Merge.pollLoop p fuel
                        { streams := s.streams.set j f'
                          readiness := (s.readiness.clear_ready j).1
                          complete := s.complete + 1 } j).2.2) from by
                simp only [Merge.pollLoop, if_neg hcne, hscan, hp]
                simp [hcompl]] at h ⊢
              rcases k with _ | _ | _ | _ | k
              · simp at h
              · simp at h
              · simp at h
                obtain ⟨rfl, rfl⟩ := h
                exact ⟨rfl, by omega, rfl, rfl, rfl⟩
              · simp at h
              · simp only [List.cons_append, List.getElem?_cons_succ] at h
                obtain ⟨hw, hk, hu, hc, hcnt⟩ := ih _ j k i w h
                refine ⟨hw, by omega, ?_, ?_, ?_⟩
                · have e1 : k + 4 - 1 = (k - 1) + 4 := by omega
                  rw [e1]
                  simpa using hu
                · have e2 : k + 4 - 2 = (k - 2) + 4 := by omega
                  rw [e2]
                  simpa using hc
                · simp only [List.cons_append, List.append_eq, List.nil_append, List.take_succ_cons,
                    locksIn, unlocksIn] at hcnt ⊢
                  omega
          · -- source yielded an item
            rw [show Merge.pollLoop p (fuel + 1) s idx =
                (.ready (some a),
                  { streams := s.streams.set j f'
                    readiness := (((s.readiness.clear_ready j).1).set_ready j).1
                    complete := s.complete },
                  [.clearReady j, .unlock, .pollStream j ⟨j, p⟩, .lock,
                    .setReady j, .unlock]) from by
              simp only [Merge.pollLoop, if_neg hcne, hscan, hp]] at h ⊢
            rcases k with _ | _ | _ | _ | _ | _ | k <;> simp at h
            obtain ⟨rfl, rfl⟩ := h
            exact ⟨rfl, by omega, rfl, rfl, rfl⟩
        · -- source reported Pending
          rw [show Merge.pollLoop p (fuel + 1) s idx =
              ((Merge.pollLoop p fuel
                  { streams := s.streams.set j f'
                    readiness := (s.readiness.clear_ready j).1
                    complete := s.complete } j).1,
                (Merge.pollLoop p fuel
                  { streams := s.streams.set j f'
                    readiness := (s.readiness.clear_ready j).1
                    complete := s.complete } j).2.1,
                [.clearReady j, .unlock, .pollStream j ⟨j, p⟩, .lock] ++
                  (Merge.pollLoop p fuel
                    { streams := s.streams.set j f'
                      readiness := (s.readiness.clear_ready j).1
                      complete := s.complete } j).2.2) from by
            simp only [Merge.pollLoop, if_neg hcne, hscan, hp]] at h ⊢
          rcases k with _ | _ | _ | _ | k
          · simp at h
          · simp at h
          · simp at h
            obtain ⟨rfl, rfl⟩ := h
            exact ⟨rfl, by omega, rfl, rfl, rfl⟩
          · simp at h
          · simp only [List.cons_append, List.getElem?_cons_succ] at h
            obtain ⟨hw, hk, hu, hc, hcnt⟩ := ih _ j k i w h
            refine ⟨hw, by omega, ?_, ?_, ?_⟩
            · have e1 : k + 4 - 1 = (k - 1) + 4 := by omega
              rw [e1]
              simpa using hu
            · have e2 : k + 4 - 2 = (k - 2) + 4 := by omega
              rw [e2]
              simpa using hc
            · simp only [List.cons_append, List.append_eq, List.nil_append, List.take_succ_cons,
                locksIn, unlocksIn] at hcnt ⊢
              omega

/-- C9: in every iteration of `Merge::poll_next` that selects a source,
the selected index's ready flag is cleared and the guard released
immediately before the source is driven; the source is driven with a
fresh `StreamWaker` bound to that index and the parent wake callback of
this call; and at the moment a source is driven the guard is not held
(locks and unlocks in the preceding trace balance out). -/
theorem c9_lock_discipline (s : Merge α) (p r k i : Nat) (w : StreamWaker)
    (h : (Merge.poll_next p r s).2.2[k]? = some (.pollStream i w)) :
    w = ⟨i, p⟩ ∧ 3 ≤ k ∧
    (Merge.poll_next p r s).2.2[k - 1]? = some .unlock ∧
    (Merge.poll_next p r s).2.2[k - 2]? = some (.clearReady i) ∧
    locksIn ((Merge.poll_next p r s).2.2.take k)
      = unlocksIn ((Merge.poll_next p r s).2.2.take k) := by
  have htr : (Merge.poll_next p r s).2.2
      = .lock :: (Merge.pollLoop p s.readiness.count s (r % s.streams.length)).2.2 := rfl
  rw [htr] at h ⊢
  rcases k with _ | k
  · simp at h
  · simp only [List.getElem?_cons_succ] at h
    obtain ⟨hw, hk, hu, hc, hcnt⟩ :=
      pollLoop_trace p s.readiness.count s (r % s.streams.length) k i w h
    refine ⟨hw, by omega, ?_, ?_, ?_⟩
    · have e1 : k + 1 - 1 = (k - 1) + 1 := by omega
      rw [e1, List.getElem?_cons_succ]
      exact hu
    · have e2 : k + 1 - 2 = (k - 2) + 1 := by omega
      rw [e2, List.getElem?_cons_succ]
      exact hc
    · simp only [List.take_succ_cons, locksIn, unlocksIn]
      omega

theorem c9_lock_discipline_witness :
    ((Merge.poll_next 7 0 (Merge.new [Script.ofItems ([1] : List Nat)])).2.2[3]?
        = some (.pollStream 0 ⟨0, 7⟩)) ∧
    ((⟨0, 7⟩ : StreamWaker) = ⟨0, 7⟩ ∧ 3 ≤ 3 ∧
      (Merge.poll_next 7 0 (Merge.new [Script.ofItems ([1] : List Nat)])).2.2[2]?
        = some .unlock ∧
      (Merge.poll_next 7 0 (Merge.new [Script.ofItems ([1] : List Nat)])).2.2[1]?
        = some (.clearReady 0) ∧
      locksIn ((Merge.poll_next 7 0 (Merge.new [Script.ofItems ([1] : List Nat)])).2.2.take 3)
        = unlocksIn
          ((Merge.poll_next 7 0 (Merge.new [Script.ofItems ([1] : List Nat)])).2.2.take 3)) :=
  ⟨by decide, c9_lock_discipline _ 7 0 3 0 ⟨0, 7⟩ (by decide)⟩

/-! ## Race: derived data and canonical run states -/

/-- The error of a result, if it is one. -/
def errOpt : Except ε τ → Option ε
  | .error e => some e
  | .ok _ => none

/-- The errors of the operations, in construction order. -/
def errsOf (fs : List (RFut ε τ)) : List ε :=
  fs.filterMap (fun f => errOpt f.result)

/-- The successful values among the operations' results. -/
def okValues (fs : List (RFut ε τ)) : List τ :=
  fs.filterMap (fun f => match f.result with | .ok v => some v | .error _ => none)

/-- Largest delay among the operations. -/
def maxDelay (fs : List (RFut ε τ)) : Nat :=
  fs.foldr (fun f m => max f.delay m) 0

/-- Immediately- or eventually-failing operations with the given delays and
errors, in construction order. -/
def mkFails (delays : List Nat) (errs : List ε) : List (RFut ε τ) :=
  List.zipWith (fun d e => ⟨d, .error e⟩) delays errs

/-- The canonical race state after `k` drives of a run in which no
operation has succeeded yet: each drive polls every active operation
exactly once, so after `k` drives every delay has shrunk by `k`,
operations whose delay has expired have completed (necessarily with an
error in such a run) with the error recorded in their slot and their index
removed from the active set.  `c` is the rotation cursor, which depends on
the visit order but influences nothing but the visit order. -/
def raceAfter (fs : List (RFut ε τ)) (k c : Nat) : RaceOkState ε τ :=
  { completed := fs.countP (fun f => f.delay < k)
    done := false
    cursor := c
    active := fs.map (fun f => decide (k ≤ f.delay))
    errors := fs.map (fun f => if f.delay < k then errOpt f.result else none)
    futs := fs.map (fun f => ⟨f.delay - k, f.result⟩) }

theorem map_const_of (l : List β) (f : β → γ) (b : γ) (h : ∀ x ∈ l, f x = b) :
    l.map f = List.replicate l.length b := by
  induction l with
  | nil => rfl
  | cons x t ih =>
    simp only [List.map_cons, List.length_cons, List.replicate_succ]
    rw [h x (List.mem_cons_self x t), ih fun y hy => h y (List.mem_cons_of_mem _ hy)]

theorem raceAfter_zero (fs : List (RFut ε τ)) :
    RaceOkState.new fs = raceAfter fs 0 (fs.length - 1) := by
  unfold RaceOkState.new raceAfter
  congr 1
  · symm
    simp
  · symm
    apply map_const_of
    intro f _
    simp
  · symm
    apply map_const_of
    intro f _
    simp
  · symm
    have h : ∀ f ∈ fs, (fun (f : RFut ε τ) => (⟨f.delay - 0, f.result⟩ : RFut ε τ)) f = f := by
      intro f _
      cases f
      simp
    rw [List.map_congr_left h]
    simp

/-! ## Race scan: branch equations -/

theorem raceScan_skip (i : Nat) (rest : List Nat) (s : RaceOkState ε τ)
    (hact : s.active.getD i false = false) :
    raceScan (i :: rest) s = raceScan rest s := by
  have h' : s.active[i]?.getD false = false := by
    simpa [List.getD_eq_getElem?_getD] using hact
  simp [raceScan, h']

theorem raceScan_oob (i : Nat) (rest : List Nat) (s : RaceOkState ε τ)
    (hact : s.active.getD i false = true) (hfut : s.futs[i]? = none) :
    raceScan (i :: rest) s = raceScan rest s := by
  have h' : s.active[i]?.getD false = true := by
    simpa [List.getD_eq_getElem?_getD] using hact
  simp [raceScan, h', hfut]

theorem raceScan_ok (i : Nat) (rest : List Nat) (s : RaceOkState ε τ) (v : τ)
    (hact : s.active.getD i false = true) (hfut : s.futs[i]? = some ⟨0, .ok v⟩) :
    raceScan (i :: rest) s =
      ({ s with futs := s.futs.set i ⟨0, .ok v⟩, cursor := i, done := true,
                completed := s.completed + 1, active := s.active.set i false },
        some v, [i]) := by
  have h' : s.active[i]?.getD false = true := by
    simpa [List.getD_eq_getElem?_getD] using hact
  simp [raceScan, h', hfut, RFut.poll]

theorem raceScan_err (i : Nat) (rest : List Nat) (s : RaceOkState ε τ) (e : ε)
    (hact : s.active.getD i false = true) (hfut : s.futs[i]? = some ⟨0, .error e⟩) :
    raceScan (i :: rest) s =
      ((raceScan rest
          { s with futs := s.futs.set i ⟨0, .error e⟩, cursor := i,
                   errors := s.errors.set i (some e),
                   completed := s.completed + 1,
                   active := s.active.set i false }).1,
        (raceScan rest
          { s with futs := s.futs.set i ⟨0, .error e⟩, cursor := i,
                   errors := s.errors.set i (some e),
                   completed := s.completed + 1,
                   active := s.active.set i false }).2.1,
        i :: (raceScan rest
          { s with futs := s.futs.set i ⟨0, .error e⟩, cursor := i,
                   errors := s.errors.set i (some e),
                   completed := s.completed + 1,
                   active := s.active.set i false }).2.2) := by
  have h' : s.active[i]?.getD false = true := by
    simpa [List.getD_eq_getElem?_getD] using hact
  simp [raceScan, h', hfut, RFut.poll]

theorem raceScan_pend (i : Nat) (rest : List Nat) (s : RaceOkState ε τ) (d : Nat)
    (r : Except ε τ)
    (hact : s.active.getD i false = true) (hfut : s.futs[i]? = some ⟨d + 1, r⟩) :
    raceScan (i :: rest) s =
      ((raceScan rest { s with futs := s.futs.set i ⟨d, r⟩, cursor := i }).1,
        (raceScan rest { s with futs := s.futs.set i ⟨d, r⟩, cursor := i }).2.1,
        i :: (raceScan rest { s with futs := s.futs.set i ⟨d, r⟩, cursor := i }).2.2) := by
  have h' : s.active[i]?.getD false = true := by
    simpa [List.getD_eq_getElem?_getD] using hact
  simp [raceScan, h', hfut, RFut.poll]

/-! ## Race scan: structural facts -/

theorem lt_length_of_getD_true (l : List Bool) (i : Nat) (h : l.getD i false = true) :
    i < l.length := by
  by_contra hge
  rw [List.getD_eq_getElem?_getD, List.getElem?_eq_none (by omega)] at h
  simp at h

theorem raceScan_lengths : ∀ (ord : List Nat) (s : RaceOkState ε τ),
    (raceScan ord s).1.futs.length = s.futs.length ∧
    (raceScan ord s).1.active.length = s.active.length ∧
    (raceScan ord s).1.errors.length = s.errors.length := by
  intro ord
  induction ord with
  | nil => exact fun s => ⟨rfl, rfl, rfl⟩
  | cons j rest ih =>
    intro s
    cases hact : s.active.getD j false with
    | false =>
      rw [raceScan_skip j rest s hact]
      exact ih s
    | true =>
      cases hfut : s.futs[j]? with
      | none =>
        rw [raceScan_oob j rest s hact hfut]
        exact ih s
      | some f =>
        rcases f with ⟨d, r⟩
        cases d with
        | zero =>
          cases r with
          | ok v =>
            rw [raceScan_ok j rest s v hact hfut]
            simp
          | error e =>
            rw [raceScan_err j rest s e hact hfut]
            have := ih { s with futs := s.futs.set j ⟨0, .error e⟩, cursor := j,
                                errors := s.errors.set j (some e),
                                completed := s.completed + 1,
                                active := s.active.set j false }
            simpa using this
        | succ d =>
          rw [raceScan_pend j rest s d r hact hfut]
          have := ih { s with futs := s.futs.set j ⟨d, r⟩, cursor := j }
          simpa using this

theorem raceScan_untouched : ∀ (ord : List Nat) (s : RaceOkState ε τ) (i : Nat), i ∉ ord →
    (raceScan ord s).1.futs[i]? = s.futs[i]? ∧
    (raceScan ord s).1.active[i]? = s.active[i]? ∧
    (raceScan ord s).1.errors[i]? = s.errors[i]? := by
  intro ord
  induction ord with
  | nil => exact fun s i _ => ⟨rfl, rfl, rfl⟩
  | cons j rest ih =>
    intro s i hi
    have hineq : i ≠ j := fun h => hi (h ▸ List.mem_cons_self j rest)
    have hirest : i ∉ rest := fun h => hi (List.mem_cons_of_mem _ h)
    have hji : j ≠ i := fun h => hineq h.symm
    cases hact : s.active.getD j false with
    | false =>
      rw [raceScan_skip j rest s hact]
      exact ih s i hirest
    | true =>
      cases hfut : s.futs[j]? with
      | none =>
        rw [raceScan_oob j rest s hact hfut]
        exact ih s i hirest
      | some f =>
        rcases f with ⟨d, r⟩
        cases d with
        | zero =>
          cases r with
          | ok v =>
            rw [raceScan_ok j rest s v hact hfut]
            exact ⟨List.getElem?_set_ne hji, List.getElem?_set_ne hji, rfl⟩
          | error e =>
            rw [raceScan_err j rest s e hact hfut]
            have h2 := ih { s with futs := s.futs.set j ⟨0, .error e⟩, cursor := j,
                                   errors := s.errors.set j (some e),
                                   completed := s.completed + 1,
                                   active := s.active.set j false } i hirest
            simp only at h2
            rw [h2.1, h2.2.1, h2.2.2]
            exact ⟨List.getElem?_set_ne hji, List.getElem?_set_ne hji,
              List.getElem?_set_ne hji⟩
        | succ d =>
          rw [raceScan_pend j rest s d r hact hfut]
          have h2 := ih { s with futs := s.futs.set j ⟨d, r⟩, cursor := j } i hirest
          simp only at h2
          rw [h2.1, h2.2.1, h2.2.2]
          exact ⟨List.getElem?_set_ne hji, rfl, rfl⟩

theorem raceScan_trace_sublist : ∀ (ord : List Nat) (s : RaceOkState ε τ),
    (raceScan ord s).2.2.Sublist ord := by
  intro ord
  induction ord with
  | nil => exact fun _ => List.Sublist.refl []
  | cons j rest ih =>
    intro s
    cases hact : s.active.getD j false with
    | false =>
      rw [raceScan_skip j rest s hact]
      exact (ih s).cons j
    | true =>
      cases hfut : s.futs[j]? with
      | none =>
        rw [raceScan_oob j rest s hact hfut]
        exact (ih s).cons j
      | some f =>
        rcases f with ⟨d, r⟩
        cases d with
        | zero =>
          cases r with
          | ok v =>
            rw [raceScan_ok j rest s v hact hfut]
            exact (List.nil_sublist rest).cons₂ j
          | error e =>
            rw [raceScan_err j rest s e hact hfut]
            exact (ih _).cons₂ j
        | succ d =>
          rw [raceScan_pend j rest s d r hact hfut]
          exact (ih _).cons₂ j

theorem raceScan_polled_active : ∀ (ord : List Nat) (s : RaceOkState ε τ) (i : Nat),
    i ∈ (raceScan ord s).2.2 → s.active.getD i false = true := by
  intro ord
  induction ord with
  | nil => intro s i h; simp [raceScan] at h
  | cons j rest ih =>
    intro s i hi
    cases hact : s.active.getD j false with
    | false =>
      rw [raceScan_skip j rest s hact] at hi
      exact ih s i hi
    | true =>
      have hjlen : j < s.active.length := lt_length_of_getD_true _ _ hact
      cases hfut : s.futs[j]? with
      | none =>
        rw [raceScan_oob j rest s hact hfut] at hi
        exact ih s i hi
      | some f =>
        rcases f with ⟨d, r⟩
        cases d with
        | zero =>
          cases r with
          | ok v =>
            rw [raceScan_ok j rest s v hact hfut] at hi
            simp only [List.mem_singleton] at hi
            subst hi
            exact hact
          | error e =>
            rw [raceScan_err j rest s e hact hfut] at hi
            simp only [List.mem_cons] at hi
            rcases hi with rfl | hi
            · exact hact
            · have h2 := ih _ i hi
              simp only at h2
              by_cases hij : i = j
              · subst hij
                rw [getD_set_self _ _ _ _ hjlen] at h2
                exact absurd h2 (by simp)
              · rw [getD_set_ne _ _ _ (fun h => hij h.symm)] at h2
                exact h2
        | succ d =>
          rw [raceScan_pend j rest s d r hact hfut] at hi
          simp only [List.mem_cons] at hi
          rcases hi with rfl | hi
          · exact hact
          · exact ih { s with futs := s.futs.set j ⟨d, r⟩, cursor := j } i hi

theorem raceScan_active_mono : ∀ (ord : List Nat) (s : RaceOkState ε τ) (i : Nat),
    (raceScan ord s).1.active.getD i false = true → s.active.getD i false = true := by
  intro ord
  induction ord with
  | nil => exact fun s i h => h
  | cons j rest ih =>
    intro s i hi
    cases hact : s.active.getD j false with
    | false =>
      rw [raceScan_skip j rest s hact] at hi
      exact ih s i hi
    | true =>
      have hjlen : j < s.active.length := lt_length_of_getD_true _ _ hact
      cases hfut : s.futs[j]? with
      | none =>
        rw [raceScan_oob j rest s hact hfut] at hi
        exact ih s i hi
      | some f =>
        rcases f with ⟨d, r⟩
        cases d with
        | zero =>
          cases r with
          | ok v =>
            rw [raceScan_ok j rest s v hact hfut] at hi
            simp only at hi
            by_cases hij : i = j
            · subst hij
              exact hact
            · rw [getD_set_ne _ _ _ (fun h => hij h.symm)] at hi
              exact hi
          | error e =>
            rw [raceScan_err j rest s e hact hfut] at hi
            have h2 := ih _ i hi
            simp only at h2
            by_cases hij : i = j
            · subst hij
              exact hact
            · rw [getD_set_ne _ _ _ (fun h => hij h.symm)] at h2
              exact h2
        | succ d =>
          rw [raceScan_pend j rest s d r hact hfut] at hi
          exact ih { s with futs := s.futs.set j ⟨d, r⟩, cursor := j } i hi

theorem raceScan_deact : ∀ (ord : List Nat), ord.Nodup → ∀ (s : RaceOkState ε τ) (i : Nat),
    s.active.getD i false = true →
    (raceScan ord s).1.active.getD i false = false →
    i ∈ (raceScan ord s).2.2 ∧ ∃ r, s.futs[i]? = some ⟨0, r⟩ := by
  intro ord
  induction ord with
  | nil =>
    intro _ s i hiact hdeact
    have hd : s.active.getD i false = false := hdeact
    rw [hiact] at hd
    exact absurd hd (by simp)
  | cons j rest ih =>
    intro hnd s i hiact hdeact
    have hndr : rest.Nodup := hnd.of_cons
    have hjrest : j ∉ rest := (List.nodup_cons.mp hnd).1
    cases hact : s.active.getD j false with
    | false =>
      rw [raceScan_skip j rest s hact] at hdeact ⊢
      exact ih hndr s i hiact hdeact
    | true =>
      have hjlen : j < s.active.length := lt_length_of_getD_true _ _ hact
      cases hfut : s.futs[j]? with
      | none =>
        rw [raceScan_oob j rest s hact hfut] at hdeact ⊢
        exact ih hndr s i hiact hdeact
      | some f =>
        rcases f with ⟨d, r⟩
        cases d with
        | zero =>
          cases r with
          | ok v =>
            rw [raceScan_ok j rest s v hact hfut] at hdeact ⊢
            simp only at hdeact
            by_cases hij : i = j
            · subst hij
              exact ⟨List.mem_singleton.mpr rfl, ⟨.ok v, hfut⟩⟩
            · rw [getD_set_ne _ _ _ (fun h => hij h.symm), hiact] at hdeact
              exact absurd hdeact (by simp)
          | error e =>
            rw [raceScan_err j rest s e hact hfut] at hdeact ⊢
            by_cases hij : i = j
            · subst hij
              exact ⟨List.mem_cons_self _ _, ⟨.error e, hfut⟩⟩
            · have hiact2 : (s.active.set j false).getD i false = true := by
                rw [getD_set_ne _ _ _ (fun h => hij h.symm)]
                exact hiact
              obtain ⟨hmem, r', hfut'⟩ := ih hndr
                { s with futs := s.futs.set j ⟨0, .error e⟩, cursor := j,
                         errors := s.errors.set j (some e),
                         completed := s.completed + 1,
                         active := s.active.set j false } i hiact2 hdeact
              refine ⟨List.mem_cons_of_mem _ hmem, r', ?_⟩
              rw [← hfut']
              simp only
              rw [List.getElem?_set_ne (fun h => hij h.symm)]
        | succ d =>
          rw [raceScan_pend j rest s d r hact hfut] at hdeact ⊢
          by_cases hij : i = j
          · subst hij
            exfalso
            have huntouched := (raceScan_untouched rest
              { s with futs := s.futs.set i ⟨d, r⟩, cursor := i } i hjrest).2.1
            simp only at huntouched
            have hd2 : (raceScan rest
                { s with futs := s.futs.set i ⟨d, r⟩, cursor := i }).1.active.getD i false
              = false := hdeact
            rw [List.getD_eq_getElem?_getD, huntouched,
              ← List.getD_eq_getElem?_getD, hiact] at hd2
            exact absurd hd2 (by simp)
          · obtain ⟨hmem, r', hfut'⟩ := ih hndr
              { s with futs := s.futs.set j ⟨d, r⟩, cursor := j } i hiact hdeact
            refine ⟨List.mem_cons_of_mem _ hmem, r', ?_⟩
            rw [← hfut']
            simp only
            rw [List.getElem?_set_ne (fun h => hij h.symm)]

theorem raceScan_complete_deact : ∀ (ord : List Nat), ord.Nodup →
    ∀ (s : RaceOkState ε τ) (i : Nat) (r : Except ε τ),
    i ∈ (raceScan ord s).2.2 → s.futs[i]? = some ⟨0, r⟩ →
    (raceScan ord s).1.active.getD i false = false := by
  intro ord
  induction ord with
  | nil =>
    intro _ s i r h _
    simp [raceScan] at h
  | cons j rest ih =>
    intro hnd s i r hi hfi
    have hndr : rest.Nodup := hnd.of_cons
    have hjrest : j ∉ rest := (List.nodup_cons.mp hnd).1
    cases hact : s.active.getD j false with
    | false =>
      rw [raceScan_skip j rest s hact] at hi ⊢
      exact ih hndr s i r hi hfi
    | true =>
      have hjlen : j < s.active.length := lt_length_of_getD_true _ _ hact
      cases hfut : s.futs[j]? with
      | none =>
        rw [raceScan_oob j rest s hact hfut] at hi ⊢
        exact ih hndr s i r hi hfi
      | some f =>
        rcases f with ⟨d, r0⟩
        cases d with
        | zero =>
          cases r0 with
          | ok v =>
            rw [raceScan_ok j rest s v hact hfut] at hi ⊢
            simp only [List.mem_singleton] at hi
            subst hi
            simp only
            rw [getD_set_self _ _ _ _ hjlen]
          | error e =>
            rw [raceScan_err j rest s e hact hfut] at hi ⊢
            simp only [List.mem_cons] at hi
            rcases hi with rfl | hi
            · have huntouched := (raceScan_untouched rest
                { s with futs := s.futs.set i ⟨0, .error e⟩, cursor := i,
                         errors := s.errors.set i (some e),
                         completed := s.completed + 1,
                         active := s.active.set i false } i hjrest).2.1
              rw [List.getD_eq_getElem?_getD, huntouched]
              simp only
              rw [List.getElem?_set_eq_of_lt _ hjlen]
              rfl
            · have hij : i ≠ j := by
                intro h
                subst h
                exact hjrest ((raceScan_trace_sublist rest _).mem hi)
              refine ih hndr _ i r hi ?_
              simp only
              rw [List.getElem?_set_ne (fun h => hij h.symm)]
              exact hfi
        | succ d =>
          rw [raceScan_pend j rest s d r0 hact hfut] at hi ⊢
          simp only [List.mem_cons] at hi
          rcases hi with rfl | hi
          · rw [hfi] at hfut
            simp at hfut
          · have hij : i ≠ j := by
              intro h
              subst h
              exact hjrest ((raceScan_trace_sublist rest _).mem hi)
            refine ih hndr _ i r hi ?_
            simp only
            rw [List.getElem?_set_ne (fun h => hij h.symm)]
            exact hfi

/-! ## Race scan on states with no imminent success -/

theorem lt_length_of_getElem?_some {l : List β} {i : Nat} {b : β}
    (h : l[i]? = some b) : i < l.length := by
  rcases List.getElem?_eq_some_iff.mp h with ⟨hl, _⟩
  exact hl

/-- Pointwise behavior of one `drive()` scan when no visited operation is
about to succeed: no success is reported, the terminal flag is untouched,
every visited active operation with remaining delay is ticked down one,
every visited active operation with expired delay records its error and is
removed from the active set, inactive indices are untouched, and the
completed count increases by the number of operations that complete. -/
theorem raceScan_fail (ord : List Nat) : ∀ (s : RaceOkState ε τ),
    ord.Nodup →
    (∀ i ∈ ord, s.active.getD i false = true →
      ∀ f, s.futs[i]? = some f → f.delay = 0 → ∃ e, f.result = .error e) →
    (raceScan ord s).2.1 = none ∧
    (raceScan ord s).1.done = s.done ∧
    (∀ i ∈ ord, s.active.getD i false = true →
      ∀ d r, s.futs[i]? = some ⟨d + 1, r⟩ →
        (raceScan ord s).1.futs[i]? = some ⟨d, r⟩ ∧
        (raceScan ord s).1.active[i]? = s.active[i]? ∧
        (raceScan ord s).1.errors[i]? = s.errors[i]?) ∧
    (∀ i ∈ ord, s.active.getD i false = true →
      ∀ e, s.futs[i]? = some ⟨0, .error e⟩ →
        (raceScan ord s).1.futs[i]? = some ⟨0, .error e⟩ ∧
        (raceScan ord s).1.active[i]? = some false ∧
        (raceScan ord s).1.errors[i]? = (s.errors.set i (some e))[i]?) ∧
    (∀ i ∈ ord, s.active.getD i false = false →
      (raceScan ord s).1.futs[i]? = s.futs[i]? ∧
      (raceScan ord s).1.active[i]? = s.active[i]? ∧
      (raceScan ord s).1.errors[i]? = s.errors[i]?) ∧
    (raceScan ord s).1.completed = s.completed +
      (ord.filter (fun i => s.active.getD i false &&
        (match s.futs[i]? with | some f => f.delay == 0 | none => false))).length := by
  induction ord with
  | nil =>
    intro s _ _
    refine ⟨rfl, rfl, ?_, ?_, ?_, by simp [raceScan]⟩ <;> intro i hi <;> simp at hi
  | cons j rest ih =>
    intro s hnd herr
    have hndr : rest.Nodup := hnd.of_cons
    have hjrest : j ∉ rest := (List.nodup_cons.mp hnd).1
    cases hact : s.active.getD j false with
    | false =>
      rw [raceScan_skip j rest s hact]
      obtain ⟨c1, c2, c3, c4, c5, c6⟩ := ih s hndr
        (fun i hi => herr i (List.mem_cons_of_mem _ hi))
      refine ⟨c1, c2, ?_, ?_, ?_, ?_⟩
      · intro i hi hia d r hf
        rcases List.mem_cons.mp hi with rfl | hi'
        · rw [hact] at hia; exact absurd hia (by simp)
        · exact c3 i hi' hia d r hf
      · intro i hi hia e hf
        rcases List.mem_cons.mp hi with rfl | hi'
        · rw [hact] at hia; exact absurd hia (by simp)
        · exact c4 i hi' hia e hf
      · intro i hi hia
        rcases List.mem_cons.mp hi with rfl | hi'
        · exact (raceScan_untouched rest s i hjrest)
        · exact c5 i hi' hia
      · rw [c6]
        simp only [List.filter_cons]
        have hpj : (s.active.getD j false &&
            (match s.futs[j]? with | some f => f.delay == 0 | none => false)) = false := by
          rw [hact]
          rfl
        rw [if_neg (show ¬((s.active.getD j false &&
            (match s.futs[j]? with | some f => f.delay == 0 | none => false)) = true) from by
          rw [hpj]; simp)]
    | true =>
      have hjlen : j < s.active.length := lt_length_of_getD_true _ _ hact
      cases hfut : s.futs[j]? with
      | none =>
        rw [raceScan_oob j rest s hact hfut]
        obtain ⟨c1, c2, c3, c4, c5, c6⟩ := ih s hndr
          (fun i hi => herr i (List.mem_cons_of_mem _ hi))
        refine ⟨c1, c2, ?_, ?_, ?_, ?_⟩
        · intro i hi hia d r hf
          rcases List.mem_cons.mp hi with rfl | hi'
          · rw [hfut] at hf; exact absurd hf (by simp)
          · exact c3 i hi' hia d r hf
        · intro i hi hia e hf
          rcases List.mem_cons.mp hi with rfl | hi'
          · rw [hfut] at hf; exact absurd hf (by simp)
          · exact c4 i hi' hia e hf
        · intro i hi hia
          rcases List.mem_cons.mp hi with rfl | hi'
          · rw [hact] at hia; exact absurd hia (by simp)
          · exact c5 i hi' hia
        · rw [c6]
          simp only [List.filter_cons]
          have hpj : (s.active.getD j false &&
              (match s.futs[j]? with | some f => f.delay == 0 | none => false)) = false := by
            rw [hact, hfut]
            rfl
          rw [if_neg (show ¬((s.active.getD j false &&
              (match s.futs[j]? with | some f => f.delay == 0 | none => false)) = true) from by
            rw [hpj]; simp)]
      | some f =>
        rcases f with ⟨d, r⟩
        cases d with
        | zero =>
          obtain ⟨e, he⟩ := herr j (List.mem_cons_self j rest) hact ⟨0, r⟩ hfut rfl
          subst he
          have hjf : j < s.futs.length := lt_length_of_getElem?_some hfut
          rw [raceScan_err j rest s e hact hfut]
          have herr2 : ∀ i ∈ rest,
              (s.active.set j false).getD i false = true →
              ∀ f, (s.futs.set j ⟨0, .error e⟩)[i]? = some f → f.delay = 0 →
                ∃ e', f.result = .error e' := by
            intro i hi hia f hf hd
            have hij : i ≠ j := fun h => hjrest (h ▸ hi)
            rw [getD_set_ne _ _ _ (fun h => hij h.symm)] at hia
            rw [List.getElem?_set_ne (fun h => hij h.symm)] at hf
            exact herr i (List.mem_cons_of_mem _ hi) hia f hf hd
          obtain ⟨c1, c2, c3, c4, c5, c6⟩ := ih
            { s with futs := s.futs.set j ⟨0, .error e⟩, cursor := j,
                     errors := s.errors.set j (some e),
                     completed := s.completed + 1,
                     active := s.active.set j false } hndr herr2
          simp only at c1 c2 c3 c4 c5 c6
          refine ⟨c1, c2, ?_, ?_, ?_, ?_⟩
          · intro i hi hia d' r' hf
            rcases List.mem_cons.mp hi with rfl | hi'
            · rw [hfut] at hf
              simp at hf
            · have hij : i ≠ j := fun h => hjrest (h ▸ hi')
              have h3 := c3 i hi'
                (by rw [getD_set_ne _ _ _ (fun h => hij h.symm)]; exact hia)
                d' r'
                (by rw [List.getElem?_set_ne (fun h => hij h.symm)]; exact hf)
              rw [List.getElem?_set_ne (fun h => hij h.symm),
                List.getElem?_set_ne (fun h => hij h.symm)] at h3
              exact h3
          · intro i hi hia e' hf
            rcases List.mem_cons.mp hi with rfl | hi'
            · rw [hfut] at hf
              simp only [Option.some.injEq, RFut.mk.injEq] at hf
              have he2 : e = e' := by
                have := hf.2
                injection this
              subst he2
              obtain ⟨u1, u2, u3⟩ := raceScan_untouched rest
                { s with futs := s.futs.set i ⟨0, .error e⟩, cursor := i,
                         errors := s.errors.set i (some e),
                         completed := s.completed + 1,
                         active := s.active.set i false } i hjrest
              simp only at u1 u2 u3
              rw [u1, u2, u3]
              refine ⟨?_, ?_, rfl⟩
              · rw [List.getElem?_set_eq_of_lt _ hjf]
              · rw [List.getElem?_set_eq_of_lt _ hjlen]
            · have hij : i ≠ j := fun h => hjrest (h ▸ hi')
              have h4 := c4 i hi'
                (by rw [getD_set_ne _ _ _ (fun h => hij h.symm)]; exact hia)
                e'
                (by rw [List.getElem?_set_ne (fun h => hij h.symm)]; exact hf)
              obtain ⟨h41, h42, h43⟩ := h4
              refine ⟨h41, h42, ?_⟩
              rw [h43, List.getElem?_set_self', List.getElem?_set_self',
                List.getElem?_set_ne (fun h => hij h.symm)]
          · intro i hi hia
            rcases List.mem_cons.mp hi with rfl | hi'
            · rw [hact] at hia; exact absurd hia (by simp)
            · have hij : i ≠ j := fun h => hjrest (h ▸ hi')
              have h5 := c5 i hi'
                (by rw [getD_set_ne _ _ _ (fun h => hij h.symm)]; exact hia)
              rw [List.getElem?_set_ne (fun h => hij h.symm),
                List.getElem?_set_ne (fun h => hij h.symm),
                List.getElem?_set_ne (fun h => hij h.symm)] at h5
              exact h5
          · rw [c6]
            have hfilter : rest.filter (fun i => (s.active.set j false).getD i false &&
                (match (s.futs.set j ⟨0, .error e⟩)[i]? with
                  | some f => f.delay == 0 | none => false))
                = rest.filter (fun i => s.active.getD i false &&
                    (match s.futs[i]? with | some f => f.delay == 0 | none => false)) := by
              apply List.filter_congr
              intro i hi
              have hij : i ≠ j := fun h => hjrest (h ▸ hi)
              rw [getD_set_ne _ _ _ (fun h => hij h.symm),
                List.getElem?_set_ne (fun h => hij h.symm)]
            rw [hfilter]
            simp only [List.filter_cons]
            have hpj : (s.active.getD j false &&
                (match s.futs[j]? with | some f => f.delay == 0 | none => false)) = true := by
              rw [hact, hfut]
              rfl
            rw [if_pos hpj]
            simp only [List.length_cons]
            omega
        | succ d =>
          rw [raceScan_pend j rest s d r hact hfut]
          have hjf : j < s.futs.length := lt_length_of_getElem?_some hfut
          have herr2 : ∀ i ∈ rest, s.active.getD i false = true →
              ∀ f, (s.futs.set j ⟨d, r⟩)[i]? = some f → f.delay = 0 →
                ∃ e', f.result = .error e' := by
            intro i hi hia f hf hd
            have hij : i ≠ j := fun h => hjrest (h ▸ hi)
            rw [List.getElem?_set_ne (fun h => hij h.symm)] at hf
            exact herr i (List.mem_cons_of_mem _ hi) hia f hf hd
          obtain ⟨c1, c2, c3, c4, c5, c6⟩ := ih
            { s with futs := s.futs.set j ⟨d, r⟩, cursor := j } hndr herr2
          simp only at c1 c2 c3 c4 c5 c6
          refine ⟨c1, c2, ?_, ?_, ?_, ?_⟩
          · intro i hi hia d' r' hf
            rcases List.mem_cons.mp hi with rfl | hi'
            · rw [hfut] at hf
              simp only [Option.some.injEq, RFut.mk.injEq] at hf
              obtain ⟨hd, hr⟩ := hf
              subst hr
              have hd2 : d = d' := by omega
              subst hd2
              obtain ⟨u1, u2, u3⟩ := raceScan_untouched rest
                { s with futs := s.futs.set i ⟨d, r⟩, cursor := i } i hjrest
              simp only at u1 u2 u3
              rw [u1, u2, u3]
              exact ⟨by rw [List.getElem?_set_eq_of_lt _ hjf], rfl, rfl⟩
            · have hij : i ≠ j := fun h => hjrest (h ▸ hi')
              exact c3 i hi' hia d' r'
                (by rw [List.getElem?_set_ne (fun h => hij h.symm)]; exact hf)
          · intro i hi hia e' hf
            rcases List.mem_cons.mp hi with rfl | hi'
            · rw [hfut] at hf
              simp at hf
            · have hij : i ≠ j := fun h => hjrest (h ▸ hi')
              exact c4 i hi' hia e'
                (by rw [List.getElem?_set_ne (fun h => hij h.symm)]; exact hf)
          · intro i hi hia
            rcases List.mem_cons.mp hi with rfl | hi'
            · rw [hact] at hia; exact absurd hia (by simp)
            · have hij : i ≠ j := fun h => hjrest (h ▸ hi')
              have h5 := c5 i hi' hia
              rw [List.getElem?_set_ne (fun h => hij h.symm)] at h5
              exact h5
          · rw [c6]
            have hfilter : rest.filter (fun i => s.active.getD i false &&
                (match (s.futs.set j ⟨d, r⟩)[i]? with
                  | some f => f.delay == 0 | none => false))
                = rest.filter (fun i => s.active.getD i false &&
                    (match s.futs[i]? with | some f => f.delay == 0 | none => false)) := by
              apply List.filter_congr
              intro i hi
              have hij : i ≠ j := fun h => hjrest (h ▸ hi)
              rw [List.getElem?_set_ne (fun h => hij h.symm)]
            rw [hfilter]
            simp only [List.filter_cons]
            have hpj : (s.active.getD j false &&
                (match s.futs[j]? with | some f => f.delay == 0 | none => false)) = false := by
              rw [hact, hfut]
              rfl
            rw [if_neg (show ¬((s.active.getD j false &&
                (match s.futs[j]? with | some f => f.delay == 0 | none => false)) = true) from by
              rw [hpj]; simp)]

/-! ## Rebuilding the canonical state after one failing drive -/

theorem raceAfter_futs_getElem? (fs : List (RFut ε τ)) (k c i : Nat) :
    (raceAfter fs k c).futs[i]?
      = (fs[i]?).map (fun f => (⟨f.delay - k, f.result⟩ : RFut ε τ)) := by
  simp [raceAfter]

theorem raceAfter_active_getElem? (fs : List (RFut ε τ)) (k c i : Nat) :
    (raceAfter fs k c).active[i]? = (fs[i]?).map (fun f => decide (k ≤ f.delay)) := by
  simp [raceAfter]

theorem raceAfter_errors_getElem? (fs : List (RFut ε τ)) (k c i : Nat) :
    (raceAfter fs k c).errors[i]?
      = (fs[i]?).map (fun f => if f.delay < k then errOpt f.result else none) := by
  simp [raceAfter]

theorem countP_filter_range (q : β → Bool) :
    ∀ (fs : List β),
      ((List.range fs.length).filter
        (fun i => (fs[i]?.map q).getD false)).length
      = fs.countP q := by
  intro fs
  induction fs with
  | nil => rfl
  | cons x t ih =>
    rw [List.length_cons, List.range_succ_eq_map, List.filter_cons, List.filter_map]
    have hx : (((x :: t)[0]?.map q).getD false) = q x := by
      rw [List.getElem?_cons_zero]
      rfl
    have hcomp : ((fun i => (((x :: t)[i]?.map q).getD false)) ∘ Nat.succ)
        = fun i => ((t[i]?.map q).getD false) := by
      funext i
      simp only [Function.comp_apply, Nat.succ_eq_add_one, List.getElem?_cons_succ]
    rw [hcomp]
    cases hqx : q x with
    | false =>
      rw [if_neg (by rw [hx, hqx]; simp)]
      rw [List.length_map, ih, List.countP_cons]
      rw [hqx]
      rfl
    | true =>
      rw [if_pos (by rw [hx, hqx])]
      rw [List.length_cons, List.length_map, ih, List.countP_cons]
      rw [hqx]
      rfl

theorem countP_delay_lt_succ (fs : List (RFut ε τ)) (k : Nat) :
    fs.countP (fun f => f.delay < k) + fs.countP (fun f => f.delay == k)
      = fs.countP (fun f => f.delay < k + 1) := by
  induction fs with
  | nil => rfl
  | cons x t ih =>
    simp only [List.countP_cons]
    have : (if (x.delay == k) = true then 1 else 0)
        = (if x.delay = k then 1 else 0) := by
      by_cases h : x.delay = k <;> simp [h]
    rw [this]
    by_cases h1 : x.delay < k <;> by_cases h2 : x.delay = k <;>
      by_cases h3 : x.delay < k + 1 <;> simp [h1, h2, h3] <;> omega

theorem countP_add_countP_not (p : β → Bool) (l : List β) :
    l.countP p + l.countP (fun b => !(p b)) = l.length := by
  induction l with
  | nil => rfl
  | cons x t ih => cases h : p x <;> simp [List.countP_cons, h] <;> omega

theorem mem_of_getElem?_some {l : List β} {i : Nat} {a : β}
    (h : l[i]? = some a) : a ∈ l :=
  List.mem_iff_getElem?.mpr ⟨i, h⟩

theorem RaceOkState.ext_fields {s t : RaceOkState ε τ}
    (h1 : s.completed = t.completed) (h2 : s.done = t.done)
    (h3 : s.cursor = t.cursor) (h4 : s.active = t.active)
    (h5 : s.errors = t.errors) (h6 : s.futs = t.futs) : s = t := by
  cases s
  cases t
  simp_all

/-- One full `drive()` scan from the canonical state after `k` failing
drives reports no success and moves the state to the canonical state after
`k + 1` drives (up to the rotation cursor). -/
theorem raceScan_step (fs : List (RFut ε τ)) (k c : Nat)
    (herr : ∀ f ∈ fs, f.delay = k → ∃ e, f.result = .error e) :
    (raceScan (visitOrder (raceAfter fs k c).futs.length (raceAfter fs k c).cursor)
        (raceAfter fs k c)).2.1 = none ∧
    (raceScan (visitOrder (raceAfter fs k c).futs.length (raceAfter fs k c).cursor)
        (raceAfter fs k c)).1
      = raceAfter fs (k + 1)
          ((raceScan (visitOrder (raceAfter fs k c).futs.length (raceAfter fs k c).cursor)
            (raceAfter fs k c)).1.cursor) := by
  set σ := raceAfter fs k c with hσ
  set ord := visitOrder σ.futs.length σ.cursor with hord
  have hn : σ.futs.length = fs.length := by simp [hσ, raceAfter]
  have hna : σ.active.length = fs.length := by simp [hσ, raceAfter]
  have hne : σ.errors.length = fs.length := by simp [hσ, raceAfter]
  have hordmem : ∀ i, i < fs.length → i ∈ ord := by
    intro i hi
    rw [hord, visitOrder_mem, hn]
    exact hi
  have hnd : ord.Nodup := visitOrder_nodup _ _
  have herr2 : ∀ i ∈ ord, σ.active.getD i false = true →
      ∀ f, σ.futs[i]? = some f → f.delay = 0 → ∃ e, f.result = .error e := by
    intro i _ hact f hf h0
    rw [hσ, raceAfter_futs_getElem?] at hf
    cases hf0 : fs[i]? with
    | none => rw [hf0] at hf; simp at hf
    | some f0 =>
      rw [hf0] at hf
      simp only [Option.map_some', Option.some.injEq] at hf
      rw [List.getD_eq_getElem?_getD, hσ, raceAfter_active_getElem?, hf0] at hact
      simp only [Option.map_some', Option.getD_some, decide_eq_true_eq] at hact
      have hdelf : f.delay = f0.delay - k := by rw [← hf]
      have hdel : f0.delay = k := by omega
      obtain ⟨e, he⟩ := herr f0 (mem_of_getElem?_some hf0) hdel
      refine ⟨e, ?_⟩
      rw [← hf, he]
  obtain ⟨c1, c2, c3, c4, c5, c6⟩ := raceScan_fail ord σ hnd herr2
  refine ⟨c1, ?_⟩
  have hpoint : ∀ (i : Nat) (f0 : RFut ε τ), fs[i]? = some f0 →
      (raceScan ord σ).1.futs[i]? = some (⟨f0.delay - (k + 1), f0.result⟩ : RFut ε τ) ∧
      (raceScan ord σ).1.active[i]? = some (decide (k + 1 ≤ f0.delay)) ∧
      (raceScan ord σ).1.errors[i]?
        = some (if f0.delay < k + 1 then errOpt f0.result else (none : Option ε)) := by
    intro i f0 hf0
    have hiord : i ∈ ord := hordmem i (lt_length_of_getElem?_some hf0)
    have hfσ : σ.futs[i]? = some ⟨f0.delay - k, f0.result⟩ := by
      rw [hσ, raceAfter_futs_getElem?, hf0]
      rfl
    have hactσ : σ.active[i]? = some (decide (k ≤ f0.delay)) := by
      rw [hσ, raceAfter_active_getElem?, hf0]
      rfl
    have herrσ : σ.errors[i]? = some (if f0.delay < k then errOpt f0.result else none) := by
      rw [hσ, raceAfter_errors_getElem?, hf0]
      rfl
    by_cases hge : k ≤ f0.delay
    · have hactT : σ.active.getD i false = true := by
        rw [List.getD_eq_getElem?_getD, hactσ]
        simpa using hge
      by_cases heq : f0.delay = k
      · obtain ⟨e, he⟩ := herr f0 (mem_of_getElem?_some hf0) heq
        have hfσ' : σ.futs[i]? = some ⟨0, .error e⟩ := by
          rw [hfσ, he]
          congr 2
          omega
        obtain ⟨p1, p2, p3⟩ := c4 i hiord hactT e hfσ'
        refine ⟨?_, ?_, ?_⟩
        · rw [p1, he]
          congr 2
          omega
        · rw [p2]
          congr 1
          have : ¬(k + 1 ≤ f0.delay) := by omega
          simp [this]
        · rw [p3]
          have hilen : i < σ.errors.length := by
            rw [hne]
            exact lt_length_of_getElem?_some hf0
          rw [List.getElem?_set_eq_of_lt _ hilen]
          congr 1
          rw [he]
          have : f0.delay < k + 1 := by omega
          simp [this, errOpt]
      · have hgt : k < f0.delay := by omega
        have hfσ' : σ.futs[i]? = some ⟨(f0.delay - (k + 1)) + 1, f0.result⟩ := by
          rw [hfσ]
          congr 2
          omega
        obtain ⟨p1, p2, p3⟩ := c3 i hiord hactT _ _ hfσ'
        refine ⟨p1, ?_, ?_⟩
        · rw [p2, hactσ]
          congr 1
          have h1 : k + 1 ≤ f0.delay := by omega
          simp [hge, h1]
        · rw [p3, herrσ]
          congr 1
          have h1 : ¬(f0.delay < k) := by omega
          have h2 : ¬(f0.delay < k + 1) := by omega
          simp [h1, h2]
    · have hlt : f0.delay < k := by omega
      have hactF : σ.active.getD i false = false := by
        rw [List.getD_eq_getElem?_getD, hactσ]
        simpa using hge
      obtain ⟨p1, p2, p3⟩ := c5 i hiord hactF
      refine ⟨?_, ?_, ?_⟩
      · rw [p1, hfσ]
        congr 2
        omega
      · rw [p2, hactσ]
        congr 1
        have h1 : ¬(k + 1 ≤ f0.delay) := by omega
        simp [hge, h1]
      · rw [p3, herrσ]
        congr 1
        have h2 : f0.delay < k + 1 := by omega
        simp [hlt, h2]
  have hcompl : (raceScan ord σ).1.completed = fs.countP (fun f => f.delay < k + 1) := by
    rw [c6]
    have hcongr : ord.filter (fun i => σ.active.getD i false &&
        (match σ.futs[i]? with | some f => f.delay == 0 | none => false))
        = ord.filter (fun i =>
            ((fs[i]?.map (fun f => f.delay == k)).getD false)) := by
      apply List.filter_congr
      intro i _
      rw [List.getD_eq_getElem?_getD, hσ, raceAfter_active_getElem?,
        raceAfter_futs_getElem?]
      cases hf0 : fs[i]? with
      | none => rfl
      | some f0 =>
        simp only [Option.map_some', Option.getD_some]
        by_cases hdk : f0.delay = k
        · subst hdk
          simp
        · have h1 : (f0.delay == k) = false := by simp [hdk]
          rw [h1]
          by_cases hle : k ≤ f0.delay
          · have h2 : (f0.delay - k == 0) = false := by
              have : f0.delay - k ≠ 0 := by omega
              simp [this]
            simp [h2]
          · have h2 : (decide (k ≤ f0.delay)) = false := by simp [hle]
            simp [h2]
    rw [hcongr]
    have hperm : ord.Perm (List.range fs.length) := by
      rw [hord, hn]
      exact visitOrder_perm _ _
    have hlen := (hperm.filter (fun i =>
      ((fs[i]?.map (fun f => f.delay == k)).getD false))).length_eq
    rw [hlen, countP_filter_range]
    have hc0 : σ.completed = fs.countP (fun f => f.delay < k) := rfl
    rw [hc0, countP_delay_lt_succ]
  obtain ⟨hl1, hl2, hl3⟩ := raceScan_lengths ord σ
  apply RaceOkState.ext_fields
  · rw [hcompl]
    rfl
  · rw [c2]
    rfl
  · rfl
  · -- active
    apply List.ext_getElem?
    intro i
    cases hf0 : fs[i]? with
    | none =>
      have hge : fs.length ≤ i := List.getElem?_eq_none_iff.mp hf0
      rw [List.getElem?_eq_none (by rw [hl2, hna]; exact hge),
        List.getElem?_eq_none (by simpa [raceAfter] using hge)]
    | some f0 =>
      rw [(hpoint i f0 hf0).2.1, raceAfter_active_getElem?, hf0]
      rfl
  · -- errors
    apply List.ext_getElem?
    intro i
    cases hf0 : fs[i]? with
    | none =>
      have hge : fs.length ≤ i := List.getElem?_eq_none_iff.mp hf0
      rw [List.getElem?_eq_none (by rw [hl3, hne]; exact hge),
        List.getElem?_eq_none (by simpa [raceAfter] using hge)]
    | some f0 =>
      rw [(hpoint i f0 hf0).2.2, raceAfter_errors_getElem?, hf0]
      rfl
  · -- futs
    apply List.ext_getElem?
    intro i
    cases hf0 : fs[i]? with
    | none =>
      have hge : fs.length ≤ i := List.getElem?_eq_none_iff.mp hf0
      rw [List.getElem?_eq_none (by rw [hl1, hn]; exact hge),
        List.getElem?_eq_none (by simpa [raceAfter] using hge)]
    | some f0 =>
      rw [(hpoint i f0 hf0).1, raceAfter_futs_getElem?, hf0]
      rfl

/-- One `poll` from the canonical state after `k` failing drives, while at
least one operation is still pending, reports `Pending` and leaves the
canonical state after `k + 1` failing drives. -/
theorem racePoll_fail_pending (fs : List (RFut ε τ)) (k c : Nat)
    (herr : ∀ f ∈ fs, f.delay = k → ∃ e, f.result = .error e)
    (hrem : ∃ f ∈ fs, k < f.delay) :
    ∃ c' tr, (raceAfter fs k c).poll = some (.pending, raceAfter fs (k + 1) c', tr) := by
  obtain ⟨c1, c2⟩ := raceScan_step fs k c herr
  set σ := raceAfter fs k c with hσ
  set t := raceScan (visitOrder σ.futs.length σ.cursor) σ with ht
  have hdone : σ.done = false := rfl
  have hlt : fs.countP (fun f => f.delay < k + 1) < fs.length := by
    obtain ⟨f, hmem, hf⟩ := hrem
    have h0 : 0 < fs.countP (fun b => !(decide (b.delay < k + 1))) := by
      apply List.countP_pos_iff.mpr
      refine ⟨f, hmem, ?_⟩
      simp only [Bool.not_eq_true', decide_eq_false_iff_not]
      omega
    have hsum := countP_add_countP_not (fun f => decide (f.delay < k + 1)) fs
    omega
  have hne : ¬(t.1.completed = t.1.futs.length) := by
    rw [c2]
    have e1 : (raceAfter fs (k + 1) t.1.cursor).completed
        = fs.countP (fun f => f.delay < k + 1) := rfl
    have e2 : (raceAfter fs (k + 1) t.1.cursor).futs.length = fs.length := by
      simp [raceAfter]
    rw [e1, e2]
    omega
  refine ⟨t.1.cursor, t.2.2, ?_⟩
  simp only [RaceOkState.poll]
  rw [if_neg (by rw [hdone]; simp)]
  rw [← ht]
  simp only [c1]
  rw [if_neg hne]
  rw [← c2]

/-- One `poll` from the canonical state after `k` failing drives, once
every operation has failed (all delays at most `k`), returns the aggregate
error carrying every operation's error in construction order, and marks
the race done. -/
theorem racePoll_fail_final (fs : List (RFut ε τ)) (k c : Nat)
    (hall : ∀ f ∈ fs, ∃ e, f.result = .error e)
    (hdel : ∀ f ∈ fs, f.delay ≤ k) :
    ∃ s' tr, (raceAfter fs k c).poll
      = some (.ready (.error (errsOf fs)), s', tr) ∧ s'.done = true := by
  obtain ⟨c1, c2⟩ := raceScan_step fs k c (fun f hf _ => hall f hf)
  set σ := raceAfter fs k c with hσ
  set t := raceScan (visitOrder σ.futs.length σ.cursor) σ with ht
  have hdone : σ.done = false := rfl
  have hcomp : t.1.completed = t.1.futs.length := by
    rw [c2]
    have e1 : (raceAfter fs (k + 1) t.1.cursor).completed
        = fs.countP (fun f => f.delay < k + 1) := rfl
    have e2 : (raceAfter fs (k + 1) t.1.cursor).futs.length = fs.length := by
      simp [raceAfter]
    rw [e1, e2]
    apply List.countP_eq_length.mpr
    intro f hf
    simp only [decide_eq_true_eq]
    exact Nat.lt_succ_of_le (hdel f hf)
  have herrs : t.1.errors.reduceOption = errsOf fs := by
    rw [c2]
    have e3 : (raceAfter fs (k + 1) t.1.cursor).errors
        = fs.map (fun f => if f.delay < k + 1 then errOpt f.result else none) := rfl
    rw [e3]
    have e4 : fs.map (fun f => if f.delay < k + 1 then errOpt f.result else none)
        = fs.map (fun f => errOpt f.result) := by
      apply List.map_congr_left
      intro f hf
      rw [if_pos (Nat.lt_succ_of_le (hdel f hf))]
    rw [e4]
    show (fs.map (fun f => errOpt f.result)).filterMap id = errsOf fs
    rw [List.filterMap_map]
    rfl
  refine ⟨{ t.1 with done := true }, t.2.2, ?_, rfl⟩
  simp only [RaceOkState.poll]
  rw [if_neg (by rw [hdone]; simp)]
  rw [← ht]
  simp only [c1]
  rw [if_pos hcomp, herrs]

/-- When every operation fails, driving the race with enough fuel produces
the aggregate error of all error values in construction order. -/
theorem raceRun_fail (fs : List (RFut ε τ))
    (hall : ∀ f ∈ fs, ∃ e, f.result = .error e) :
    ∀ m k c, (∀ f ∈ fs, f.delay ≤ k + m) →
      ∃ s', raceRun (m + 1) (raceAfter fs k c) = (some (.error (errsOf fs)), s')
        ∧ s'.done = true := by
  intro m
  induction m with
  | zero =>
    intro k c hdel
    simp only [Nat.add_zero] at hdel
    obtain ⟨s', tr, hpoll, hdone⟩ := racePoll_fail_final fs k c hall hdel
    refine ⟨s', ?_, hdone⟩
    rw [raceRun, hpoll]
  | succ m ih =>
    intro k c hdel
    by_cases hrem : ∃ f ∈ fs, k < f.delay
    · have herr : ∀ f ∈ fs, f.delay = k → ∃ e, f.result = .error e :=
        fun f hf _ => hall f hf
      obtain ⟨c', tr, hpoll⟩ := racePoll_fail_pending fs k c herr hrem
      obtain ⟨s', hrun, hdone⟩ := ih (k + 1) c' (by
        intro f hf
        have := hdel f hf
        omega)
      refine ⟨s', ?_, hdone⟩
      rw [raceRun, hpoll]
      exact hrun
    · push_neg at hrem
      have hdel' : ∀ f ∈ fs, f.delay ≤ k := hrem
      obtain ⟨s', tr, hpoll, hdone⟩ := racePoll_fail_final fs k c hall hdel'
      refine ⟨s', ?_, hdone⟩
      rw [raceRun, hpoll]

theorem mkFails_all_error : ∀ (delays : List Nat) (errs : List ε),
    ∀ f ∈ (mkFails delays errs : List (RFut ε τ)), ∃ e, f.result = .error e
  | [], _, f, hf => by simp [mkFails] at hf
  | _ :: _, [], f, hf => by simp [mkFails] at hf
  | d :: ds, e :: es, f, hf => by
    simp only [mkFails, List.zipWith_cons_cons, List.mem_cons] at hf
    rcases hf with rfl | hf
    · exact ⟨e, rfl⟩
    · exact mkFails_all_error ds es f hf

theorem delay_le_maxDelay {fs : List (RFut ε τ)} (f : RFut ε τ) (hf : f ∈ fs) :
    f.delay ≤ maxDelay fs := by
  induction fs with
  | nil => simp at hf
  | cons x t ih =>
    have hm : maxDelay (x :: t) = max x.delay (maxDelay t) := rfl
    rcases List.mem_cons.mp hf with rfl | hf'
    · rw [hm]
      exact le_max_left _ _
    · rw [hm]
      exact le_trans (ih hf') (le_max_right _ _)

theorem errsOf_mkFails : ∀ (delays : List Nat) (errs : List ε),
    delays.length = errs.length →
    errsOf (mkFails delays errs : List (RFut ε τ)) = errs
  | [], [], _ => rfl
  | [], _ :: _, h => by simp at h
  | _ :: _, [], h => by simp at h
  | d :: ds, e :: es, h => by
    simp only [List.length_cons] at h
    have ih := errsOf_mkFails (ε := ε) (τ := τ) ds es (by omega)
    show e :: errsOf (mkFails ds es : List (RFut ε τ)) = e :: es
    rw [ih]

/-- C2: for every N between 1 and 12 (in fact for every positive N), if
all N raced operations fail — delays and errors given in construction
order — the race's poll eventually returns `Err` of an aggregate error
whose list of errors is exactly the construction-order list `errs` (so it
has length N and its i-th element is the error of the i-th operation),
regardless of the completion order induced by the delays.  In particular
two immediately-failing operations with errors "hello" and "world" yield
the aggregate ["hello", "world"] (the witness instantiates exactly that
scenario). -/
theorem c2_race_aggregate_errors (delays : List Nat) (errs : List ε)
    (hlen : delays.length = errs.length)
    (hN1 : 1 ≤ errs.length) (hN12 : errs.length ≤ 12) :
    ∃ s', raceRun (maxDelay (mkFails delays errs : List (RFut ε τ)) + 1)
        (RaceOkState.new (mkFails delays errs : List (RFut ε τ)))
        = (some (.error errs), s')
      ∧ s'.done = true := by
  have _ : 1 ≤ 12 := le_trans hN1 hN12
  set fs : List (RFut ε τ) := mkFails delays errs with hfs
  have hall : ∀ f ∈ fs, ∃ e, f.result = .error e := mkFails_all_error delays errs
  have hdel : ∀ f ∈ fs, f.delay ≤ 0 + maxDelay fs := by
    intro f hf
    simpa using delay_le_maxDelay f hf
  obtain ⟨s', hrun, hdone⟩ := raceRun_fail fs hall (maxDelay fs) 0 (fs.length - 1) hdel
  refine ⟨s', ?_, hdone⟩
  rw [raceAfter_zero fs, hrun, errsOf_mkFails delays errs hlen]

/-- Witness for C2: the hello/world scenario — racing two
immediately-failing operations with errors "hello" and "world" yields the
aggregate error ["hello", "world"]. -/
theorem c2_race_aggregate_errors_witness :
    ∃ s', raceRun (maxDelay (mkFails [0, 0] ["hello", "world"] : List (RFut String Nat)) + 1)
        (RaceOkState.new (mkFails [0, 0] ["hello", "world"] : List (RFut String Nat)))
        = (some (.error ["hello", "world"]), s')
      ∧ s'.done = true :=
  c2_race_aggregate_errors [0, 0] ["hello", "world"] rfl (by decide) (by decide)

/-! ## Race scan: success short-circuit -/

/-- If some visited index holds an active, ready, successful operation,
the scan reports a winner. -/
theorem raceScan_isSome : ∀ (ord : List Nat) (s : RaceOkState ε τ),
    (∃ i ∈ ord, s.active.getD i false = true ∧
      ∃ w, s.futs[i]? = some (⟨0, .ok w⟩ : RFut ε τ)) →
    ((raceScan ord s).2.1).isSome = true
  | [], s, hex => by
    obtain ⟨i, hi, _⟩ := hex
    simp at hi
  | j :: rest, s, hex => by
    by_cases hact : s.active.getD j false = false
    · rw [raceScan_skip j rest s hact]
      obtain ⟨i, hi, hia, hw⟩ := hex
      rcases List.mem_cons.mp hi with rfl | hi'
      · rw [hact] at hia
        exact absurd hia (by simp)
      · exact raceScan_isSome rest s ⟨i, hi', hia, hw⟩
    · have hact' : s.active.getD j false = true := by
        cases hb : s.active.getD j false
        · exact absurd hb hact
        · rfl
      cases hfut : s.futs[j]? with
      | none =>
        rw [raceScan_oob j rest s hact' hfut]
        obtain ⟨i, hi, hia, w, hw⟩ := hex
        rcases List.mem_cons.mp hi with rfl | hi'
        · rw [hfut] at hw
          exact absurd hw (by simp)
        · exact raceScan_isSome rest s ⟨i, hi', hia, w, hw⟩
      | some f =>
        rcases f with ⟨d, r⟩
        cases d with
        | zero =>
          cases r with
          | ok w =>
            rw [raceScan_ok j rest s w hact' hfut]
            rfl
          | error e =>
            rw [raceScan_err j rest s e hact' hfut]
            obtain ⟨i, hi, hia, w, hw⟩ := hex
            rcases List.mem_cons.mp hi with rfl | hi'
            · rw [hfut] at hw
              simp at hw
            · have hij : i ≠ j := by
                intro hej
                rw [hej, hfut] at hw
                simp at hw
              apply raceScan_isSome rest
              refine ⟨i, hi', ?_, w, ?_⟩
              · show ((s.active.set j false).getD i false) = true
                rw [getD_set_ne _ _ _ (fun h => hij h.symm)]
                exact hia
              · show ((s.futs.set j _)[i]?) = some (⟨0, .ok w⟩ : RFut ε τ)
                rw [List.getElem?_set_ne (fun h => hij h.symm)]
                exact hw
        | succ d' =>
          rw [raceScan_pend j rest s d' r hact' hfut]
          obtain ⟨i, hi, hia, w, hw⟩ := hex
          rcases List.mem_cons.mp hi with rfl | hi'
          · rw [hfut] at hw
            simp at hw
          · have hij : i ≠ j := by
              intro hej
              rw [hej, hfut] at hw
              simp at hw
            apply raceScan_isSome rest
            refine ⟨i, hi', hia, w, ?_⟩
            show ((s.futs.set j _)[i]?) = some (⟨0, .ok w⟩ : RFut ε τ)
            rw [List.getElem?_set_ne (fun h => hij h.symm)]
            exact hw

/-- Shape of a winning scan: the terminal flag is set; the winner `i` was
an active operation that was ready with a success; it is the last index
driven in this call; no index scheduled after it is driven. -/
theorem raceScan_ok_shape : ∀ (ord : List Nat), ord.Nodup →
    ∀ (s s' : RaceOkState ε τ) (v : τ) (tr : List Nat),
    raceScan ord s = (s', some v, tr) →
    s'.done = true ∧
    ∃ i pre post tr0, ord = pre ++ i :: post ∧
      s.active.getD i false = true ∧
      s.futs[i]? = some (⟨0, .ok v⟩ : RFut ε τ) ∧
      tr = tr0 ++ [i] ∧ ∀ j ∈ post, j ∉ tr
  | [], _, s, s', v, tr, h => by
    rw [show raceScan ([] : List Nat) s = (s, none, []) from rfl,
      Prod.mk.injEq, Prod.mk.injEq] at h
    exact absurd h.2.1 (by simp)
  | j :: rest, hnd, s, s', v, tr, h => by
    have hndr : rest.Nodup := (List.nodup_cons.mp hnd).2
    have hjrest : j ∉ rest := (List.nodup_cons.mp hnd).1
    by_cases hact : s.active.getD j false = false
    · rw [raceScan_skip j rest s hact] at h
      obtain ⟨hdone, i, pre, post, tr0, hord, hacti, hfuti, htr, hpost⟩ :=
        raceScan_ok_shape rest hndr s s' v tr h
      exact ⟨hdone, i, j :: pre, post, tr0, by rw [List.cons_append, hord],
        hacti, hfuti, htr, hpost⟩
    · have hact' : s.active.getD j false = true := by
        cases hb : s.active.getD j false
        · exact absurd hb hact
        · rfl
      cases hfut : s.futs[j]? with
      | none =>
        rw [raceScan_oob j rest s hact' hfut] at h
        obtain ⟨hdone, i, pre, post, tr0, hord, hacti, hfuti, htr, hpost⟩ :=
          raceScan_ok_shape rest hndr s s' v tr h
        exact ⟨hdone, i, j :: pre, post, tr0, by rw [List.cons_append, hord],
          hacti, hfuti, htr, hpost⟩
      | some f =>
        rcases f with ⟨d, r⟩
        cases d with
        | zero =>
          cases r with
          | ok w =>
            rw [raceScan_ok j rest s w hact' hfut, Prod.mk.injEq, Prod.mk.injEq] at h
            obtain ⟨h1, h2, h3⟩ := h
            have hwv : w = v := by
              simpa using h2
            refine ⟨?_, j, [], rest, [], rfl, hact', ?_, ?_, ?_⟩
            · rw [← h1]
            · rw [hfut, hwv]
            · rw [← h3]
              rfl
            · intro jj hjj
              rw [← h3]
              simp only [List.mem_singleton]
              intro hej
              exact hjrest (hej ▸ hjj)
          | error e =>
            rw [raceScan_err j rest s e hact' hfut, Prod.mk.injEq, Prod.mk.injEq] at h
            obtain ⟨h1, h2, h3⟩ := h
            have hrec : raceScan rest
                { s with futs := s.futs.set j ⟨0, .error e⟩, cursor := j,
                         errors := s.errors.set j (some e),
                         completed := s.completed + 1,
                         active := s.active.set j false }
                = ((raceScan rest
                    { s with futs := s.futs.set j ⟨0, .error e⟩, cursor := j,
                             errors := s.errors.set j (some e),
                             completed := s.completed + 1,
                             active := s.active.set j false }).1, some v,
                   (raceScan rest
                    { s with futs := s.futs.set j ⟨0, .error e⟩, cursor := j,
                             errors := s.errors.set j (some e),
                             completed := s.completed + 1,
                             active := s.active.set j false }).2.2) := by
              rw [← h2]
            obtain ⟨hdone, i, pre, post, tr0, hordr, hacti, hfuti, htr, hpost⟩ :=
              raceScan_ok_shape rest hndr _ _ v _ hrec
            have hi_rest : i ∈ rest := by
              rw [hordr]
              simp
            have hij : i ≠ j := fun hh => hjrest (hh ▸ hi_rest)
            refine ⟨by rw [← h1]; exact hdone, i, j :: pre, post, j :: tr0,
              by rw [List.cons_append, hordr], ?_, ?_, ?_, ?_⟩
            · have hacti' : (s.active.set j false).getD i false = true := hacti
              rw [getD_set_ne _ _ _ (fun hh => hij hh.symm)] at hacti'
              exact hacti'
            · have hfuti' : (s.futs.set j (⟨0, .error e⟩ : RFut ε τ))[i]?
                  = some (⟨0, .ok v⟩ : RFut ε τ) := hfuti
              rw [List.getElem?_set_ne (fun hh => hij hh.symm)] at hfuti'
              exact hfuti'
            · rw [← h3, htr]
              rfl
            · intro jj hjj
              rw [← h3]
              intro hmem
              rcases List.mem_cons.mp hmem with rfl | hmem'
              · have hjr : jj ∈ rest := by
                  rw [hordr]
                  simp [hjj]
                exact hjrest hjr
              · exact hpost jj hjj hmem'
        | succ d' =>
          rw [raceScan_pend j rest s d' r hact' hfut, Prod.mk.injEq, Prod.mk.injEq] at h
          obtain ⟨h1, h2, h3⟩ := h
          have hrec : raceScan rest
              { s with futs := s.futs.set j ⟨d', r⟩, cursor := j }
              = ((raceScan rest
                  { s with futs := s.futs.set j ⟨d', r⟩, cursor := j }).1, some v,
                 (raceScan rest
                  { s with futs := s.futs.set j ⟨d', r⟩, cursor := j }).2.2) := by
            rw [← h2]
          obtain ⟨hdone, i, pre, post, tr0, hordr, hacti, hfuti, htr, hpost⟩ :=
            raceScan_ok_shape rest hndr _ _ v _ hrec
          have hi_rest : i ∈ rest := by
            rw [hordr]
            simp
          have hij : i ≠ j := fun hh => hjrest (hh ▸ hi_rest)
          refine ⟨by rw [← h1]; exact hdone, i, j :: pre, post, j :: tr0,
            by rw [List.cons_append, hordr], ?_, ?_, ?_, ?_⟩
          · exact hacti
          · have hfuti' : (s.futs.set j (⟨d', r⟩ : RFut ε τ))[i]?
                = some (⟨0, .ok v⟩ : RFut ε τ) := hfuti
            rw [List.getElem?_set_ne (fun hh => hij hh.symm)] at hfuti'
            exact hfuti'
          · rw [← h3, htr]
            rfl
          · intro jj hjj
            rw [← h3]
            intro hmem
            rcases List.mem_cons.mp hmem with rfl | hmem'
            · have hjr : jj ∈ rest := by
                rw [hordr]
                simp [hjj]
              exact hjrest hjr
            · exact hpost jj hjj hmem'

/-- One `poll` from the canonical state after `k` failing drives, when
some operation succeeds exactly at stage `k`, returns `Ok` of one of the
operations' successful values and marks the race done. -/
theorem racePoll_ok (fs : List (RFut ε τ)) (k c : Nat)
    (hnow : ∃ f ∈ fs, (∃ w, f.result = .ok w) ∧ f.delay = k) :
    ∃ v s' tr, (raceAfter fs k c).poll = some (.ready (.ok v), s', tr)
      ∧ v ∈ okValues fs ∧ s'.done = true := by
  set σ := raceAfter fs k c with hσ
  set ord := visitOrder σ.futs.length σ.cursor with hord
  set t := raceScan ord σ with ht
  have hn : σ.futs.length = fs.length := by simp [hσ, raceAfter]
  have hdone : σ.done = false := rfl
  obtain ⟨f, hmem, ⟨w, hw⟩, hdk⟩ := hnow
  obtain ⟨i, hi⟩ := List.mem_iff_getElem?.mp hmem
  have hiord : i ∈ ord := by
    rw [hord, visitOrder_mem, hn]
    exact lt_length_of_getElem?_some hi
  have hwa : σ.active.getD i false = true := by
    rw [List.getD_eq_getElem?_getD, hσ, raceAfter_active_getElem?, hi]
    simp only [Option.map_some', Option.getD_some, decide_eq_true_eq]
    omega
  have hwf : σ.futs[i]? = some (⟨0, .ok w⟩ : RFut ε τ) := by
    rw [hσ, raceAfter_futs_getElem?, hi]
    simp only [Option.map_some', Option.some.injEq]
    rw [hw, hdk]
    simp
  have hsome : (t.2.1).isSome = true := by
    rw [ht]
    exact raceScan_isSome ord σ ⟨i, hiord, hwa, w, hwf⟩
  obtain ⟨v, hv⟩ := Option.isSome_iff_exists.mp hsome
  have hscan : raceScan ord σ = (t.1, some v, t.2.2) := by
    rw [← hv, ← ht]
  obtain ⟨hdone', i', pre, post, tr0, _, _, hfut', _, _⟩ :=
    raceScan_ok_shape ord (visitOrder_nodup _ _) σ t.1 v t.2.2 hscan
  have hvmem : v ∈ okValues fs := by
    rw [hσ, raceAfter_futs_getElem?] at hfut'
    cases hfs' : fs[i']? with
    | none =>
      rw [hfs'] at hfut'
      simp at hfut'
    | some f0 =>
      rw [hfs'] at hfut'
      simp only [Option.map_some', Option.some.injEq] at hfut'
      have hres : f0.result = .ok v := by
        have hre : (⟨f0.delay - k, f0.result⟩ : RFut ε τ).result
            = (⟨0, .ok v⟩ : RFut ε τ).result := by
          rw [hfut']
        exact hre
      refine List.mem_filterMap.mpr ⟨f0, mem_of_getElem?_some hfs', ?_⟩
      rw [hres]
  refine ⟨v, t.1, t.2.2, ?_, hvmem, hdone'⟩
  simp only [RaceOkState.poll]
  rw [if_neg (by rw [hdone]; simp)]
  rw [← hord, ← ht]
  simp only [hv]

/-- When at least one operation succeeds, driving the race with enough
fuel returns `Ok` of one of the successful values. -/
theorem raceRun_ok (fs : List (RFut ε τ)) :
    ∀ m k c,
      (∃ f ∈ fs, (∃ w, f.result = .ok w) ∧ f.delay ≤ k + m) →
      (∀ f ∈ fs, ∀ w, f.result = .ok w → k ≤ f.delay) →
      ∃ v s', raceRun (m + 1) (raceAfter fs k c) = (some (.ok v), s')
        ∧ v ∈ okValues fs ∧ s'.done = true := by
  intro m
  induction m with
  | zero =>
    intro k c hok hmin
    obtain ⟨f, hmem, hw, hdel⟩ := hok
    have hdk : f.delay = k := by
      obtain ⟨w, hw'⟩ := hw
      have := hmin f hmem w hw'
      omega
    obtain ⟨v, s', tr, hpoll, hvmem, hdone⟩ :=
      racePoll_ok fs k c ⟨f, hmem, hw, hdk⟩
    refine ⟨v, s', ?_, hvmem, hdone⟩
    rw [raceRun, hpoll]
  | succ m ih =>
    intro k c hok hmin
    by_cases hnow : ∃ f ∈ fs, (∃ w, f.result = .ok w) ∧ f.delay = k
    · obtain ⟨v, s', tr, hpoll, hvmem, hdone⟩ := racePoll_ok fs k c hnow
      refine ⟨v, s', ?_, hvmem, hdone⟩
      rw [raceRun, hpoll]
    · push_neg at hnow
      have herr : ∀ f ∈ fs, f.delay = k → ∃ e, f.result = .error e := by
        intro f hmem hdk
        cases hres : f.result with
        | error e => exact ⟨e, rfl⟩
        | ok w => exact absurd hdk (hnow f hmem ⟨w, hres⟩)
      obtain ⟨f, hmem, hw, hdel⟩ := hok
      have hrem : ∃ f ∈ fs, k < f.delay := by
        refine ⟨f, hmem, ?_⟩
        obtain ⟨w, hw'⟩ := hw
        have h1 := hmin f hmem w hw'
        have h2 := hnow f hmem ⟨w, hw'⟩
        omega
      obtain ⟨c', tr, hpoll⟩ := racePoll_fail_pending fs k c herr hrem
      obtain ⟨v, s', hrun, hvmem, hdone⟩ := ih (k + 1) c'
        ⟨f, hmem, hw, by omega⟩
        (by
          intro g hg w hgw
          have h1 := hmin g hg w hgw
          have h2 := hnow g hg ⟨w, hgw⟩
          omega)
      refine ⟨v, s', ?_, hvmem, hdone⟩
      rw [raceRun, hpoll]
      exact hrun

/-- C4: in any `drive()` call — a scan of a duplicate-free visit order —
if a visited operation returns a successful value `v`, the combinator sets
its terminal flag and immediately returns `Ok v` to the caller: the winner
is an active operation whose future was ready with success, it is the last
index driven in that call, and no operation scheduled after it is driven
(the scan short-circuits).  Consequently, whenever at least one of the
operations succeeds, the run returns `Ok` of exactly one successful value
(one of the operations' success values) with the terminal flag set, so no
further successful value is ever observed (any later poll is the C5 usage
error). -/
theorem c4_race_success_short_circuit
    (ord : List Nat) (hnd : ord.Nodup) (s s' : RaceOkState ε τ) (v : τ)
    (tr : List Nat) (hscan : raceScan ord s = (s', some v, tr))
    (fs : List (RFut ε τ)) (m : Nat)
    (hok : ∃ f ∈ fs, (∃ w, f.result = .ok w) ∧ f.delay ≤ m) :
    (s'.done = true ∧
      ∃ i pre post tr0, ord = pre ++ i :: post ∧
        s.active.getD i false = true ∧
        s.futs[i]? = some (⟨0, .ok v⟩ : RFut ε τ) ∧
        tr = tr0 ++ [i] ∧ ∀ j ∈ post, j ∉ tr) ∧
    ∃ w s'', raceRun (m + 1) (RaceOkState.new fs) = (some (.ok w), s'')
      ∧ w ∈ okValues fs ∧ s''.done = true := by
  constructor
  · exact raceScan_ok_shape ord hnd s s' v tr hscan
  · rw [raceAfter_zero fs]
    exact raceRun_ok fs m 0 (fs.length - 1) (by simpa using hok)
      (fun _ _ _ _ => Nat.zero_le _)

def c4WitnessState : RaceOkState Nat Nat :=
  { completed := 1, done := true, cursor := 0, active := [false],
    errors := [none], futs := [⟨0, .ok 42⟩] }

/-- Witness for C4: a single immediately-successful operation; the scan
short-circuits with `Ok 42`, and the one-poll run returns it. -/
theorem c4_race_success_short_circuit_witness :
    (c4WitnessState.done = true ∧
      ∃ i pre post tr0, [0] = pre ++ i :: post ∧
        (RaceOkState.new [(⟨0, .ok 42⟩ : RFut Nat Nat)]).active.getD i false = true ∧
        (RaceOkState.new [(⟨0, .ok 42⟩ : RFut Nat Nat)]).futs[i]?
          = some (⟨0, .ok 42⟩ : RFut Nat Nat) ∧
        [0] = tr0 ++ [i] ∧ ∀ j ∈ post, j ∉ [0]) ∧
    ∃ w s'', raceRun (0 + 1) (RaceOkState.new [(⟨0, .ok 42⟩ : RFut Nat Nat)])
        = (some (.ok w), s'')
      ∧ w ∈ okValues [(⟨0, .ok 42⟩ : RFut Nat Nat)] ∧ s''.done = true :=
  c4_race_success_short_circuit [0] (by decide)
    (RaceOkState.new [(⟨0, .ok 42⟩ : RFut Nat Nat)]) c4WitnessState 42 [0]
    (by rfl) [(⟨0, .ok 42⟩ : RFut Nat Nat)] 0
    ⟨⟨0, .ok 42⟩, by decide, ⟨42, rfl⟩, by decide⟩

/-! ## Drive-sequence facts for the active set -/

/-- All active-set facts of a single successful `poll`, at poll level:
the driven indices are distinct; driven implies active on entry; an index
active on exit was active on entry; an index removed during the call was
driven and was ready to complete; a driven index that was ready to
complete ends the call removed. -/
theorem racePoll_facts (s : RaceOkState ε τ) (p : MPoll (Except (List ε) τ))
    (s' : RaceOkState ε τ) (tr : List Nat)
    (h : s.poll = some (p, s', tr)) :
    tr.Nodup ∧
    (∀ i, i ∈ tr → s.active.getD i false = true) ∧
    (∀ i, s'.active.getD i false = true → s.active.getD i false = true) ∧
    (∀ i, s.active.getD i false = true → s'.active.getD i false = false →
      i ∈ tr ∧ ∃ r, s.futs[i]? = some (⟨0, r⟩ : RFut ε τ)) ∧
    (∀ i r, i ∈ tr → s.futs[i]? = some (⟨0, r⟩ : RFut ε τ) →
      s'.active.getD i false = false) := by
  by_cases hdone : s.done = true
  · unfold RaceOkState.poll at h
    rw [if_pos hdone] at h
    exact absurd h (by simp)
  · simp only [RaceOkState.poll] at h
    rw [if_neg hdone] at h
    set ord := visitOrder s.futs.length s.cursor with hord
    set t := raceScan ord s with ht
    have hnd : ord.Nodup := visitOrder_nodup _ _
    have hkey : s'.active = t.1.active ∧ tr = t.2.2 := by
      cases hv : t.2.1 with
      | some v =>
        simp only [hv, Option.some.injEq, Prod.mk.injEq] at h
        obtain ⟨_, hs', htr⟩ := h
        exact ⟨by rw [← hs'], htr.symm⟩
      | none =>
        simp only [hv] at h
        by_cases hc : t.1.completed = t.1.futs.length
        · rw [if_pos hc] at h
          simp only [Option.some.injEq, Prod.mk.injEq] at h
          obtain ⟨_, hs', htr⟩ := h
          exact ⟨by rw [← hs'], htr.symm⟩
        · rw [if_neg hc] at h
          simp only [Option.some.injEq, Prod.mk.injEq] at h
          obtain ⟨_, hs', htr⟩ := h
          exact ⟨by rw [← hs'], htr.symm⟩
    obtain ⟨hact, htr⟩ := hkey
    refine ⟨?_, ?_, ?_, ?_, ?_⟩
    · rw [htr]
      exact (raceScan_trace_sublist ord s).nodup hnd
    · intro i hi
      rw [htr] at hi
      exact raceScan_polled_active ord s i hi
    · intro i hi
      rw [hact] at hi
      exact raceScan_active_mono ord s i hi
    · intro i hia hid
      rw [hact] at hid
      obtain ⟨hmem, r, hfi⟩ := raceScan_deact ord hnd s i hia hid
      rw [htr]
      exact ⟨hmem, r, hfi⟩
    · intro i r hi hfi
      rw [htr] at hi
      rw [hact]
      exact raceScan_complete_deact ord hnd s i r hi hfi

/-- A run that recorded no drives ends in its start state. -/
theorem raceDrives_nil_final : ∀ (m : Nat) (s : RaceOkState ε τ),
    (raceDrives m s).1 = [] → (raceDrives m s).2 = s
  | 0, s, _ => rfl
  | m + 1, s, h => by
    simp only [raceDrives] at h ⊢
    cases hp : s.poll with
    | none => rfl
    | some q =>
      obtain ⟨q1, q2, q3⟩ := q
      cases q1 with
      | ready r =>
        rw [hp] at h
        simp at h
      | pending =>
        rw [hp] at h
        simp at h

/-- The first recorded drive of a run starts in the run's start state. -/
theorem raceDrives_head : ∀ (m : Nat) (s : RaceOkState ε τ) (a : RaceOkState ε τ)
    (tr : List Nat), (raceDrives m s).1[0]? = some (a, tr) → a = s
  | 0, s, a, tr, h => by
    simp [raceDrives] at h
  | m + 1, s, a, tr, h => by
    simp only [raceDrives] at h
    cases hp : s.poll with
    | none =>
      rw [hp] at h
      simp at h
    | some q =>
      obtain ⟨q1, q2, q3⟩ := q
      cases q1 with
      | ready r =>
        rw [hp] at h
        simp only [List.getElem?_cons_zero, Option.some.injEq, Prod.mk.injEq] at h
        exact h.1.symm
      | pending =>
        rw [hp] at h
        simp only [List.getElem?_cons_zero, Option.some.injEq, Prod.mk.injEq] at h
        exact h.1.symm

/-- Each recorded drive really is one `poll`: its state polls to the
recorded trace, and the poll's exit state is the next recorded drive's
entry state (or the run's final state if it was the last drive). -/
theorem raceDrives_chain : ∀ (m : Nat) (s0 : RaceOkState ε τ) (j : Nat)
    (s : RaceOkState ε τ) (tr : List Nat),
    (raceDrives m s0).1[j]? = some (s, tr) →
    ∃ p s', s.poll = some (p, s', tr) ∧
      (((raceDrives m s0).1[j + 1]?).map Prod.fst).getD (raceDrives m s0).2 = s'
  | 0, s0, j, s, tr, h => by
    simp [raceDrives] at h
  | m + 1, s0, j, s, tr, h => by
    simp only [raceDrives] at h ⊢
    cases hp : s0.poll with
    | none =>
      rw [hp] at h
      simp at h
    | some q =>
      obtain ⟨q1, s1, tr1⟩ := q
      cases q1 with
      | ready r =>
        rw [hp] at h
        cases j with
        | zero =>
          simp only [List.getElem?_cons_zero, Option.some.injEq, Prod.mk.injEq] at h
          refine ⟨.ready r, s1, ?_, ?_⟩
          · rw [h.1, h.2] at hp
            exact hp
          · rfl
        | succ j' =>
          simp only [List.getElem?_cons_succ] at h
          simp at h
      | pending =>
        rw [hp] at h
        cases j with
        | zero =>
          simp only [List.getElem?_cons_zero, Option.some.injEq, Prod.mk.injEq] at h
          refine ⟨.pending, s1, ?_, ?_⟩
          · rw [h.1, h.2] at hp
            exact hp
          · simp only [List.getElem?_cons_succ]
            cases hL : (raceDrives m s1).1[0]? with
            | none =>
              simp only [hL, Option.map_none', Option.getD_none]
              have hnil : (raceDrives m s1).1 = [] := by
                cases hLL : (raceDrives m s1).1 with
                | nil => rfl
                | cons x xs =>
                  rw [hLL] at hL
                  simp at hL
              exact raceDrives_nil_final m s1 hnil
            | some q' =>
              obtain ⟨a, tra⟩ := q'
              simp only [hL, Option.map_some', Option.getD_some]
              exact raceDrives_head m s1 a tra hL
        | succ j' =>
          simp only [List.getElem?_cons_succ] at h ⊢
          exact raceDrives_chain m s1 j' s tr h

/-- Consecutive recorded drives are linked by one `poll`. -/
theorem raceDrives_step (m : Nat) (s0 : RaceOkState ε τ) (j : Nat)
    (s1 s2 : RaceOkState ε τ) (tr1 tr2 : List Nat)
    (h1 : (raceDrives m s0).1[j]? = some (s1, tr1))
    (h2 : (raceDrives m s0).1[j + 1]? = some (s2, tr2)) :
    ∃ p, s1.poll = some (p, s2, tr1) := by
  obtain ⟨p, s', hpoll, hnext⟩ := raceDrives_chain m s0 j s1 tr1 h1
  rw [h2] at hnext
  simp only [Option.map_some', Option.getD_some] at hnext
  rw [← hnext] at hpoll
  exact ⟨p, hpoll⟩

/-- An index inactive at the entry of some recorded drive stays inactive
at the entry of every later recorded drive. -/
theorem raceDrives_inactive_persists (m : Nat) (s0 : RaceOkState ε τ) (i : Nat) :
    ∀ (d j : Nat) (s1 s2 : RaceOkState ε τ) (tr1 tr2 : List Nat),
    (raceDrives m s0).1[j]? = some (s1, tr1) →
    (raceDrives m s0).1[j + d]? = some (s2, tr2) →
    s1.active.getD i false = false →
    s2.active.getD i false = false := by
  intro d
  induction d with
  | zero =>
    intro j s1 s2 tr1 tr2 h1 h2 hin
    rw [Nat.add_zero, h1] at h2
    simp only [Option.some.injEq, Prod.mk.injEq] at h2
    rw [← h2.1]
    exact hin
  | succ d ih =>
    intro j s1 s2 tr1 tr2 h1 h2 hin
    have hlen : j + d + 1 < (raceDrives m s0).1.length := lt_length_of_getElem?_some h2
    have hlt : j + d < (raceDrives m s0).1.length := by omega
    obtain ⟨sm, trm, hm⟩ : ∃ sm trm, (raceDrives m s0).1[j + d]? = some (sm, trm) := by
      rw [List.getElem?_eq_getElem hlt]
      exact ⟨_, _, rfl⟩
    have hmin := ih j s1 sm tr1 trm h1 hm hin
    obtain ⟨p, hpoll⟩ := raceDrives_step m s0 (j + d) sm s2 trm tr2 hm h2
    obtain ⟨_, _, hmono, _, _⟩ := racePoll_facts sm p s2 trm hpoll
    cases hb : s2.active.getD i false
    · rfl
    · exact absurd (hmono i hb) (by rw [hmin]; simp)

/-- C3: active-set discipline over every sequence of `drive()` calls
before the terminal result.  For any two recorded drives `j1 ≤ j2` of a
run: each call drives an index at most once; a driven index was in the
active set at the call's entry; an index out of the active set stays out
for every later call and is never driven again; an operation that
completed during call `j1` (it was driven and its future was ready to
finish) is out of the active set at every later call's entry and never
driven again; and an index removed between consecutive calls was removed
precisely because that call drove it to completion — so the index is
removed exactly once, at the completing call. -/
theorem c3_race_once_removed (fs : List (RFut ε τ)) (m j1 j2 : Nat)
    (s1 s2 : RaceOkState ε τ) (tr1 tr2 : List Nat) (i : Nat)
    (h1 : (raceDrives m (RaceOkState.new fs)).1[j1]? = some (s1, tr1))
    (h2 : (raceDrives m (RaceOkState.new fs)).1[j2]? = some (s2, tr2)) :
    tr1.Nodup ∧
    (i ∈ tr1 → s1.active.getD i false = true) ∧
    (j1 ≤ j2 → s1.active.getD i false = false →
      s2.active.getD i false = false ∧ i ∉ tr2) ∧
    (j1 < j2 → i ∈ tr1 → (∃ r, s1.futs[i]? = some (⟨0, r⟩ : RFut ε τ)) →
      s2.active.getD i false = false ∧ i ∉ tr2) ∧
    (j1 + 1 = j2 → s1.active.getD i false = true →
      s2.active.getD i false = false →
      i ∈ tr1 ∧ ∃ r, s1.futs[i]? = some (⟨0, r⟩ : RFut ε τ)) := by
  obtain ⟨p1, s1', hpoll1, _⟩ := raceDrives_chain m (RaceOkState.new fs) j1 s1 tr1 h1
  obtain ⟨hnd1, hpa1, _, hdeact1, _⟩ := racePoll_facts s1 p1 s1' tr1 hpoll1
  obtain ⟨p2, s2', hpoll2, _⟩ := raceDrives_chain m (RaceOkState.new fs) j2 s2 tr2 h2
  obtain ⟨_, hpa2, _, _, _⟩ := racePoll_facts s2 p2 s2' tr2 hpoll2
  have hnotin : s2.active.getD i false = false → i ∉ tr2 := by
    intro hs2 hmem
    exact absurd (hpa2 i hmem) (by rw [hs2]; simp)
  refine ⟨hnd1, hpa1 i, ?_, ?_, ?_⟩
  · intro hle hin
    have h2' : (raceDrives m (RaceOkState.new fs)).1[j1 + (j2 - j1)]? = some (s2, tr2) := by
      rw [show j1 + (j2 - j1) = j2 from by omega]
      exact h2
    have hs2 := raceDrives_inactive_persists m (RaceOkState.new fs) i
      (j2 - j1) j1 s1 s2 tr1 tr2 h1 h2' hin
    exact ⟨hs2, hnotin hs2⟩
  · intro hlt hmem hready
    obtain ⟨r, hfi⟩ := hready
    have hlen2 : j2 < (raceDrives m (RaceOkState.new fs)).1.length :=
      lt_length_of_getElem?_some h2
    have hlt1 : j1 + 1 < (raceDrives m (RaceOkState.new fs)).1.length := by omega
    obtain ⟨sm, trm, hm⟩ :
        ∃ sm trm, (raceDrives m (RaceOkState.new fs)).1[j1 + 1]? = some (sm, trm) := by
      rw [List.getElem?_eq_getElem (by omega : j1 + 1 < _)]
      exact ⟨_, _, rfl⟩
    obtain ⟨pm, hpollm⟩ := raceDrives_step m (RaceOkState.new fs) j1 s1 sm tr1 trm h1 hm
    obtain ⟨_, _, _, _, hcd⟩ := racePoll_facts s1 pm sm tr1 hpollm
    have hsm : sm.active.getD i false = false := hcd i r hmem hfi
    have h2' : (raceDrives m (RaceOkState.new fs)).1[(j1 + 1) + (j2 - (j1 + 1))]?
        = some (s2, tr2) := by
      rw [show (j1 + 1) + (j2 - (j1 + 1)) = j2 from by omega]
      exact h2
    have hs2 := raceDrives_inactive_persists m (RaceOkState.new fs) i
      (j2 - (j1 + 1)) (j1 + 1) sm s2 trm tr2 hm h2' hsm
    exact ⟨hs2, hnotin hs2⟩
  · intro heq hact hdeact
    have h2' : (raceDrives m (RaceOkState.new fs)).1[j1 + 1]? = some (s2, tr2) := by
      rw [heq]
      exact h2
    obtain ⟨pm, hpollm⟩ := raceDrives_step m (RaceOkState.new fs) j1 s1 s2 tr1 tr2 h1 h2'
    obtain ⟨_, _, _, hdeactm, _⟩ := racePoll_facts s1 pm s2 tr1 hpollm
    exact hdeactm i hact hdeact

def c3W1 : RaceOkState Nat Nat :=
  RaceOkState.new [⟨1, Except.error 10⟩, ⟨1, Except.ok 7⟩]

def c3W2 : RaceOkState Nat Nat :=
  { completed := 0, done := false, cursor := 1, active := [true, true],
    errors := [none, none], futs := [⟨0, Except.error 10⟩, ⟨0, Except.ok 7⟩] }

/-- Witness for C3: a two-operation race recorded over two drives; the
claim theorem applied to its first two recorded drives at index 0. -/
theorem c3_race_once_removed_witness :
    (raceDrives 3 (RaceOkState.new
        [(⟨1, Except.error 10⟩ : RFut Nat Nat), ⟨1, Except.ok 7⟩])).1[0]?
      = some (c3W1, [0, 1]) ∧
    (raceDrives 3 (RaceOkState.new
        [(⟨1, Except.error 10⟩ : RFut Nat Nat), ⟨1, Except.ok 7⟩])).1[1]?
      = some (c3W2, [0, 1]) ∧
    (([0, 1] : List Nat).Nodup ∧
    (0 ∈ ([0, 1] : List Nat) → c3W1.active.getD 0 false = true) ∧
    (0 ≤ 1 → c3W1.active.getD 0 false = false →
      c3W2.active.getD 0 false = false ∧ 0 ∉ ([0, 1] : List Nat)) ∧
    (0 < 1 → 0 ∈ ([0, 1] : List Nat) →
      (∃ r, c3W1.futs[0]? = some (⟨0, r⟩ : RFut Nat Nat)) →
      c3W2.active.getD 0 false = false ∧ 0 ∉ ([0, 1] : List Nat)) ∧
    (0 + 1 = 1 → c3W1.active.getD 0 false = true →
      c3W2.active.getD 0 false = false →
      0 ∈ ([0, 1] : List Nat) ∧
        ∃ r, c3W1.futs[0]? = some (⟨0, r⟩ : RFut Nat Nat))) :=
  ⟨by rfl, by rfl,
    c3_race_once_removed [⟨1, Except.error 10⟩, ⟨1, Except.ok 7⟩] 3 0 1
      c3W1 c3W2 [0, 1] [0, 1] 0 (by rfl) (by rfl)⟩
